import Mathlib

/-!
# FreeRADIUS string buffers: the bounds core of `src/lib/util/sbuff.h`

A shallow embedding of the position arithmetic of `sbuff.h` and the properties
proved about it.

Conventions of the embedding

* A pointer into the storage (`char *`) is a natural number, its address.  A
  difference of two pointers and every `ssize_t` is an `Int`; a `size_t` is a
  `Nat`.  Pointers and sizes have 64 bits.  The target of `fr_sbuff_advance` and
  of `fr_sbuff_set` with a `size_t` is the sum of a pointer and of a size that
  the caller chooses; the machine computes that sum modulo `2 ^ 64` and
  `_fr_sbuff_set` compares the result with the window, so the sum is taken
  modulo `2 ^ 64` (`ptr_add`).  Elsewhere addresses and sizes are added and
  subtracted as natural numbers and integers.
* `fr_sbuff_t` holds the fields of `struct fr_sbuff_s` other than `parent`.
  A `fr_sbuff_t *` is a `fr_sbuff_ptr`: the list made of the buffer pointed to,
  then its parent, then the parent of that one, and so on until the buffer
  whose `parent` is `NULL`.  The empty list is the `NULL` pointer.  A function
  that writes through the pointer returns the list after the writes.
* The `extend` field is a function pointer: `none` is `NULL`, `some f` a code
  address.  The storage backends are not part of `sbuff.h`; what a call through
  address `f` does is given by a parameter `fn f` of type `fr_sbuff_extend_t σ`,
  where `σ` is the state outside the buffer structures (storage contents, the
  backend's private data).
* A macro that may `return` from the enclosing function yields
  `some v` when it returns `v` and `none` when control falls through.
-/

/-- The fields of `struct fr_sbuff_s`, `parent` excepted (see `fr_sbuff_ptr`). -/
structure fr_sbuff_t where
  /-- The start of the underlying buffer. -/
  buff : Nat
  /-- The start position. -/
  start : Nat
  /-- The end position (`end` in the source). -/
  end_ : Nat
  /-- The current position. -/
  p : Nat
  /-- Bit field: can't be modified. -/
  is_const : Bool
  /-- Bit field: if true, advance the parent. -/
  adv_parent : Bool
  /-- How many bytes this sbuff has been shifted since its creation. -/
  shifted : Nat
  /-- Function to re-populate or extend the buffer, `none` when `NULL`. -/
  extend : Option Nat
  /-- Extend uctx data, `none` when `NULL`. -/
  uctx : Option Nat
  /-- Head of the list of markers, `none` when `NULL`. -/
  m : Option Nat
deriving DecidableEq, Repr

/-- A `fr_sbuff_t *`: the buffer pointed to followed by its chain of parents. -/
abbrev fr_sbuff_ptr := List fr_sbuff_t

/-- What calling an extension function does: from the outside state, the buffer
and the requested extension to the new outside state, the buffer afterwards
and the `size_t` returned. -/
abbrev fr_sbuff_extend_t (σ : Type) := σ → fr_sbuff_ptr → Nat → σ × fr_sbuff_ptr × Nat

/-- The function `_fr_sbuff_init`: `end` is raised to `start` when below it, and
every field not named in the compound literal is zero. -/
def _fr_sbuff_init (start end_ : Nat) (is_const : Bool) : fr_sbuff_ptr :=
  let end_ := if end_ < start then start else end_
  [{ buff := start, start := start, end_ := end_, p := start, is_const := is_const,
     adv_parent := false, shifted := 0, extend := none, uctx := none, m := none }]

/-- The macro `FR_SBUFF_NO_ADVANCE`: an ephemeral copy that does not advance its parent. -/
def FR_SBUFF_NO_ADVANCE : fr_sbuff_ptr → fr_sbuff_ptr
  | [] => []
  | sbuff :: parent =>
    { buff := sbuff.buff, start := sbuff.p, end_ := sbuff.end_, p := sbuff.p,
      is_const := sbuff.is_const, adv_parent := false, shifted := 0,
      extend := sbuff.extend, uctx := sbuff.uctx, m := none } :: sbuff :: parent

/-- The macro `FR_SBUFF_COPY`: an ephemeral copy that advances its parent. -/
def FR_SBUFF_COPY : fr_sbuff_ptr → fr_sbuff_ptr
  | [] => []
  | sbuff :: parent =>
    { buff := sbuff.buff, start := sbuff.p, end_ := sbuff.end_, p := sbuff.p,
      is_const := sbuff.is_const, adv_parent := true, shifted := 0,
      extend := sbuff.extend, uctx := sbuff.uctx, m := none } :: sbuff :: parent

/-- The macro `fr_sbuff_start` on an sbuff. -/
def fr_sbuff_start (sbuff : fr_sbuff_t) : Nat := sbuff.start

/-- The macro `fr_sbuff_current` on an sbuff. -/
def fr_sbuff_current (sbuff : fr_sbuff_t) : Nat := sbuff.p

/-- The macro `fr_sbuff_end` on an sbuff. -/
def fr_sbuff_end (sbuff : fr_sbuff_t) : Nat := sbuff.end_

/-- The macro `fr_sbuff_remaining` on an sbuff. -/
def fr_sbuff_remaining (sbuff : fr_sbuff_t) : Nat :=
  if fr_sbuff_end sbuff < fr_sbuff_current sbuff then 0
  else fr_sbuff_end sbuff - fr_sbuff_current sbuff

/-- The macro `fr_sbuff_used` on an sbuff. -/
def fr_sbuff_used (sbuff : fr_sbuff_t) : Nat :=
  if fr_sbuff_start sbuff > fr_sbuff_current sbuff then 0
  else fr_sbuff_current sbuff - fr_sbuff_start sbuff

/-- The function `_fr_sbuff_set_recurse`: update the position of `p` in a list of sbuffs. -/
def _fr_sbuff_set_recurse : fr_sbuff_ptr → Nat → fr_sbuff_ptr
  | [], _ => []
  | sbuff :: parent, p =>
    { sbuff with p := p } ::
      (if sbuff.adv_parent = true ∧ parent ≠ [] then _fr_sbuff_set_recurse parent p else parent)

/-- The function `_fr_sbuff_set`: the value returned and the buffers afterwards. -/
def _fr_sbuff_set : fr_sbuff_ptr → Nat → Int × fr_sbuff_ptr
  | [], _ => (0, [])
  | sbuff :: parent, p =>
    if p > sbuff.end_ then (-((p : Int) - (sbuff.end_ : Int)), sbuff :: parent)
    else if p < sbuff.start then (0, sbuff :: parent)
    else if p = sbuff.p then (0, sbuff :: parent)
    else ((p : Int) - (sbuff.p : Int), _fr_sbuff_set_recurse (sbuff :: parent) p)

/-- The macro `fr_sbuff_set` with an sbuff as `_dst` and a pointer as `_src`. -/
def fr_sbuff_set (dst : fr_sbuff_ptr) (src : Nat) : Int × fr_sbuff_ptr :=
  _fr_sbuff_set dst src

/-- The constant `SIZE_MAX` of a 64 bit `size_t`, which is also the largest
address. -/
def SIZE_MAX : Nat := 2 ^ 64 - 1

/-- The pointer `p + n` for a pointer `p` and a `size_t` `n`, as the machine
computes it: the sum modulo `2 ^ 64`. -/
def ptr_add (p n : Nat) : Nat := (p + n) % (SIZE_MAX + 1)

/-- The macro `fr_sbuff_set` with an sbuff as `_dst` and a `size_t` as `_src`:
the target is `fr_sbuff_start(_dst) + (uintptr_t)_src`. -/
def fr_sbuff_set_size : fr_sbuff_ptr → Nat → Int × fr_sbuff_ptr
  | [], _ => (0, [])
  | sbuff :: parent, src => _fr_sbuff_set (sbuff :: parent) (ptr_add (fr_sbuff_start sbuff) src)

/-- The macro `fr_sbuff_advance` on an sbuff: the target is
`fr_sbuff_current(_sbuff) + _n`. -/
def fr_sbuff_advance : fr_sbuff_ptr → Nat → Int × fr_sbuff_ptr
  | [], _ => (0, [])
  | sbuff :: parent, n => fr_sbuff_set (sbuff :: parent) (ptr_add (fr_sbuff_current sbuff) n)

/-- The function `fr_sbuff_set_to_start`. -/
def fr_sbuff_set_to_start : fr_sbuff_ptr → fr_sbuff_ptr
  | [] => []
  | sbuff :: parent => _fr_sbuff_set_recurse (sbuff :: parent) sbuff.start

/-- The function `fr_sbuff_set_to_end`. -/
def fr_sbuff_set_to_end : fr_sbuff_ptr → fr_sbuff_ptr
  | [] => []
  | sbuff :: parent => _fr_sbuff_set_recurse (sbuff :: parent) sbuff.end_

/-- The macro `FR_SBUFF_CHECK_REMAINING_RETURN`. -/
def FR_SBUFF_CHECK_REMAINING_RETURN : fr_sbuff_ptr → Nat → Option Int × fr_sbuff_ptr
  | [], _ => (none, [])
  | sbuff :: parent, len =>
    if len > fr_sbuff_remaining sbuff then
      (some (-((len : Int) - (fr_sbuff_remaining sbuff : Int))), sbuff :: parent)
    else (none, sbuff :: parent)

/-- The result of code that may call the extension function: the value, the
outside state and the buffers afterwards. -/
structure sbuff_result (σ : Type) (α : Type) where
  /-- The value the code yields. -/
  val : α
  /-- The state outside the buffers afterwards. -/
  world : σ
  /-- The buffers afterwards. -/
  sbuff : fr_sbuff_ptr

/-- The macro `FR_SBUFF_EXTEND_OR_RETURN`.  After a call of the extension
function `p` and `end` are read again from the buffer. -/
def FR_SBUFF_EXTEND_OR_RETURN {σ : Type} (fn : Nat → fr_sbuff_extend_t σ) (w : σ) :
    fr_sbuff_ptr → Nat → sbuff_result σ (Option Int)
  | [], _ => ⟨none, w, []⟩
  | sbuff :: parent, len =>
    if fr_sbuff_remaining sbuff < len then
      match sbuff.extend with
      | none => ⟨some (-((sbuff.p + len : Nat) - (sbuff.end_ : Int))), w, sbuff :: parent⟩
      | some f =>
        match fn f w (sbuff :: parent) len with
        | (w1, [], _) => ⟨none, w1, []⟩
        | (w1, sbuff1 :: parent1, r) =>
          if r < len then
            ⟨some (-((sbuff1.p + len : Nat) - (sbuff1.end_ : Int))), w1, sbuff1 :: parent1⟩
          else ⟨none, w1, sbuff1 :: parent1⟩
    else ⟨none, w, sbuff :: parent⟩

/-- The macro `FR_SBUFF_CANT_EXTEND_LOWAT`. -/
def FR_SBUFF_CANT_EXTEND_LOWAT {σ : Type} (fn : Nat → fr_sbuff_extend_t σ) (w : σ) :
    fr_sbuff_ptr → Nat → sbuff_result σ Bool
  | [], _ => ⟨true, w, []⟩
  | sbuff :: parent, lowat =>
    if fr_sbuff_remaining sbuff < lowat then
      match sbuff.extend with
      | none => ⟨true, w, sbuff :: parent⟩
      | some f =>
        match fn f w (sbuff :: parent) (lowat - fr_sbuff_remaining sbuff) with
        | (w1, sbuff1, r) => ⟨decide (r = 0), w1, sbuff1⟩
    else ⟨false, w, sbuff :: parent⟩

/-- The macro `FR_SBUFF_CANT_EXTEND`. -/
def FR_SBUFF_CANT_EXTEND {σ : Type} (fn : Nat → fr_sbuff_extend_t σ) (w : σ)
    (sbuff : fr_sbuff_ptr) : sbuff_result σ Bool :=
  FR_SBUFF_CANT_EXTEND_LOWAT fn w sbuff 1

/-- The function `fr_sbuff_next`: advance the sbuff by one char.  The byte at an
address is read from the outside state with `load`. -/
def fr_sbuff_next {σ : Type} (fn : Nat → fr_sbuff_extend_t σ) (load : σ → Nat → Nat) (w : σ)
    (sbuff : fr_sbuff_ptr) : sbuff_result σ Nat :=
  match FR_SBUFF_CANT_EXTEND fn w sbuff with
  | ⟨true, w1, sbuff1⟩ => ⟨0, w1, sbuff1⟩
  | ⟨false, w1, []⟩ => ⟨0, w1, []⟩
  | ⟨false, w1, sbuff1 :: parent1⟩ => ⟨load w1 sbuff1.p, w1, { sbuff1 with p := sbuff1.p + 1 } :: parent1⟩

/-- A call that moves the position of an sbuff without touching the storage. -/
inductive position_call where
  /-- The call `fr_sbuff_set(sbuff, p)` with a pointer `p`. -/
  | set (p : Nat)
  /-- The call `fr_sbuff_set(sbuff, n)` with a `size_t` offset `n`. -/
  | set_size (n : Nat)
  /-- The call `fr_sbuff_advance(sbuff, n)`. -/
  | advance (n : Nat)
  /-- The call `fr_sbuff_set_to_start(sbuff)`. -/
  | set_to_start
  /-- The call `fr_sbuff_set_to_end(sbuff)`. -/
  | set_to_end
deriving DecidableEq, Repr

/-- The buffers after one position call (its return value is dropped). -/
def position_call.run : position_call → fr_sbuff_ptr → fr_sbuff_ptr
  | .set p, sbuff => (fr_sbuff_set sbuff p).2
  | .set_size n, sbuff => (fr_sbuff_set_size sbuff n).2
  | .advance n, sbuff => (fr_sbuff_advance sbuff n).2
  | .set_to_start, sbuff => fr_sbuff_set_to_start sbuff
  | .set_to_end, sbuff => fr_sbuff_set_to_end sbuff

/-- The buffers after a sequence of position calls, first call first. -/
def run_position_calls (calls : List position_call) (sbuff : fr_sbuff_ptr) : fr_sbuff_ptr :=
  calls.foldl (fun s c => c.run s) sbuff

/-- A position call or a call of `fr_sbuff_next`. -/
inductive cursor_call where
  /-- One of the position calls. -/
  | position (c : position_call)
  /-- The call `fr_sbuff_next(sbuff)`. -/
  | next
deriving DecidableEq, Repr

/-- The outside state and the buffers after one cursor call. -/
def cursor_call.run {σ : Type} (fn : Nat → fr_sbuff_extend_t σ) (load : σ → Nat → Nat) :
    cursor_call → σ × fr_sbuff_ptr → σ × fr_sbuff_ptr
  | .position c, (w, sbuff) => (w, c.run sbuff)
  | .next, (w, sbuff) => ((fr_sbuff_next fn load w sbuff).world, (fr_sbuff_next fn load w sbuff).sbuff)

/-- The outside state and the buffers after a sequence of cursor calls, first call first. -/
def run_cursor_calls {σ : Type} (fn : Nat → fr_sbuff_extend_t σ) (load : σ → Nat → Nat)
    (calls : List cursor_call) (st : σ × fr_sbuff_ptr) : σ × fr_sbuff_ptr :=
  calls.foldl (fun s c => c.run fn load s) st

/-- A buffer over the addresses 10 to 20 with its position at 12, used to
evaluate the definitions on concrete input. -/
def sbuff_10_12_20 : fr_sbuff_t :=
  { buff := 10, start := 10, end_ := 20, p := 12, is_const := false, adv_parent := false,
    shifted := 0, extend := none, uctx := none, m := none }

/-- The index of the last buffer that `_fr_sbuff_set_recurse` writes in a chain
`b0, b1, ..., bn`: the least index whose `adv_parent` flag is clear, and `n` when
every flag is set. -/
def last_advanced (chain : fr_sbuff_ptr) : Nat :=
  min (chain.findIdx (fun b => !b.adv_parent)) (chain.length - 1)

/-- The chain `b0, ..., bn` with the position of each of `b0, ..., bk` replaced by `t`. -/
def set_positions_upto (k t : Nat) (chain : fr_sbuff_ptr) : fr_sbuff_ptr :=
  (chain.take (k + 1)).map (fun b => { b with p := t }) ++ chain.drop (k + 1)

/-- A child made by `FR_SBUFF_COPY` of the buffer over 10 to 20 at position 12,
after which the parent was advanced by 3 bytes through its own pointer: the child
is at 12 and the parent at 15. -/
def copy_with_parent_ahead : fr_sbuff_ptr :=
  match FR_SBUFF_COPY [sbuff_10_12_20] with
  | [] => []
  | child :: parent => child :: (fr_sbuff_advance parent 3).2

/-- An extension function used to evaluate the macros: it obtains exactly the
number of bytes requested, raising `end` by that amount, and returns it; the
outside state is the list of the sizes requested so far, latest first. -/
def extend_as_requested : fr_sbuff_extend_t (List Nat)
  | w, [], req => (req :: w, [], 0)
  | w, sbuff :: parent, req => (req :: w, { sbuff with end_ := sbuff.end_ + req } :: parent, req)

/-- The buffer over 10 to 15 at position 12 (3 bytes remain) with an extension
function installed at code address 1. -/
def sbuff_10_12_15_ext : fr_sbuff_t :=
  { buff := 10, start := 10, end_ := 15, p := 12, is_const := false, adv_parent := false,
    shifted := 0, extend := some 1, uctx := none, m := none }

/-- An extension function used to evaluate the macros: the outside state is the
number of bytes the source can still deliver; it obtains the bytes requested, or
as many as are left when fewer are left, raises `end` by the number obtained and
returns that number. -/
def extend_upto_available : fr_sbuff_extend_t Nat
  | avail, [], _ => (avail, [], 0)
  | avail, sbuff :: parent, req =>
    (avail - min req avail, { sbuff with end_ := sbuff.end_ + min req avail } :: parent,
      min req avail)

/-! ### Markers

A marker lives in storage of the caller; `marker_mem` gives the marker held at
each address and a `fr_sbuff_marker_t *` is an address.  The field `parent` of a
marker points to a buffer: in a chain of buffers each buffer is named by the
number of ancestors it has (the buffer without parent is 0, its child 1, ...),
which is what `fr_sbuff_addr` computes for the buffer at the head of a chain.
Code that dereferences `NULL` yields `none`. -/

/-- The structure `struct fr_sbuff_ptr_s`, a marker. -/
structure fr_sbuff_marker_t where
  /-- The position pointer. -/
  p : Nat
  /-- Next marker in the list, `none` when `NULL`. -/
  next : Option Nat
  /-- Owner of the marker, `none` when `NULL`. -/
  parent : Option Nat
deriving DecidableEq, Repr

/-- The marker held at each address. -/
abbrev marker_mem := Nat → fr_sbuff_marker_t

/-- A marker after `memset(m, 0, sizeof(*m))`. -/
def marker_zeroed : fr_sbuff_marker_t := { p := 0, next := none, parent := none }

/-- The name of the buffer a `fr_sbuff_t *` points to: the number of its ancestors. -/
def fr_sbuff_addr (sbuff : fr_sbuff_ptr) : Nat := sbuff.length - 1

/-- The buffer named `a` in a chain, `none` when the chain has no such buffer. -/
def fr_sbuff_deref : fr_sbuff_ptr → Nat → Option fr_sbuff_t
  | [], _ => none
  | sbuff :: parent, a => if a = parent.length then some sbuff else fr_sbuff_deref parent a

/-- The chain after the buffer named `a` has been replaced by `f` of it, `none`
when the chain has no such buffer. -/
def fr_sbuff_store (f : fr_sbuff_t → fr_sbuff_t) : fr_sbuff_ptr → Nat → Option fr_sbuff_ptr
  | [], _ => none
  | sbuff :: parent, a =>
    if a = parent.length then some (f sbuff :: parent)
    else (fr_sbuff_store f parent a).map (fun parent1 => sbuff :: parent1)

/-- The result of code that works on markers: the value, the markers and the
buffers afterwards. -/
structure marker_result (α : Type) where
  /-- The value the code yields. -/
  val : α
  /-- The markers afterwards. -/
  markers : marker_mem
  /-- The buffers afterwards. -/
  sbuff : fr_sbuff_ptr

/-- The function `fr_sbuff_marker`: adds the marker at address `m` to the
beginning of the list of markers of the sbuff. -/
def fr_sbuff_marker (mem : marker_mem) (m : Nat) : fr_sbuff_ptr → marker_result Nat
  | [] => ⟨0, mem, []⟩
  | sbuff :: parent =>
    ⟨sbuff.p,
     Function.update mem m
       { next := sbuff.m, p := sbuff.p, parent := some (fr_sbuff_addr (sbuff :: parent)) },
     { sbuff with m := some m } :: parent⟩

/-- The function `fr_sbuff_marker_release`: `m->parent->m = m->next`, then the
marker is zeroed (`NDEBUF` is not defined). -/
def fr_sbuff_marker_release (mem : marker_mem) (sbuff : fr_sbuff_ptr) (m : Nat) :
    Option (marker_result Unit) :=
  match (mem m).parent with
  | none => none
  | some a =>
    match fr_sbuff_store (fun parent => { parent with m := (mem m).next }) sbuff a with
    | none => none
    | some sbuff1 => some ⟨(), Function.update mem m marker_zeroed, sbuff1⟩

/-- The macro `fr_sbuff_diff` on the current positions `a` and `b` of its arguments. -/
def fr_sbuff_diff (a b : Nat) : Int := (a : Int) - (b : Int)

/-- The macro `fr_sbuff_behind` on the marker at address `m`. -/
def fr_sbuff_behind (mem : marker_mem) (sbuff : fr_sbuff_ptr) (m : Nat) : Option Int :=
  match (mem m).parent with
  | none => none
  | some a =>
    match fr_sbuff_deref sbuff a with
    | none => none
    | some parent =>
      some (if (mem m).p > parent.p then 0 else (parent.p : Int) - ((mem m).p : Int))

/-- The macro `fr_sbuff_ahead` on the marker at address `m`. -/
def fr_sbuff_ahead (mem : marker_mem) (sbuff : fr_sbuff_ptr) (m : Nat) : Option Int :=
  match (mem m).parent with
  | none => none
  | some a =>
    match fr_sbuff_deref sbuff a with
    | none => none
    | some parent =>
      some (if parent.p > (mem m).p then 0 else ((mem m).p : Int) - (parent.p : Int))

/-- The function `fr_sbuff_marker_release_behind`; the length is stored in a `size_t`. -/
def fr_sbuff_marker_release_behind (mem : marker_mem) (sbuff : fr_sbuff_ptr) (m : Nat) :
    Option (marker_result Nat) :=
  match fr_sbuff_behind mem sbuff m with
  | none => none
  | some len =>
    match fr_sbuff_marker_release mem sbuff m with
    | none => none
    | some r => some ⟨len.toNat, r.markers, r.sbuff⟩

/-- The function `fr_sbuff_marker_release_ahead`; the length is stored in a `size_t`. -/
def fr_sbuff_marker_release_ahead (mem : marker_mem) (sbuff : fr_sbuff_ptr) (m : Nat) :
    Option (marker_result Nat) :=
  match fr_sbuff_ahead mem sbuff m with
  | none => none
  | some len =>
    match fr_sbuff_marker_release mem sbuff m with
    | none => none
    | some r => some ⟨len.toNat, r.markers, r.sbuff⟩

/-- Whether the markers reached from the pointer `head` through `next` are
exactly the addresses `l`, in that order, the last one having `next == NULL`. -/
def is_marker_list (mem : marker_mem) : Option Nat → List Nat → Bool
  | head, [] => head == none
  | head, a :: l => head == some a && is_marker_list mem (mem a).next l

/-- A registration of a marker or a position call on a buffer. -/
inductive marker_call where
  /-- The call `fr_sbuff_marker(m, sbuff)`. -/
  | register (m : Nat)
  /-- One of the position calls on `sbuff`. -/
  | position (c : position_call)
deriving DecidableEq, Repr

/-- The markers and the buffers after one such call. -/
def marker_call.run : marker_call → marker_mem × fr_sbuff_ptr → marker_mem × fr_sbuff_ptr
  | .register m, (mem, sbuff) => ((fr_sbuff_marker mem m sbuff).markers, (fr_sbuff_marker mem m sbuff).sbuff)
  | .position c, (mem, sbuff) => (mem, c.run sbuff)

/-- The markers and the buffers after a sequence of such calls, first call first. -/
def run_marker_calls (calls : List marker_call) (st : marker_mem × fr_sbuff_ptr) :
    marker_mem × fr_sbuff_ptr :=
  calls.foldl (fun s c => c.run s) st

/-- The addresses of the markers registered by a sequence of calls, in the order
of registration. -/
def registered : List marker_call → List Nat
  | [] => []
  | .register m :: calls => m :: registered calls
  | .position _ :: calls => registered calls

/-- The markers and the buffers after releasing the markers at the addresses
given, first address first; `none` when one of the releases dereferences `NULL`. -/
def release_markers (mem : marker_mem) (sbuff : fr_sbuff_ptr) :
    List Nat → Option (marker_mem × fr_sbuff_ptr)
  | [] => some (mem, sbuff)
  | m :: ms =>
    match fr_sbuff_marker_release mem sbuff m with
    | none => none
    | some r => release_markers r.markers r.sbuff ms

/-- Marker storage in which every marker is zeroed. -/
def no_markers : marker_mem := fun _ => marker_zeroed

/-! ### Lookahead conditions

A `char` is the number of its byte.  The functions of `<ctype.h>` are those of
the C locale. -/

/-- The C library function `isdigit` in the C locale. -/
def isdigit (c : Nat) : Bool := decide (48 ≤ c) && decide (c ≤ 57)

/-- The C library function `isupper` in the C locale. -/
def isupper (c : Nat) : Bool := decide (65 ≤ c) && decide (c ≤ 90)

/-- The C library function `islower` in the C locale. -/
def islower (c : Nat) : Bool := decide (97 ≤ c) && decide (c ≤ 122)

/-- The C library function `isalpha` in the C locale. -/
def isalpha (c : Nat) : Bool := isupper c || islower c

/-- The C library function `isspace` in the C locale. -/
def isspace (c : Nat) : Bool := decide (c = 32) || (decide (9 ≤ c) && decide (c ≤ 13))

/-- The C library function `tolower` in the C locale. -/
def tolower (c : Nat) : Nat := if isupper c then c + 32 else c

/-- The C library function `strlen` on a string given by its bytes (a `NUL`
follows the last byte of the list). -/
def strlen (str : List Nat) : Nat := str.findIdx (fun c => c == 0)

/-- Whether `memcmp(p, str, len) == 0`: the `len` bytes at `p` equal the first
`len` bytes of the string. -/
def memcmp_eq {σ : Type} (load : σ → Nat → Nat) (w : σ) (p : Nat) (str : List Nat)
    (len : Nat) : Bool :=
  (List.range len).all (fun i => load w (p + i) == str.getD i 0)

/-- The shape shared by the conditions on one char:
`if (FR_SBUFF_CANT_EXTEND(sbuff)) return false; return test(*sbuff->p);`. -/
def sbuff_char_condition {σ : Type} (fn : Nat → fr_sbuff_extend_t σ) (load : σ → Nat → Nat)
    (w : σ) (sbuff : fr_sbuff_ptr) (test : Nat → Bool) : sbuff_result σ Bool :=
  match FR_SBUFF_CANT_EXTEND fn w sbuff with
  | ⟨true, w1, sbuff1⟩ => ⟨false, w1, sbuff1⟩
  | ⟨false, w1, []⟩ => ⟨false, w1, []⟩
  | ⟨false, w1, sbuff1 :: parent1⟩ => ⟨test (load w1 sbuff1.p), w1, sbuff1 :: parent1⟩

/-- The function `fr_sbuff_is_in_charset`; the table is indexed by `(uint8_t)*sbuff->p`. -/
def fr_sbuff_is_in_charset {σ : Type} (fn : Nat → fr_sbuff_extend_t σ) (load : σ → Nat → Nat)
    (w : σ) (sbuff : fr_sbuff_ptr) (chars : Nat → Bool) : sbuff_result σ Bool :=
  sbuff_char_condition fn load w sbuff (fun c => chars (c % 256))

/-- The function `fr_sbuff_is_str`. -/
def fr_sbuff_is_str {σ : Type} (fn : Nat → fr_sbuff_extend_t σ) (load : σ → Nat → Nat)
    (w : σ) (sbuff : fr_sbuff_ptr) (str : List Nat) (len : Nat) : sbuff_result σ Bool :=
  let len := if len = SIZE_MAX then strlen str else len
  match FR_SBUFF_CANT_EXTEND_LOWAT fn w sbuff len with
  | ⟨true, w1, sbuff1⟩ => ⟨false, w1, sbuff1⟩
  | ⟨false, w1, []⟩ => ⟨false, w1, []⟩
  | ⟨false, w1, sbuff1 :: parent1⟩ => ⟨memcmp_eq load w1 sbuff1.p str len, w1, sbuff1 :: parent1⟩

/-- The function `fr_sbuff_is_char`. -/
def fr_sbuff_is_char {σ : Type} (fn : Nat → fr_sbuff_extend_t σ) (load : σ → Nat → Nat)
    (w : σ) (sbuff : fr_sbuff_ptr) (c : Nat) : sbuff_result σ Bool :=
  sbuff_char_condition fn load w sbuff (fun x => x == c)

/-- The function `fr_sbuff_is_digit`. -/
def fr_sbuff_is_digit {σ : Type} (fn : Nat → fr_sbuff_extend_t σ) (load : σ → Nat → Nat)
    (w : σ) (sbuff : fr_sbuff_ptr) : sbuff_result σ Bool :=
  sbuff_char_condition fn load w sbuff isdigit

/-- The function `fr_sbuff_is_upper`. -/
def fr_sbuff_is_upper {σ : Type} (fn : Nat → fr_sbuff_extend_t σ) (load : σ → Nat → Nat)
    (w : σ) (sbuff : fr_sbuff_ptr) : sbuff_result σ Bool :=
  sbuff_char_condition fn load w sbuff isupper

/-- The function `fr_sbuff_is_lower`. -/
def fr_sbuff_is_lower {σ : Type} (fn : Nat → fr_sbuff_extend_t σ) (load : σ → Nat → Nat)
    (w : σ) (sbuff : fr_sbuff_ptr) : sbuff_result σ Bool :=
  sbuff_char_condition fn load w sbuff islower

/-- The function `fr_sbuff_is_alpha`. -/
def fr_sbuff_is_alpha {σ : Type} (fn : Nat → fr_sbuff_extend_t σ) (load : σ → Nat → Nat)
    (w : σ) (sbuff : fr_sbuff_ptr) : sbuff_result σ Bool :=
  sbuff_char_condition fn load w sbuff isalpha

/-- The function `fr_sbuff_is_space`. -/
def fr_sbuff_is_space {σ : Type} (fn : Nat → fr_sbuff_extend_t σ) (load : σ → Nat → Nat)
    (w : σ) (sbuff : fr_sbuff_ptr) : sbuff_result σ Bool :=
  sbuff_char_condition fn load w sbuff isspace

/-- The function `fr_sbuff_is_hex`. -/
def fr_sbuff_is_hex {σ : Type} (fn : Nat → fr_sbuff_extend_t σ) (load : σ → Nat → Nat)
    (w : σ) (sbuff : fr_sbuff_ptr) : sbuff_result σ Bool :=
  sbuff_char_condition fn load w sbuff
    (fun c => isdigit c || (decide (tolower c ≥ 97) && decide (tolower c ≤ 102)))

/-- Storage used to evaluate the conditions: the bytes of `abcd` at the
addresses 10 to 13, zero elsewhere. -/
def storage_abcd {σ : Type} (_w : σ) (a : Nat) : Nat :=
  if a = 10 then 97 else if a = 11 then 98 else if a = 12 then 99 else if a = 13 then 100 else 0

/-- The buffer over the single byte at address 10, at position 10, with an
extension function installed at code address 1. -/
def sbuff_10_10_11_ext : fr_sbuff_t :=
  { buff := 10, start := 10, end_ := 11, p := 10, is_const := false, adv_parent := false,
    shifted := 0, extend := some 1, uctx := none, m := none }

/-- The markers and the buffers after two markers were registered on the buffer
over 10 to 20, the first at address 100, the second at address 200. -/
def two_markers_registered : marker_mem × fr_sbuff_ptr :=
  run_marker_calls [.register 100, .register 200] (no_markers, [sbuff_10_12_20])

/-- A marker at address 100 registered on the buffer over 10 to 20 at position
12, after which the buffer was advanced by 3 bytes: the marker is 3 bytes behind
the position of the buffer. -/
def marker_behind_buffer : marker_mem × fr_sbuff_ptr :=
  run_marker_calls [.register 100, .position (.advance 3)] (no_markers, [sbuff_10_12_20])

/-- The buffer over 10 to 20 advanced to 15, a marker at address 100 registered
there, and the buffer set back to 12: the marker is 3 bytes ahead of the position
of the buffer. -/
def marker_ahead_of_buffer : marker_mem × fr_sbuff_ptr :=
  run_marker_calls [.position (.advance 3), .register 100, .position (.set 12)]
    (no_markers, [sbuff_10_12_20])

/-! ### Constructors, terminator and marker positions -/

/-- The macro `fr_sbuff_init` with a length (`size_t`, `long` or `int`) as
`_len_or_end`: the end pointer passed on is `_start + (len - 1)` and `is_const`
is true.  For `len = 0` the unsigned `len - 1` wraps and the pointer is
`_start - 1`, which is what `start + len - 1` gives here. -/
def fr_sbuff_init (start len : Nat) : fr_sbuff_ptr :=
  _fr_sbuff_init start (start + len - 1) true

/-- The macro `fr_sbuff_init` with an end pointer as `_len_or_end`: `is_const` is
false for a `char *` end and true for a `char const *` end. -/
def fr_sbuff_init_end (start end_ : Nat) (end_is_const : Bool) : fr_sbuff_ptr :=
  _fr_sbuff_init start end_ end_is_const

/-- The macro `FR_SBUFF_OUT` with a length as `_len_or_end`; `is_const` says
whether `_start` is a `char const *`. -/
def FR_SBUFF_OUT (start len : Nat) (is_const : Bool) : fr_sbuff_ptr :=
  [{ buff := start, start := start, end_ := start + len - 1, p := start, is_const := is_const,
     adv_parent := false, shifted := 0, extend := none, uctx := none, m := none }]

/-- The macro `FR_SBUFF_IN` with a length as `_len_or_end`; `is_const` says
whether `_start` is a `char const *`. -/
def FR_SBUFF_IN (start len : Nat) (is_const : Bool) : fr_sbuff_ptr :=
  [{ buff := start, start := start, end_ := start + len, p := start, is_const := is_const,
     adv_parent := false, shifted := 0, extend := none, uctx := none, m := none }]

/-- The structure `fr_sbuff_uctx_talloc_t`. -/
structure fr_sbuff_uctx_talloc_t where
  /-- Context to alloc new buffers in. -/
  ctx : Nat
  /-- How much to allocate initially. -/
  init : Nat
  /-- Maximum size of the buffer. -/
  max : Nat
deriving DecidableEq, Repr

/-- The function `fr_sbuff_init_talloc`.  The allocator is a parameter:
`talloc_zero_array ctx n` is the address of a new array of `n` bytes or `none`
when the allocation fails; `extend_talloc` is the address of
`fr_sbuff_extend_talloc` and `tctx` the address of the structure filled in.  The
result is that structure and the sbuff, `none` when `NULL` is returned. -/
def fr_sbuff_init_talloc (talloc_zero_array : Nat → Nat → Option Nat) (extend_talloc : Nat)
    (ctx tctx init max : Nat) : fr_sbuff_uctx_talloc_t × Option fr_sbuff_ptr :=
  ({ ctx := ctx, init := init, max := max },
    match talloc_zero_array ctx (init + 1) with
    | none => none
    | some buff =>
      some [{ buff := buff, start := buff, p := buff, end_ := buff + init, is_const := false,
              adv_parent := false, shifted := 0, extend := some extend_talloc,
              uctx := some tctx, m := none }])

/-- The function `fr_sbuff_terminate`: `*sbuff->p = 0`, the write to the storage
being `store`. -/
def fr_sbuff_terminate {σ : Type} (store : σ → Nat → Nat → σ) (w : σ) : fr_sbuff_ptr → σ
  | [] => w
  | sbuff :: _ => store w sbuff.p 0

/-- The function `_fr_sbuff_marker_set` on the marker at address `m`. -/
def _fr_sbuff_marker_set (mem : marker_mem) (chain : fr_sbuff_ptr) (m : Nat) (p : Nat) :
    Option (marker_result Int) :=
  match (mem m).parent with
  | none => none
  | some a =>
    match fr_sbuff_deref chain a with
    | none => none
    | some sbuff =>
      if p > sbuff.end_ then some ⟨-((p : Int) - (sbuff.end_ : Int)), mem, chain⟩
      else if p < sbuff.start then some ⟨0, mem, chain⟩
      else some ⟨(p : Int) - ((mem m).p : Int),
        Function.update mem m { mem m with p := p }, chain⟩

/-- A buffer without parent that is the buffer `s0` moved to a position inside
the window of `s0`. -/
def root_moved_in_window (s0 : fr_sbuff_t) (chain : fr_sbuff_ptr) : Prop :=
  ∃ q, chain = [{ s0 with p := q }] ∧ s0.start ≤ q ∧ q ≤ s0.end_

/-! ### The dictionary printer of `dict_print.c`

The text in the output buffer is the list of the chars before the terminating
`NUL`.  `fr_proto_da_stack_build` and the macros of `print.h` are not part of the
sources: the stack that `fr_proto_da_stack_build` leaves in `da_stack.da` is the
parameter `da_stack` (reading an entry it does not hold yields `none`), and the
macros are the parameters described at `fr_dict_print_attr_oid`. -/

/-- The fields of `fr_dict_attr_t` read by `fr_dict_print_attr_oid`; `id` is the
address of the attribute, so that two pointers are equal when the attributes
are. -/
structure fr_dict_attr_t where
  /-- Address of the attribute. -/
  id : Nat
  /-- Attribute number. -/
  attr : Nat
  /-- Depth of nesting for this attribute. -/
  depth : Nat
deriving DecidableEq, Repr

/-- The text `printf` gives for `%u`. -/
def print_u (n : Nat) : List Char := Nat.toDigits 10 n

/-- The chars `snprintf(p, size, ...)` stores before the `NUL` when the whole
text is `text`: the first `size - 1`, nothing when `size` is 0. -/
def snprintf_stored (size : Nat) (text : List Char) : List Char := text.take (size - 1)

/-- What a call of `fr_dict_print_attr_oid` leaves. -/
structure oid_result where
  /-- The value stored in `*need` by a macro that made the function return. -/
  need : Option Nat
  /-- The `size_t` returned. -/
  ret : Nat
  /-- The text in `out`, `none` when `out` was not written. -/
  out : Option (List Char)
deriving DecidableEq, Repr

/-- The loop `for (i = depth + 1; i < (int)da->depth; i++)` of
`fr_dict_print_attr_oid`, with `n` iterations left, and the final
`return p - out`. -/
def fr_dict_print_attr_oid_loop (on_truncated : Nat → Nat → Nat → Nat × Nat)
    (da_stack : List fr_dict_attr_t) (outlen : Nat) : Nat → Nat → List Char → Option oid_result
  | 0, _, written => some ⟨none, written.length, some written⟩
  | n + 1, i, written =>
    match da_stack[i]? with
    | none => none
    | some a =>
      let text := '.' :: print_u a.attr
      let space := outlen - written.length
      if text.length ≥ space then
        some ⟨some (on_truncated text.length space written.length).1,
          (on_truncated text.length space written.length).2,
          some (written ++ snprintf_stored space text)⟩
      else fr_dict_print_attr_oid_loop on_truncated da_stack outlen n (i + 1) (written ++ text)

/-- The part of `fr_dict_print_attr_oid` after `depth` is known: the first
`snprintf`, the loop and the final return. -/
def fr_dict_print_attr_oid_from (on_truncated : Nat → Nat → Nat → Nat × Nat)
    (da_stack : List fr_dict_attr_t) (outlen : Nat) (da : fr_dict_attr_t) (depth : Nat) :
    Option oid_result :=
  match da_stack[depth]? with
  | none => none
  | some a =>
    let text := print_u a.attr
    if text.length ≥ outlen then
      some ⟨some (on_truncated text.length outlen 0).1,
        (on_truncated text.length outlen 0).2, some (snprintf_stored outlen text)⟩
    else
      fr_dict_print_attr_oid_loop on_truncated da_stack outlen (da.depth - (depth + 1))
        (depth + 1) text

/-- The function `fr_dict_print_attr_oid`.  `no_space_init ret space` is what
`RETURN_IF_NO_SPACE_INIT(need, ret, p, out, end)` does with `space = end - p`:
`some (need, value)` when it stores `need` and returns `value`, `none` when the
function goes on.  `RETURN_IF_TRUNCATED(need, len, p, out, end)` returns when the
text was truncated, that is when `len >= end - p`, storing in `*need` and
returning the pair `on_truncated len (end - p) (p - out)`; otherwise it adds `len`
to `p`.  The `-1` returned for an attribute that is not a descendent is converted
to `size_t`. -/
def fr_dict_print_attr_oid (no_space_init : Nat → Nat → Option (Nat × Nat))
    (on_truncated : Nat → Nat → Nat → Nat × Nat) (da_stack : List fr_dict_attr_t)
    (outlen : Nat) (ancestor : Option fr_dict_attr_t) (da : fr_dict_attr_t) :
    Option oid_result :=
  match no_space_init 1 outlen with
  | some (need, value) => some ⟨some need, value, none⟩
  | none =>
    if ancestor = some da then some ⟨none, 0, some []⟩
    else
      match ancestor with
      | none => fr_dict_print_attr_oid_from on_truncated da_stack outlen da 0
      | some anc =>
        if anc.depth = 0 then none
        else
          match da_stack[anc.depth - 1]? with
          | none => none
          | some a =>
            if a ≠ anc then some ⟨none, SIZE_MAX, none⟩
            else fr_dict_print_attr_oid_from on_truncated da_stack outlen da anc.depth

/-- The text the loop of `fr_dict_print_attr_oid` adds for the attributes given:
a `.` and the decimal attribute number for each. -/
def oid_tail_text : List fr_dict_attr_t → List Char
  | [] => []
  | a :: attrs => ('.' :: print_u a.attr) ++ oid_tail_text attrs

/-- The decimal attribute numbers of the attributes joined by `.`. -/
def oid_text (attrs : List fr_dict_attr_t) : List Char :=
  List.intercalate ['.'] (attrs.map (fun a => print_u a.attr))

/-- Macro parameters used to evaluate `fr_dict_print_attr_oid`: the function
goes on when the `ret` bytes fit in the space, and `need` is `ret`, the value
returned the bytes written so far. -/
def no_space_when_larger (ret space : Nat) : Option (Nat × Nat) :=
  if ret > space then some (ret, 0) else none

/-- Macro parameters used to evaluate `fr_dict_print_attr_oid`: on truncation
`need` is the length of the text and the value returned is the number of bytes
the buffer holds. -/
def truncated_returns_written (len space written : Nat) : Nat × Nat :=
  (len, written + (space - 1))

/-- The attribute 26 at depth 1, at address 1. -/
def attr_26 : fr_dict_attr_t := { id := 1, attr := 26, depth := 1 }

/-- The attribute 9 at depth 2, child of `attr_26`, at address 2. -/
def attr_26_9 : fr_dict_attr_t := { id := 2, attr := 9, depth := 2 }

/-- The attribute 1 at depth 3, child of `attr_26_9`, at address 3. -/
def attr_26_9_1 : fr_dict_attr_t := { id := 3, attr := 1, depth := 3 }

/-- The attribute 5 at depth 1, at address 7, not an ancestor of `attr_26_9_1`. -/
def attr_5 : fr_dict_attr_t := { id := 7, attr := 5, depth := 1 }

/-! ### Functions declared in `sbuff.h` and defined in `sbuff.c`

`sbuff.c` is not part of the sources; the functions below are modelled from the
specification. -/

/-- The enumeration `fr_sbuff_parse_error_t`. -/
inductive fr_sbuff_parse_error_t where
  /-- No error. -/
  | FR_SBUFF_PARSE_OK
  /-- String does not contain a token matching the output type. -/
  | FR_SBUFF_PARSE_ERROR_NOT_FOUND
  /-- Trailing characters found. -/
  | FR_SBUFF_PARSE_ERROR_TRAILING
  /-- Integer type would overflow. -/
  | FR_SBUFF_PARSE_ERROR_NUM_OVERFLOW
  /-- Integer type would underflow. -/
  | FR_SBUFF_PARSE_ERROR_NUM_UNDERFLOW
deriving DecidableEq, Repr

/-- The value of each constant of `fr_sbuff_parse_error_t`. -/
def fr_sbuff_parse_error_t.value : fr_sbuff_parse_error_t → Int
  | .FR_SBUFF_PARSE_OK => 0
  | .FR_SBUFF_PARSE_ERROR_NOT_FOUND => -1
  | .FR_SBUFF_PARSE_ERROR_TRAILING => -2
  | .FR_SBUFF_PARSE_ERROR_NUM_OVERFLOW => -3
  | .FR_SBUFF_PARSE_ERROR_NUM_UNDERFLOW => -4

/-- The bytes of the storage between the position and the end of a buffer. -/
def sbuff_bytes {σ : Type} (load : σ → Nat → Nat) (w : σ) (sbuff : fr_sbuff_t) : List Nat :=
  (List.range (fr_sbuff_remaining sbuff)).map (fun i => load w (sbuff.p + i))

/-- What a numeric decoder leaves: the error code, the value stored in `*out`
(`none` when no value is decoded), the number of bytes consumed, which is the
value returned, and the buffers afterwards. -/
structure sbuff_out_int_result where
  /-- The code stored in `*err`. -/
  err : fr_sbuff_parse_error_t
  /-- The value decoded. -/
  out : Option Int
  /-- The number of bytes consumed. -/
  ret : Nat
  /-- The buffers afterwards. -/
  sbuff : fr_sbuff_ptr
deriving DecidableEq, Repr

/-- The number written by a run of decimal digits. -/
def decimal_value (digits : List Nat) : Nat :=
  digits.foldl (fun acc c => 10 * acc + (c - 48)) 0

/-- Modelled from the spec: `fr_sbuff_out_int32`, which `sbuff.h` declares and
`sbuff.c`, not part of the sources, defines.  The decoder takes an optional minus
sign and then decodes decimal digits greedily; without a digit the error is
`NOT_FOUND` and nothing is consumed; a value above the largest 32 bit signed
integer is `NUM_OVERFLOW`, one below the smallest is `NUM_UNDERFLOW`; with
`no_trailing` a byte left after the digits is the error `TRAILING`, without it the
partial match is accepted; the number of bytes consumed is returned, and the
position advanced by it, even on error. -/
def fr_sbuff_out_int32 {σ : Type} (load : σ → Nat → Nat) (w : σ) :
    fr_sbuff_ptr → Bool → sbuff_out_int_result
  | [], _ => ⟨.FR_SBUFF_PARSE_ERROR_NOT_FOUND, none, 0, []⟩
  | sbuff :: parent, no_trailing =>
    let bytes := sbuff_bytes load w sbuff
    let sign := if bytes.head? = some 45 then 1 else 0
    let digits := (bytes.drop sign).takeWhile isdigit
    let consumed := sign + digits.length
    let value : Int := if sign = 1 then -(decimal_value digits : Int) else decimal_value digits
    let after := (fr_sbuff_set (sbuff :: parent) (sbuff.p + consumed)).2
    if digits = [] then ⟨.FR_SBUFF_PARSE_ERROR_NOT_FOUND, none, 0, sbuff :: parent⟩
    else if value > 2147483647 then ⟨.FR_SBUFF_PARSE_ERROR_NUM_OVERFLOW, none, consumed, after⟩
    else if value < -2147483648 then ⟨.FR_SBUFF_PARSE_ERROR_NUM_UNDERFLOW, none, consumed, after⟩
    else if no_trailing = true ∧ consumed < bytes.length then
      ⟨.FR_SBUFF_PARSE_ERROR_TRAILING, none, consumed, after⟩
    else ⟨.FR_SBUFF_PARSE_OK, some value, consumed, after⟩

/-- Storage used to evaluate the decoders: the bytes of `123abc` at the addresses
10 to 15, zero elsewhere. -/
def storage_123abc {σ : Type} (_w : σ) (a : Nat) : Nat :=
  if a = 10 then 49 else if a = 11 then 50 else if a = 12 then 51 else if a = 13 then 97
  else if a = 14 then 98 else if a = 15 then 99 else 0

/-- Whether the bytes of `needle` are the first bytes of `input`. -/
def starts_with : List Nat → List Nat → Bool
  | [], _ => true
  | _ :: _, [] => false
  | a :: needle, b :: input => a == b && starts_with needle input

/-- Whether a member of the terminal set `tt` (the strings of a `fr_sbuff_term_t`)
occurs at the head of `input`. -/
def terminal_at (tt : List (List Nat)) (input : List Nat) : Bool :=
  tt.any (fun t => starts_with t input)

/-- Modelled from the spec: the scan of the terminal-bounded copy-out
(`fr_sbuff_out_bstrncpy_until`, defined in `sbuff.c`, not part of the sources).
The bytes of the input are copied up to the first occurrence of a member of the
terminal set, `len` bytes or the end of the available input, whichever comes
first; an escape char is copied together with the byte after it, which is never
treated as starting a terminal. -/
def bstrncpy_until_scan (tt : List (List Nat)) (escape_chr : Nat) : Nat → List Nat → List Nat
  | 0, _ => []
  | _ + 1, [] => []
  | 1, c :: rest => if terminal_at tt (c :: rest) then [] else [c]
  | _ + 2, [c] => if terminal_at tt [c] then [] else [c]
  | len + 2, c :: d :: rest =>
    if terminal_at tt (c :: d :: rest) then []
    else if c = escape_chr then c :: d :: bstrncpy_until_scan tt escape_chr len rest
    else c :: bstrncpy_until_scan tt escape_chr (len + 1) (d :: rest)

/-- What a copy-out leaves: the value returned, the bytes copied to the output,
in order, and the input buffers afterwards. -/
structure sbuff_copy_result where
  /-- The number of bytes copied, which is the value returned. -/
  ret : Nat
  /-- The bytes copied to the output. -/
  copied : List Nat
  /-- The input buffers afterwards. -/
  input : fr_sbuff_ptr
deriving DecidableEq, Repr

/-- Modelled from the spec: `fr_sbuff_out_bstrncpy_until`, which `sbuff.h`
declares and `sbuff.c`, not part of the sources, defines.  It copies everything
before the stop point of `bstrncpy_until_scan` to the output, returns the number
of bytes copied and sets the input to the position after them, the position plus
that number; the output is taken to have room, the specification naming no limit
on its side for this primitive. -/
def fr_sbuff_out_bstrncpy_until {σ : Type} (load : σ → Nat → Nat) (w : σ) :
    fr_sbuff_ptr → Nat → List (List Nat) → Nat → sbuff_copy_result
  | [], _, _, _ => ⟨0, [], []⟩
  | sbuff :: parent, len, tt, escape_chr =>
    ⟨(bstrncpy_until_scan tt escape_chr len (sbuff_bytes load w sbuff)).length,
     bstrncpy_until_scan tt escape_chr len (sbuff_bytes load w sbuff),
     (fr_sbuff_set (sbuff :: parent)
       (sbuff.p + (bstrncpy_until_scan tt escape_chr len (sbuff_bytes load w sbuff)).length)).2⟩

/-- Storage used to evaluate the copy-out: the bytes of `abc,def` at the
addresses 10 to 16, zero elsewhere. -/
def storage_abc_def {σ : Type} (_w : σ) (a : Nat) : Nat :=
  if a = 10 then 97 else if a = 11 then 98 else if a = 12 then 99 else if a = 13 then 44
  else if a = 14 then 100 else if a = 15 then 101 else if a = 16 then 102 else 0

/-! ### Storage that shifts or moves

`fr_sbuff_used_total` is a macro of `sbuff.h`; `fr_sbuff_shift` and
`fr_sbuff_update` are declared there and defined in `sbuff.c`. -/

/-- The macro `fr_sbuff_used_total` on a buffer. -/
def fr_sbuff_used_total (sbuff : fr_sbuff_t) : Nat :=
  (fr_sbuff_current sbuff + sbuff.shifted) - fr_sbuff_start sbuff

/-- The macro `fr_sbuff_used_total` on the marker at address `m`: the start and
the amount shifted are those of the owner of the marker. -/
def fr_sbuff_used_total_marker (mem : marker_mem) (sbuff : fr_sbuff_ptr) (m : Nat) :
    Option Nat :=
  match (mem m).parent with
  | none => none
  | some a =>
    match fr_sbuff_deref sbuff a with
    | none => none
    | some parent => some (((mem m).p + parent.shifted) - parent.start)

/-- The addresses of the markers reached from the pointer `head` through `next`,
for at most `fuel` steps. -/
def markers_from (mem : marker_mem) : Nat → Option Nat → List Nat
  | 0, _ => []
  | _ + 1, none => []
  | fuel + 1, some a => a :: markers_from mem fuel (mem a).next

/-- The markers after the position of each marker at an address of `l` has been
replaced by `f` of it. -/
def rewrite_markers (f : Nat → Nat) (mem : marker_mem) (l : List Nat) : marker_mem :=
  fun a => if a ∈ l then { mem a with p := f (mem a).p } else mem a

/-- Modelled from the spec: `fr_sbuff_shift`, which `sbuff.h` declares and
`sbuff.c`, not part of the sources, defines.  The storage is shifted left by at
most `shift` bytes: only bytes already consumed are discarded, and never a byte
that a marker of the buffer still references, so the number of bytes discarded is
the smallest of `shift`, of the bytes used and of the distance of each marker
from the start.  The position, the end and each marker of the list of the buffer
move down by that number, `shifted` grows by it, and it is returned.  The walk of
the list of markers takes at most `fuel` steps; the bytes of the storage are not
part of the model. -/
def fr_sbuff_shift (fuel : Nat) (mem : marker_mem) : fr_sbuff_ptr → Nat → marker_result Nat
  | [], _ => ⟨0, mem, []⟩
  | sbuff :: parent, shift =>
    let l := markers_from mem fuel sbuff.m
    let k := l.foldl (fun k a => min k ((mem a).p - sbuff.start))
      (min shift (sbuff.p - sbuff.start))
    ⟨k, rewrite_markers (fun q => q - k) mem l,
     { sbuff with p := sbuff.p - k, end_ := sbuff.end_ - k, shifted := sbuff.shifted + k }
       :: parent⟩

/-- Modelled from the spec: `fr_sbuff_update`, which `sbuff.h` declares and
`sbuff.c`, not part of the sources, defines.  The storage of the buffer is now the
`new_len` bytes at `new_buff`: the start, the position and each marker of the
list of the buffer keep their offset from the beginning of the storage, the end
is the end of the new storage, and no byte is discarded.  The walk of the list of
markers takes at most `fuel` steps; the bytes of the storage are not part of the
model. -/
def fr_sbuff_update (fuel : Nat) (mem : marker_mem) :
    fr_sbuff_ptr → Nat → Nat → marker_result Unit
  | [], _, _ => ⟨(), mem, []⟩
  | sbuff :: parent, new_buff, new_len =>
    ⟨(), rewrite_markers (fun q => new_buff + (q - sbuff.buff)) mem
       (markers_from mem fuel sbuff.m),
     { sbuff with
       buff := new_buff
       start := new_buff + (sbuff.start - sbuff.buff)
       end_ := new_buff + new_len
       p := new_buff + (sbuff.p - sbuff.buff) } :: parent⟩

/-- The markers and the buffers after a marker at address 100 was registered on
the buffer over 10 to 20 at position 12, the buffer advanced by 2 bytes, a marker
at address 200 registered at 14 and the buffer advanced by 1 byte to 15. -/
def two_markers_behind_buffer : marker_mem × fr_sbuff_ptr :=
  run_marker_calls
    [.register 100, .position (.advance 2), .register 200, .position (.advance 1)]
    (no_markers, [sbuff_10_12_20])

/-! ### The flags printer of `dict_print.c`

`fr_dict_snprint_flags` writes at `p`, which starts at `out`, and keeps the string
at `out` terminated: the buffer is the list of the chars of that string and `p` is
an offset from `out`.  The structure `fr_dict_attr_flags_t`, the constants
`FLAG_KEY_FIELD`, `FLAG_LENGTH_UINT16`, `FR_TYPE_DATE`, `FR_TYPE_TIME_DELTA` and
the tables read through `fr_table_str_by_value` are not part of the sources: the
structure has the fields the function reads, the constants and the tables are
parameters (a table is the function from a value to the string
`fr_table_str_by_value` yields for it, a C string, which holds no `NUL`).  The
write `out[0] = 0` before the first byte of a buffer of length 0 is not part of
the model. -/

/-- The fields of `fr_dict_attr_flags_t` read by `fr_dict_snprint_flags`. -/
structure fr_dict_attr_flags_t where
  /-- Is root of a dictionary. -/
  is_root : Bool
  /-- Attribute number or vendor is unknown. -/
  is_unknown : Bool
  /-- Raw attribute. -/
  is_raw : Bool
  /-- Internal attribute. -/
  internal : Bool
  /-- Attribute has a tag. -/
  has_tag : Bool
  /-- Attribute is packed as an array. -/
  array : Bool
  /-- Attribute has values. -/
  has_value : Bool
  /-- The values of the attribute are concatenated. -/
  concat : Bool
  /-- Virtual attribute. -/
  virtual : Bool
  /-- The subtype holds one of the extra flags. -/
  extra : Bool
  /-- The subtype, or the extra flag. -/
  subtype : Nat
  /-- The length of the field. -/
  length : Nat
  /-- The precision of a date or of a time delta. -/
  type_size : Nat
deriving DecidableEq, Repr

/-- The constants and the table of other files that `fr_dict_snprint_flags` reads.
`date_precision v` is `fr_table_str_by_value(date_precision_table, v, "?")`. -/
structure dict_print_consts where
  /-- The constant `FLAG_KEY_FIELD`. -/
  FLAG_KEY_FIELD : Nat
  /-- The constant `FLAG_LENGTH_UINT16`. -/
  FLAG_LENGTH_UINT16 : Nat
  /-- The constant `FR_TYPE_DATE`. -/
  FR_TYPE_DATE : Nat
  /-- The constant `FR_TYPE_TIME_DELTA`. -/
  FR_TYPE_TIME_DELTA : Nat
  /-- The string of the table `date_precision_table` for a value. -/
  date_precision : Nat → List Char

/-- The string at `out` after `snprintf(p, size, ...)` or `strlcpy(p, text, size)`
has written `text` at the offset `p`, which is not beyond the end of the string:
the chars before `p`, then the first `size - 1` chars of `text`; nothing is
written when `size` is 0. -/
def string_after_write (out : List Char) (p size : Nat) (text : List Char) : List Char :=
  if size = 0 then out else out.take p ++ snprintf_stored size text

/-- The statement `p += snprintf(p, end - p, ...)`, or the same with `strlcpy`,
for the whole text `text`: the offset `p` and the string at `out` afterwards. -/
def flags_print (outlen : Nat) (text : List Char) (st : Nat × List Char) : Nat × List Char :=
  (st.1 + text.length, string_after_write st.2 st.1 (outlen - st.1) text)

/-- The statement `if (p >= end) return -1`: the string at `out` when the function
returns, the offset `p` and that string when it goes on. -/
def flags_check (outlen : Nat) (st : Nat × List Char) : Except (List Char) (Nat × List Char) :=
  if st.1 ≥ outlen then .error st.2 else .ok st

/-- The macro `FLAG_SET` of `fr_dict_snprint_flags` for a flag with the name
`name`. -/
def FLAG_SET (outlen : Nat) (flag : Bool) (name : List Char) (st : Nat × List Char) :
    Except (List Char) (Nat × List Char) :=
  if flag = true then flags_check outlen (flags_print outlen (name ++ [',']) st) else .ok st

/-- The function `fr_dict_snprint_flags`: the value returned and the string left
at `out`.  `dict` is `none` for `NULL` and otherwise the function from a value to
the string `fr_table_str_by_value(dict->subtype_table, value, "?")`; `type` is the
number of the type. -/
def fr_dict_snprint_flags (consts : dict_print_consts) (outlen : Nat)
    (dict : Option (Nat → List Char)) (type : Nat) (flags : fr_dict_attr_flags_t) :
    Int × List Char :=
  let body : Except (List Char) (Nat × List Char) := do
    let st ← FLAG_SET outlen flags.is_root "is_root".toList (0, [])
    let st ← FLAG_SET outlen flags.is_unknown "is_unknown".toList st
    let st ← FLAG_SET outlen flags.is_raw "is_raw".toList st
    let st ← FLAG_SET outlen flags.internal "internal".toList st
    let st ← FLAG_SET outlen flags.has_tag "has_tag".toList st
    let st ← FLAG_SET outlen flags.array "array".toList st
    let st ← FLAG_SET outlen flags.has_value "has_value".toList st
    let st ← FLAG_SET outlen flags.concat "concat".toList st
    let st ← FLAG_SET outlen flags.virtual "virtual".toList st
    let st ←
      match dict with
      | none => pure st
      | some subtype_table =>
        if flags.extra = false ∧ flags.subtype ≠ 0 then
          flags_check outlen (flags_print outlen (subtype_table flags.subtype) st)
        else pure st
    let st ←
      if flags.length ≠ 0 then
        flags_check outlen
          (flags_print outlen ("length=".toList ++ print_u flags.length ++ [',']) st)
      else pure st
    let st ←
      if flags.extra = true then
        flags_check outlen
          (if flags.subtype = consts.FLAG_KEY_FIELD then flags_print outlen "key,".toList st
           else if flags.subtype = consts.FLAG_LENGTH_UINT16 then
             flags_print outlen "length=uint16,".toList st
           else st)
      else pure st
    if type = consts.FR_TYPE_DATE ∨ type = consts.FR_TYPE_TIME_DELTA then
      flags_check outlen (flags_print outlen (consts.date_precision flags.type_size) st)
    else pure st
  match body with
  | .error out => (-1, out)
  | .ok (_, out) =>
    if out.head? = none then (-1, out)
    else
      let len := out.length
      (len, if out[len - 1]? = some ',' then out.take (len - 1) else out)

/-- Constants and a table used to evaluate `fr_dict_snprint_flags`: the extra
flags are 1 and 2, the types of dates and of time deltas are 10 and 11, and the
precision 0 is written `seconds` (any other value is written `?`). -/
def dict_print_consts_sample : dict_print_consts :=
  { FLAG_KEY_FIELD := 1, FLAG_LENGTH_UINT16 := 2, FR_TYPE_DATE := 10, FR_TYPE_TIME_DELTA := 11,
    date_precision := fun v => if v = 0 then "seconds".toList else "?".toList }

/-- A subtype table used to evaluate `fr_dict_snprint_flags`: every subtype is
written `?`. -/
def subtype_table_sample (_value : Nat) : List Char := "?".toList

/-- The flags of an attribute none of whose flags is set. -/
def flags_none : fr_dict_attr_flags_t :=
  { is_root := false, is_unknown := false, is_raw := false, internal := false,
    has_tag := false, array := false, has_value := false, concat := false, virtual := false,
    extra := false, subtype := 0, length := 0, type_size := 0 }

/-- A buffer without parent and without extension function whose position lies in its window. -/
def root_in_window (sbuff : fr_sbuff_ptr) : Prop :=
  ∃ s, sbuff = [s] ∧ s.extend = none ∧ s.start ≤ s.p ∧ s.p ≤ s.end_

/-! ## Lemmas on the position primitives -/

theorem root_in_window_init (start end_ : Nat) (is_const : Bool) :
    root_in_window (_fr_sbuff_init start end_ is_const) := by
  refine ⟨_, rfl, rfl, le_refl _, ?_⟩
  simp only
  split <;> omega

theorem root_in_window_set (sbuff : fr_sbuff_ptr) (p : Nat) (h : root_in_window sbuff) :
    root_in_window (_fr_sbuff_set sbuff p).2 := by
  obtain ⟨s, rfl, hx, h1, h2⟩ := h
  simp only [_fr_sbuff_set]
  split_ifs with a b c
  · exact ⟨s, rfl, hx, h1, h2⟩
  · exact ⟨s, rfl, hx, h1, h2⟩
  · exact ⟨s, rfl, hx, h1, h2⟩
  · refine ⟨{ s with p := p }, ?_, hx, ?_, ?_⟩
    · simp [_fr_sbuff_set_recurse]
    · simp only; omega
    · simp only; omega

theorem root_in_window_position_call (c : position_call) (sbuff : fr_sbuff_ptr)
    (h : root_in_window sbuff) : root_in_window (c.run sbuff) := by
  cases c with
  | set p => exact root_in_window_set sbuff p h
  | set_size n =>
    obtain ⟨s, rfl, _⟩ := id h
    exact root_in_window_set [s] _ h
  | advance n =>
    obtain ⟨s, rfl, _⟩ := id h
    exact root_in_window_set [s] _ h
  | set_to_start =>
    obtain ⟨s, rfl, hx, h1, h2⟩ := h
    exact ⟨{ s with p := s.start }, by simp [position_call.run, fr_sbuff_set_to_start, _fr_sbuff_set_recurse],
      hx, le_refl _, by simp only; omega⟩
  | set_to_end =>
    obtain ⟨s, rfl, hx, h1, h2⟩ := h
    exact ⟨{ s with p := s.end_ }, by simp [position_call.run, fr_sbuff_set_to_end, _fr_sbuff_set_recurse],
      hx, by simp only; omega, le_refl _⟩

theorem root_in_window_next {σ : Type} (fn : Nat → fr_sbuff_extend_t σ) (load : σ → Nat → Nat)
    (w : σ) (sbuff : fr_sbuff_ptr) (h : root_in_window sbuff) :
    root_in_window (fr_sbuff_next fn load w sbuff).sbuff := by
  obtain ⟨s, rfl, hx, h1, h2⟩ := h
  by_cases hr : fr_sbuff_remaining s < 1
  · have : fr_sbuff_next fn load w [s] = ⟨0, w, [s]⟩ := by
      simp [fr_sbuff_next, FR_SBUFF_CANT_EXTEND, FR_SBUFF_CANT_EXTEND_LOWAT, hr, hx]
    rw [this]
    exact ⟨s, rfl, hx, h1, h2⟩
  · have : fr_sbuff_next fn load w [s] = ⟨load w s.p, w, [{ s with p := s.p + 1 }]⟩ := by
      simp [fr_sbuff_next, FR_SBUFF_CANT_EXTEND, FR_SBUFF_CANT_EXTEND_LOWAT, hr]
    rw [this]
    refine ⟨_, rfl, hx, ?_, ?_⟩
    · simp only; omega
    · simp only [fr_sbuff_remaining, fr_sbuff_end, fr_sbuff_current] at hr ⊢
      split_ifs at hr <;> omega

theorem root_in_window_cursor_calls {σ : Type} (fn : Nat → fr_sbuff_extend_t σ)
    (load : σ → Nat → Nat) (calls : List cursor_call) (st : σ × fr_sbuff_ptr)
    (h : root_in_window st.2) : root_in_window (run_cursor_calls fn load calls st).2 := by
  induction calls generalizing st with
  | nil => exact h
  | cons c cs ih =>
    simp only [run_cursor_calls, List.foldl_cons]
    apply ih
    obtain ⟨w, sbuff⟩ := st
    cases c with
    | position c => exact root_in_window_position_call c sbuff h
    | next => exact root_in_window_next fn load w sbuff h

/-! ## The claims -/

/-- C1: a buffer made by `_fr_sbuff_init`, from any start and end pointers, has
no extension function; after any finite sequence of `fr_sbuff_set` (to a pointer
or to a `size_t` offset), `fr_sbuff_advance`, `fr_sbuff_set_to_start`,
`fr_sbuff_set_to_end` and `fr_sbuff_next` calls on it, whatever an extension
function would do, it is still one buffer and `start <= p <= end` holds. -/
theorem fr_sbuff_init_calls_keep_position_in_window {σ : Type} (fn : Nat → fr_sbuff_extend_t σ)
    (load : σ → Nat → Nat) (w : σ) (start end_ : Nat) (is_const : Bool)
    (calls : List cursor_call) :
    ∃ s, (run_cursor_calls fn load calls (w, _fr_sbuff_init start end_ is_const)).2 = [s] ∧
      s.start ≤ s.p ∧ s.p ≤ s.end_ := by
  obtain ⟨s, hs, _, h1, h2⟩ :=
    root_in_window_cursor_calls fn load calls (w, _fr_sbuff_init start end_ is_const)
      (root_in_window_init start end_ is_const)
  exact ⟨s, hs, h1, h2⟩

/-- C2: for a buffer with `start <= p <= end` and a target `t` with
`start <= t <= end`, `_fr_sbuff_set(sbuff, t)` returns the signed delta
`t - p_old` (positive for a forward move, negative for a backward move, 0 when
`t = p_old`) and leaves the buffer with its position equal to `t` and every other
field (`start`, `end` and the marker list among them) as before. -/
theorem fr_sbuff_set_in_window_moves_to_target (sbuff : fr_sbuff_t) (parent : fr_sbuff_ptr)
    (t : Nat) (_hp : sbuff.start ≤ sbuff.p ∧ sbuff.p ≤ sbuff.end_)
    (ht : sbuff.start ≤ t ∧ t ≤ sbuff.end_) :
    (_fr_sbuff_set (sbuff :: parent) t).1 = (t : Int) - (sbuff.p : Int) ∧
    (sbuff.p < t → 0 < (_fr_sbuff_set (sbuff :: parent) t).1) ∧
    (t < sbuff.p → (_fr_sbuff_set (sbuff :: parent) t).1 < 0) ∧
    (t = sbuff.p → (_fr_sbuff_set (sbuff :: parent) t).1 = 0) ∧
    ∃ parent1, (_fr_sbuff_set (sbuff :: parent) t).2 = { sbuff with p := t } :: parent1 := by
  have hret : (_fr_sbuff_set (sbuff :: parent) t).1 = (t : Int) - (sbuff.p : Int) := by
    simp only [_fr_sbuff_set]
    split_ifs with a b c
    · omega
    · omega
    · simp [c]
    · rfl
  refine ⟨hret, ?_, ?_, ?_, ?_⟩
  · intro h; rw [hret]; omega
  · intro h; rw [hret]; omega
  · intro h; rw [hret]; omega
  · simp only [_fr_sbuff_set]
    split_ifs with a b c
    · omega
    · omega
    · exact ⟨parent, by subst c; rfl⟩
    · exact ⟨_, rfl⟩

/-- Witness of C2: a backward move from 12 to 11 in the window 10 to 20. -/
theorem fr_sbuff_set_in_window_moves_to_target_witness :
    (sbuff_10_12_20.start ≤ sbuff_10_12_20.p ∧ sbuff_10_12_20.p ≤ sbuff_10_12_20.end_) ∧
    (sbuff_10_12_20.start ≤ 11 ∧ 11 ≤ sbuff_10_12_20.end_) ∧
    (_fr_sbuff_set [sbuff_10_12_20] 11).1 = -1 ∧
    (_fr_sbuff_set [sbuff_10_12_20] 11).2 = [{ sbuff_10_12_20 with p := 11 }] :=
  ⟨by decide, by decide,
    (fr_sbuff_set_in_window_moves_to_target sbuff_10_12_20 [] 11 (by decide) (by decide)).1,
    by decide⟩

/-- C3: for every buffer and every target `t > end`, `_fr_sbuff_set` returns
`-(t - end)`, the number of bytes missing, and changes nothing: the buffer and
all of its ancestors are exactly as before the call. -/
theorem fr_sbuff_set_past_end_returns_shortfall (sbuff : fr_sbuff_t) (parent : fr_sbuff_ptr)
    (t : Nat) (h : t > sbuff.end_) :
    _fr_sbuff_set (sbuff :: parent) t = (-((t : Int) - (sbuff.end_ : Int)), sbuff :: parent) := by
  simp [_fr_sbuff_set, h]

/-- Witness of C3: a target 5 bytes past the end of a child whose parent would be advanced. -/
theorem fr_sbuff_set_past_end_returns_shortfall_witness :
    25 > sbuff_10_12_20.end_ ∧
    _fr_sbuff_set (FR_SBUFF_COPY [sbuff_10_12_20]) 25 = (-5, FR_SBUFF_COPY [sbuff_10_12_20]) :=
  ⟨by decide, fr_sbuff_set_past_end_returns_shortfall _ [sbuff_10_12_20] 25 (by decide)⟩

/-- C4, counterexample: on the buffer with window 10 to 20 and position 12 the
target 25 lies past `end`, and after `_fr_sbuff_set` the position is still 12, not
`end`; the target 3 lies before `start`, and the position is still 12, not `start`. -/
theorem fr_sbuff_set_does_not_clamp :
    (25 > sbuff_10_12_20.end_ ∧
      (_fr_sbuff_set [sbuff_10_12_20] 25).2.map fr_sbuff_t.p = [12] ∧
      (_fr_sbuff_set [sbuff_10_12_20] 25).2.map fr_sbuff_t.p ≠ [sbuff_10_12_20.end_]) ∧
    (3 < sbuff_10_12_20.start ∧
      (_fr_sbuff_set [sbuff_10_12_20] 3).2.map fr_sbuff_t.p = [12] ∧
      (_fr_sbuff_set [sbuff_10_12_20] 3).2.map fr_sbuff_t.p ≠ [sbuff_10_12_20.start]) := by
  decide

/-- C4, amended: after `_fr_sbuff_set(sbuff, t)` the position of the buffer is `t`
when `start <= t <= end`, and it is the position before the call when `t > end`
or `t < start`; the target is not clamped. -/
theorem fr_sbuff_set_position_after (sbuff : fr_sbuff_t) (parent : fr_sbuff_ptr) (t : Nat) :
    (_fr_sbuff_set (sbuff :: parent) t).2.head?.map fr_sbuff_t.p =
      some (if t > sbuff.end_ ∨ t < sbuff.start then sbuff.p else t) := by
  simp only [_fr_sbuff_set]
  split_ifs with a b c d e f <;> first | rfl | omega | simp_all [_fr_sbuff_set_recurse]

theorem fr_sbuff_set_recurse_eq (chain : fr_sbuff_ptr) (t : Nat) :
    _fr_sbuff_set_recurse chain t = set_positions_upto (last_advanced chain) t chain := by
  induction chain with
  | nil => rfl
  | cons b rest ih =>
    by_cases hadv : b.adv_parent = true
    · cases rest with
      | nil => simp [_fr_sbuff_set_recurse, set_positions_upto, last_advanced]
      | cons c rest1 =>
        have hk : last_advanced (b :: c :: rest1) = last_advanced (c :: rest1) + 1 := by
          simp only [last_advanced, List.findIdx_cons, hadv, Bool.not_true, cond_false,
            List.length_cons]
          omega
        have e : _fr_sbuff_set_recurse (b :: c :: rest1) t =
            { b with p := t } :: _fr_sbuff_set_recurse (c :: rest1) t := by
          rw [_fr_sbuff_set_recurse, if_pos ⟨hadv, List.cons_ne_nil c rest1⟩]
        rw [hk, e, ih]
        simp [set_positions_upto]
    · have hk : last_advanced (b :: rest) = 0 := by
        simp [last_advanced, List.findIdx_cons, hadv]
      rw [hk]
      simp [_fr_sbuff_set_recurse, hadv, set_positions_upto]

/-- C5, counterexample: the child of `copy_with_parent_ahead` has `adv_parent`
set and stands at 12, inside its window, while its parent stands at 15.
`_fr_sbuff_set(child, 12)` reports no error (it returns 0) and leaves the parent
at 15: the parent is not set to the target 12. -/
theorem fr_sbuff_set_to_current_skips_parent :
    copy_with_parent_ahead.map fr_sbuff_t.adv_parent = [true, false] ∧
    copy_with_parent_ahead.map fr_sbuff_t.start = [12, 10] ∧
    copy_with_parent_ahead.map fr_sbuff_t.end_ = [20, 20] ∧
    last_advanced copy_with_parent_ahead = 1 ∧
    (_fr_sbuff_set copy_with_parent_ahead 12).1 = 0 ∧
    (_fr_sbuff_set copy_with_parent_ahead 12).2.map fr_sbuff_t.p = [12, 15] ∧
    (_fr_sbuff_set copy_with_parent_ahead 12).2 ≠
      set_positions_upto (last_advanced copy_with_parent_ahead) 12 copy_with_parent_ahead := by
  decide

/-- C5, amended: for a chain `b0 -> b1 -> ... -> bn` linked by `parent`, with `k`
the least index whose `adv_parent` flag is clear (`k = n` if all are set), a call
`_fr_sbuff_set(b0, t)` with `b0.start <= t <= b0.end` and `t` different from the
position of `b0` sets the position of each of `b0..bk` to `t` and leaves every
`bj` with `j > k` unchanged; no other field of any buffer changes. -/
theorem fr_sbuff_set_moves_chain_upto_last_advanced (b0 : fr_sbuff_t) (parent : fr_sbuff_ptr)
    (t : Nat) (ht : b0.start ≤ t ∧ t ≤ b0.end_) (hne : t ≠ b0.p) :
    (_fr_sbuff_set (b0 :: parent) t).2 =
      set_positions_upto (last_advanced (b0 :: parent)) t (b0 :: parent) := by
  rw [← fr_sbuff_set_recurse_eq]
  simp only [_fr_sbuff_set]
  split_ifs with a b
  · omega
  · omega
  · rfl

/-- Witness of C5: moving the child of `copy_with_parent_ahead` to 14 moves the
child and its parent to 14. -/
theorem fr_sbuff_set_moves_chain_upto_last_advanced_witness :
    (12 ≤ 14 ∧ 14 ≤ 20) ∧ 14 ≠ 12 ∧
    (_fr_sbuff_set copy_with_parent_ahead 14).2.map fr_sbuff_t.p = [14, 14] := by
  have h := fr_sbuff_set_moves_chain_upto_last_advanced
    { sbuff_10_12_20 with start := 12, adv_parent := true } [{ sbuff_10_12_20 with p := 15 }] 14
    (by decide) (by decide)
  exact ⟨by decide, by decide, by
    have e : copy_with_parent_ahead =
        [{ sbuff_10_12_20 with start := 12, adv_parent := true }, { sbuff_10_12_20 with p := 15 }] := by
      decide
    rw [e, h]; decide⟩

theorem fr_sbuff_set_recurse_no_adv (c : fr_sbuff_t) (parent : fr_sbuff_ptr) (t : Nat)
    (h : c.adv_parent = false) :
    _fr_sbuff_set_recurse (c :: parent) t = { c with p := t } :: parent := by
  simp [_fr_sbuff_set_recurse, h]

theorem fr_sbuff_set_no_adv (c : fr_sbuff_t) (parent : fr_sbuff_ptr) (t : Nat)
    (h : c.adv_parent = false) :
    ∃ c1, (_fr_sbuff_set (c :: parent) t).2 = c1 :: parent ∧ c1.adv_parent = false := by
  simp only [_fr_sbuff_set]
  split_ifs
  · exact ⟨c, rfl, h⟩
  · exact ⟨c, rfl, h⟩
  · exact ⟨c, rfl, h⟩
  · exact ⟨{ c with p := t }, fr_sbuff_set_recurse_no_adv c parent t h, h⟩

theorem position_call_no_adv (call : position_call) (c : fr_sbuff_t) (parent : fr_sbuff_ptr)
    (h : c.adv_parent = false) :
    ∃ c1, call.run (c :: parent) = c1 :: parent ∧ c1.adv_parent = false := by
  cases call with
  | set t => exact fr_sbuff_set_no_adv c parent t h
  | set_size n => exact fr_sbuff_set_no_adv c parent _ h
  | advance n => exact fr_sbuff_set_no_adv c parent _ h
  | set_to_start => exact ⟨_, fr_sbuff_set_recurse_no_adv c parent _ h, h⟩
  | set_to_end => exact ⟨_, fr_sbuff_set_recurse_no_adv c parent _ h, h⟩

theorem run_position_calls_no_adv (calls : List position_call) (c : fr_sbuff_t)
    (parent : fr_sbuff_ptr) (h : c.adv_parent = false) :
    ∃ c1, run_position_calls calls (c :: parent) = c1 :: parent ∧ c1.adv_parent = false := by
  induction calls generalizing c with
  | nil => exact ⟨c, rfl, h⟩
  | cons call cs ih =>
    obtain ⟨c1, e1, h1⟩ := position_call_no_adv call c parent h
    obtain ⟨c2, e2, h2⟩ := ih c1 h1
    refine ⟨c2, ?_, h2⟩
    simp only [run_position_calls, List.foldl_cons] at e2 ⊢
    rw [e1, e2]

/-- C6: for a buffer `P` (with any ancestors) the child `C = FR_SBUFF_NO_ADVANCE(P)`
begins with `start = p = P.p`, `end = P.end` and `adv_parent` clear, and after any
sequence of `fr_sbuff_set`, `fr_sbuff_advance`, `fr_sbuff_set_to_start` and
`fr_sbuff_set_to_end` calls on `C` the buffer `P` and its ancestors are exactly as
before: neither the position nor any other field of `P` has changed. -/
theorem fr_sbuff_no_advance_child_leaves_parent (P : fr_sbuff_t) (parent : fr_sbuff_ptr)
    (calls : List position_call) :
    (∃ C, FR_SBUFF_NO_ADVANCE (P :: parent) = C :: P :: parent ∧
      C.start = P.p ∧ C.p = P.p ∧ C.end_ = P.end_ ∧ C.adv_parent = false) ∧
    ∃ C1, run_position_calls calls (FR_SBUFF_NO_ADVANCE (P :: parent)) = C1 :: P :: parent := by
  have hC : ∃ C, FR_SBUFF_NO_ADVANCE (P :: parent) = C :: P :: parent ∧
      C.start = P.p ∧ C.p = P.p ∧ C.end_ = P.end_ ∧ C.adv_parent = false :=
    ⟨_, rfl, rfl, rfl, rfl, rfl⟩
  refine ⟨hC, ?_⟩
  obtain ⟨C, e, _, _, _, hadv⟩ := hC
  obtain ⟨c1, e1, _⟩ := run_position_calls_no_adv calls C (P :: parent) hadv
  exact ⟨c1, by rw [e, e1]⟩

theorem fr_sbuff_remaining_eq (sbuff : fr_sbuff_t) (h : sbuff.p ≤ sbuff.end_) :
    fr_sbuff_remaining sbuff = sbuff.end_ - sbuff.p := by
  simp only [fr_sbuff_remaining, fr_sbuff_end, fr_sbuff_current]
  split_ifs <;> omega

theorem ptr_add_eq (p n : Nat) (h : p + n ≤ SIZE_MAX) : ptr_add p n = p + n := by
  simp only [ptr_add]
  exact Nat.mod_eq_of_lt (by omega)

theorem fr_sbuff_set_moved (sbuff : fr_sbuff_t) (parent : fr_sbuff_ptr) (n : Nat)
    (h1 : sbuff.p + n ≤ sbuff.end_) (h2 : sbuff.start ≤ sbuff.p + n) (h3 : 0 < n) :
    fr_sbuff_set (sbuff :: parent) (sbuff.p + n) =
      ((n : Int), _fr_sbuff_set_recurse (sbuff :: parent) (sbuff.p + n)) := by
  have a : ¬ sbuff.p + n > sbuff.end_ := by omega
  have b : ¬ sbuff.p + n < sbuff.start := by omega
  have c : ¬ sbuff.p + n = sbuff.p := by omega
  simp only [fr_sbuff_set, _fr_sbuff_set, a, b, c, if_false]
  congr 1
  push_cast
  omega

theorem fr_sbuff_advance_eq (sbuff : fr_sbuff_t) (parent : fr_sbuff_ptr) (n : Nat)
    (hmax : sbuff.p + n ≤ SIZE_MAX) :
    fr_sbuff_advance (sbuff :: parent) n = _fr_sbuff_set (sbuff :: parent) (sbuff.p + n) := by
  simp only [fr_sbuff_advance, fr_sbuff_set, fr_sbuff_current, ptr_add_eq _ _ hmax]

theorem fr_sbuff_advance_moved (sbuff : fr_sbuff_t) (parent : fr_sbuff_ptr) (n : Nat)
    (h1 : sbuff.p + n ≤ sbuff.end_) (h2 : sbuff.start ≤ sbuff.p + n) (h3 : 0 < n)
    (hmax : sbuff.p + n ≤ SIZE_MAX) :
    fr_sbuff_advance (sbuff :: parent) n =
      ((n : Int), _fr_sbuff_set_recurse (sbuff :: parent) (sbuff.p + n)) := by
  rw [fr_sbuff_advance_eq sbuff parent n hmax]
  exact fr_sbuff_set_moved sbuff parent n h1 h2 h3

theorem fr_sbuff_advance_short (sbuff : fr_sbuff_t) (parent : fr_sbuff_ptr) (n : Nat)
    (h : sbuff.p + n > sbuff.end_) (hmax : sbuff.p + n ≤ SIZE_MAX) :
    fr_sbuff_advance (sbuff :: parent) n =
      (-(((sbuff.p + n : Nat) : Int) - (sbuff.end_ : Int)), sbuff :: parent) := by
  rw [fr_sbuff_advance_eq sbuff parent n hmax]
  simp only [_fr_sbuff_set, h, if_true]

/-- C7: `fr_sbuff_advance(sbuff, n)` is `_fr_sbuff_set(sbuff, p + n)`; on a buffer
with `start <= p <= end` and for `0 < n <= fr_sbuff_remaining(sbuff)` it returns
`n`, `fr_sbuff_used` grows by exactly `n` and `fr_sbuff_remaining` shrinks by
exactly `n`; for `n = 0` it returns 0 and changes nothing.  The end of the buffer
is an address, a number of 64 bits (`hmax`), as every pointer is. -/
theorem fr_sbuff_advance_within_remaining (sbuff : fr_sbuff_t) (parent : fr_sbuff_ptr) (n : Nat)
    (hp : sbuff.start ≤ sbuff.p ∧ sbuff.p ≤ sbuff.end_) (hmax : sbuff.end_ ≤ SIZE_MAX)
    (hn : 0 < n) (hr : n ≤ fr_sbuff_remaining sbuff) :
    fr_sbuff_advance (sbuff :: parent) n = _fr_sbuff_set (sbuff :: parent) (sbuff.p + n) ∧
    (fr_sbuff_advance (sbuff :: parent) n).1 = (n : Int) ∧
    (∃ s1 parent1, (fr_sbuff_advance (sbuff :: parent) n).2 = s1 :: parent1 ∧
      fr_sbuff_used s1 = fr_sbuff_used sbuff + n ∧
      fr_sbuff_remaining s1 = fr_sbuff_remaining sbuff - n ∧
      fr_sbuff_remaining s1 + n = fr_sbuff_remaining sbuff) ∧
    fr_sbuff_advance (sbuff :: parent) 0 = (0, sbuff :: parent) := by
  have hrem : fr_sbuff_remaining sbuff = sbuff.end_ - sbuff.p := by
    simp only [fr_sbuff_remaining, fr_sbuff_end, fr_sbuff_current]
    split_ifs <;> omega
  rw [hrem] at hr
  have h1 : ¬ sbuff.p + n > sbuff.end_ := by omega
  have h2 : ¬ sbuff.p + n < sbuff.start := by omega
  have h3 : ¬ sbuff.p + n = sbuff.p := by omega
  have hadv : fr_sbuff_advance (sbuff :: parent) n =
      ((n : Int), _fr_sbuff_set_recurse (sbuff :: parent) (sbuff.p + n)) :=
    fr_sbuff_advance_moved sbuff parent n (by omega) (by omega) hn (by omega)
  refine ⟨fr_sbuff_advance_eq sbuff parent n (by omega), by rw [hadv], ?_, ?_⟩
  · rw [hadv]
    refine ⟨{ sbuff with p := sbuff.p + n }, _, rfl, ?_, ?_, ?_⟩
    · simp only [fr_sbuff_used, fr_sbuff_start, fr_sbuff_current]
      split_ifs <;> omega
    · simp only [fr_sbuff_remaining, fr_sbuff_end, fr_sbuff_current]
      split_ifs <;> omega
    · simp only [fr_sbuff_remaining, fr_sbuff_end, fr_sbuff_current]
      split_ifs <;> omega
  · rw [fr_sbuff_advance_eq sbuff parent 0 (by omega)]
    simp only [_fr_sbuff_set, Nat.add_zero]
    split_ifs with a b
    · omega
    · omega
    · rfl

/-- Witness of C7: advancing the buffer over 10 to 20 at position 12 by 8 bytes. -/
theorem fr_sbuff_advance_within_remaining_witness :
    (sbuff_10_12_20.start ≤ sbuff_10_12_20.p ∧ sbuff_10_12_20.p ≤ sbuff_10_12_20.end_) ∧
    sbuff_10_12_20.end_ ≤ SIZE_MAX ∧
    0 < 8 ∧ 8 ≤ fr_sbuff_remaining sbuff_10_12_20 ∧
    (fr_sbuff_advance [sbuff_10_12_20] 8).1 = 8 :=
  ⟨by decide, by decide, by decide, by decide,
    (fr_sbuff_advance_within_remaining sbuff_10_12_20 [] 8 (by decide) (by decide) (by decide)
      (by decide)).2.1⟩

/-- C8, counterexample.  `FR_SBUFF_OUT` over a storage of 0 bytes at address 10
has `end = 9` below `p = 10`: no byte remains and 1 byte is asked for, so
`k = n - remaining` is 1, but `fr_sbuff_advance` returns -2, the distance from
`end` to the target.  On the buffer over 10 to 20 at position 12, where 8 bytes
remain, `fr_sbuff_advance(sbuff, SIZE_MAX)` computes the target `12 + SIZE_MAX`,
which wraps to 11: the call returns -1, not `-(SIZE_MAX - 8)`, and moves the
position to 11. -/
theorem fr_sbuff_advance_shortfall_not_n_minus_remaining :
    FR_SBUFF_OUT 10 0 false = [⟨10, 10, 9, 10, false, false, 0, none, none, none⟩] ∧
    (FR_SBUFF_OUT 10 0 false).map fr_sbuff_remaining = [0] ∧
    fr_sbuff_advance (FR_SBUFF_OUT 10 0 false) 1 = (-2, FR_SBUFF_OUT 10 0 false) ∧
    ((-2 : Int) ≠ -((1 - 0 : Nat) : Int)) ∧
    (sbuff_10_12_20.start ≤ sbuff_10_12_20.p ∧ sbuff_10_12_20.p ≤ sbuff_10_12_20.end_) ∧
    SIZE_MAX > fr_sbuff_remaining sbuff_10_12_20 ∧
    fr_sbuff_advance [sbuff_10_12_20] SIZE_MAX = (-1, [{ sbuff_10_12_20 with p := 11 }]) ∧
    ((-1 : Int) ≠ -((SIZE_MAX - fr_sbuff_remaining sbuff_10_12_20 : Nat) : Int)) := by
  decide

/-- C8, amended, retry after grow: on a buffer with `start <= p <= end` and for
`n > fr_sbuff_remaining(sbuff)` such that `p + n` is an address (at most
`SIZE_MAX`), `fr_sbuff_advance(sbuff, n)` returns `-k` with `k = n - remaining`
and changes nothing; once `end` is raised by exactly `k` the same call returns
`n` and leaves the position at the new `end`; after raising `end` by fewer than
`k` bytes the call still returns a negative value. -/
theorem fr_sbuff_advance_retry_after_grow (sbuff : fr_sbuff_t) (parent : fr_sbuff_ptr) (n : Nat)
    (hp : sbuff.start ≤ sbuff.p ∧ sbuff.p ≤ sbuff.end_) (hmax : sbuff.p + n ≤ SIZE_MAX)
    (hn : n > fr_sbuff_remaining sbuff) :
    fr_sbuff_advance (sbuff :: parent) n =
      (-((n - fr_sbuff_remaining sbuff : Nat) : Int), sbuff :: parent) ∧
    (fr_sbuff_advance
        ({ sbuff with end_ := sbuff.end_ + (n - fr_sbuff_remaining sbuff) } :: parent) n).1 = (n : Int) ∧
    (∃ parent1, (fr_sbuff_advance
        ({ sbuff with end_ := sbuff.end_ + (n - fr_sbuff_remaining sbuff) } :: parent) n).2 =
      { sbuff with end_ := sbuff.end_ + (n - fr_sbuff_remaining sbuff),
                   p := sbuff.end_ + (n - fr_sbuff_remaining sbuff) } :: parent1) ∧
    ∀ j, j < n - fr_sbuff_remaining sbuff →
      (fr_sbuff_advance ({ sbuff with end_ := sbuff.end_ + j } :: parent) n).1 < 0 := by
  have hrem := fr_sbuff_remaining_eq sbuff hp.2
  rw [hrem] at hn ⊢
  have e : sbuff.end_ + (n - (sbuff.end_ - sbuff.p)) = sbuff.p + n := by omega
  have hmove := fr_sbuff_advance_moved
    { sbuff with end_ := sbuff.end_ + (n - (sbuff.end_ - sbuff.p)) } parent n
    (show sbuff.p + n ≤ sbuff.end_ + (n - (sbuff.end_ - sbuff.p)) by omega)
    (show sbuff.start ≤ sbuff.p + n by omega) (by omega) hmax
  refine ⟨?_, ?_, ?_, ?_⟩
  · rw [fr_sbuff_advance_short sbuff parent n (by omega) hmax]
    congr 1
    omega
  · rw [hmove]
  · rw [hmove, e]
    exact ⟨_, rfl⟩
  · intro j hj
    rw [fr_sbuff_advance_short { sbuff with end_ := sbuff.end_ + j } parent n
      (show sbuff.p + n > sbuff.end_ + j by omega) hmax]
    show -(((sbuff.p + n : Nat) : Int) - ((sbuff.end_ + j : Nat) : Int)) < 0
    omega

/-- Witness of C8, amended: 8 bytes remain in the buffer over 10 to 20 at
position 12, and 11 bytes are asked for. -/
theorem fr_sbuff_advance_retry_after_grow_witness :
    (sbuff_10_12_20.start ≤ sbuff_10_12_20.p ∧ sbuff_10_12_20.p ≤ sbuff_10_12_20.end_) ∧
    sbuff_10_12_20.p + 11 ≤ SIZE_MAX ∧
    11 > fr_sbuff_remaining sbuff_10_12_20 ∧
    fr_sbuff_advance [sbuff_10_12_20] 11 = (-3, [sbuff_10_12_20]) :=
  ⟨by decide, by decide, by decide,
    (fr_sbuff_advance_retry_after_grow sbuff_10_12_20 [] 11 (by decide) (by decide)
      (by decide)).1⟩

/-- C9, counterexample: `FR_SBUFF_OUT` over a storage of 0 bytes at address 10 has
`end = 9` below `p = 10` and no extension function; no byte remains and 1 byte is
asked for.  `FR_SBUFF_EXTEND_OR_RETURN` makes the function return -2, not
`-(n - remaining) = -1`, and `FR_SBUFF_CHECK_REMAINING_RETURN` makes it return
-1: the two macros differ on this buffer. -/
theorem fr_sbuff_extend_or_return_counts_from_end :
    FR_SBUFF_OUT 10 0 false = [⟨10, 10, 9, 10, false, false, 0, none, none, none⟩] ∧
    (FR_SBUFF_OUT 10 0 false).map fr_sbuff_remaining = [0] ∧
    (FR_SBUFF_EXTEND_OR_RETURN (fun _ => extend_as_requested) [] (FR_SBUFF_OUT 10 0 false) 1).val
      = some (-2) ∧
    ((-2 : Int) ≠ -((1 : Int) - ((0 : Nat) : Int))) ∧
    (FR_SBUFF_CHECK_REMAINING_RETURN (FR_SBUFF_OUT 10 0 false) 1).1 = some (-1) ∧
    (FR_SBUFF_EXTEND_OR_RETURN (fun _ => extend_as_requested) [] (FR_SBUFF_OUT 10 0 false) 1).val
      ≠ (FR_SBUFF_CHECK_REMAINING_RETURN (FR_SBUFF_OUT 10 0 false) 1).1 := by
  decide

/-- C9, amended: on a buffer with `p <= end` and no extension function,
`FR_SBUFF_EXTEND_OR_RETURN(sbuff, n)` makes the enclosing function return
`-(n - remaining)`, a strictly negative value, exactly when
`fr_sbuff_remaining(sbuff) < n`, and falls through otherwise; the buffer and the
outside state are unchanged in both cases.  `FR_SBUFF_CHECK_REMAINING_RETURN`
does the same on that buffer: it yields the same value and leaves the same
buffers; on every buffer `b`, with or without an extension function, it returns
`-(n - remaining)` exactly when `fr_sbuff_remaining(b) < n`. -/
theorem fr_sbuff_extend_or_return_without_extend {σ : Type} (fn : Nat → fr_sbuff_extend_t σ)
    (w : σ) (sbuff : fr_sbuff_t) (parent : fr_sbuff_ptr) (n : Nat)
    (hext : sbuff.extend = none) (hp : sbuff.p ≤ sbuff.end_)
    (b : fr_sbuff_t) (bparent : fr_sbuff_ptr) :
    FR_SBUFF_EXTEND_OR_RETURN fn w (sbuff :: parent) n =
      ⟨(if fr_sbuff_remaining sbuff < n then
          some (-((n : Int) - (fr_sbuff_remaining sbuff : Int))) else none), w, sbuff :: parent⟩ ∧
    (fr_sbuff_remaining sbuff < n → -((n : Int) - (fr_sbuff_remaining sbuff : Int)) < 0) ∧
    FR_SBUFF_CHECK_REMAINING_RETURN (sbuff :: parent) n =
      ((FR_SBUFF_EXTEND_OR_RETURN fn w (sbuff :: parent) n).val,
        (FR_SBUFF_EXTEND_OR_RETURN fn w (sbuff :: parent) n).sbuff) ∧
    FR_SBUFF_CHECK_REMAINING_RETURN (b :: bparent) n =
      ((if fr_sbuff_remaining b < n then
          some (-((n : Int) - (fr_sbuff_remaining b : Int))) else none), b :: bparent) := by
  have hrem := fr_sbuff_remaining_eq sbuff hp
  have hcheck : ∀ (c : fr_sbuff_t) (cparent : fr_sbuff_ptr),
      FR_SBUFF_CHECK_REMAINING_RETURN (c :: cparent) n =
        ((if fr_sbuff_remaining c < n then
            some (-((n : Int) - (fr_sbuff_remaining c : Int))) else none), c :: cparent) := by
    intro c cparent
    simp only [FR_SBUFF_CHECK_REMAINING_RETURN, gt_iff_lt]
    split_ifs <;> rfl
  have hmac : FR_SBUFF_EXTEND_OR_RETURN fn w (sbuff :: parent) n =
      ⟨(if fr_sbuff_remaining sbuff < n then
          some (-((n : Int) - (fr_sbuff_remaining sbuff : Int))) else none), w,
        sbuff :: parent⟩ := by
    simp only [FR_SBUFF_EXTEND_OR_RETURN, hext]
    split_ifs with a
    · rw [hrem]
      have e : ((sbuff.p + n : Nat) : Int) - (sbuff.end_ : Int) =
          (n : Int) - ((sbuff.end_ - sbuff.p : Nat) : Int) := by omega
      rw [e]
    · rfl
  refine ⟨hmac, ?_, ?_, hcheck b bparent⟩
  · intro h
    omega
  · rw [hmac, hcheck sbuff parent]

/-- Witness of C9, amended: 8 bytes remain in the buffer over 10 to 20 at
position 12, which has no extension function, and 11 bytes are asked for; the
check macro is also run on the buffer over 10 to 15 that has an extension
function. -/
theorem fr_sbuff_extend_or_return_without_extend_witness :
    sbuff_10_12_20.extend = none ∧ sbuff_10_12_20.p ≤ sbuff_10_12_20.end_ ∧
    (FR_SBUFF_EXTEND_OR_RETURN (fun _ => extend_as_requested) [] [sbuff_10_12_20] 11).val =
      some (-3) ∧
    FR_SBUFF_CHECK_REMAINING_RETURN [sbuff_10_12_20] 11 = (some (-3), [sbuff_10_12_20]) ∧
    FR_SBUFF_CHECK_REMAINING_RETURN [sbuff_10_12_15_ext] 5 = (some (-2), [sbuff_10_12_15_ext]) :=
  ⟨by decide, by decide,
    by rw [(fr_sbuff_extend_or_return_without_extend (fun _ => extend_as_requested) []
      sbuff_10_12_20 [] 11 (by decide) (by decide) sbuff_10_12_15_ext []).1]; decide,
    by decide, by decide⟩

theorem fr_sbuff_extend_or_return_calls_with_len {σ : Type} (fn : Nat → fr_sbuff_extend_t σ)
    (w : σ) (sbuff : fr_sbuff_t) (parent : fr_sbuff_ptr) (n f : Nat)
    (hext : sbuff.extend = some f) (hr : fr_sbuff_remaining sbuff < n) :
    (FR_SBUFF_EXTEND_OR_RETURN fn w (sbuff :: parent) n).world = (fn f w (sbuff :: parent) n).1 ∧
    (FR_SBUFF_EXTEND_OR_RETURN fn w (sbuff :: parent) n).sbuff =
      (fn f w (sbuff :: parent) n).2.1 := by
  simp only [FR_SBUFF_EXTEND_OR_RETURN, hr, if_true, hext]
  rcases hfn : fn f w (sbuff :: parent) n with ⟨w1, _ | ⟨s1, p1⟩, r⟩
  · exact ⟨rfl, rfl⟩
  · simp only
    split_ifs <;> exact ⟨rfl, rfl⟩

/-- C10, the code at the failing input: 3 bytes remain in `sbuff_10_12_15_ext`
and 5 are asked for, so the shortfall is 2; `FR_SBUFF_EXTEND_OR_RETURN` calls the
extension function once, with the requested size 5 (the whole length), where
`FR_SBUFF_CANT_EXTEND_LOWAT` on the same buffer calls it with 2; with 5 bytes
remaining neither calls it. -/
theorem fr_sbuff_extend_or_return_requests_len :
    fr_sbuff_remaining sbuff_10_12_15_ext = 3 ∧
    (FR_SBUFF_EXTEND_OR_RETURN (fun _ => extend_as_requested) [] [sbuff_10_12_15_ext] 5).world
      = [5] ∧
    (FR_SBUFF_EXTEND_OR_RETURN (fun _ => extend_as_requested) [] [sbuff_10_12_15_ext] 5).sbuff.map
      fr_sbuff_t.end_ = [20] ∧
    (FR_SBUFF_CANT_EXTEND_LOWAT (fun _ => extend_as_requested) [] [sbuff_10_12_15_ext] 5).world
      = [2] ∧
    (FR_SBUFF_EXTEND_OR_RETURN (fun _ => extend_as_requested) []
      [{ sbuff_10_12_15_ext with p := 10 }] 5).world = [] := by
  decide

theorem fr_sbuff_extend_or_return_failure_value {σ : Type} (fn : Nat → fr_sbuff_extend_t σ)
    (w w1 : σ) (sbuff : fr_sbuff_t) (parent : fr_sbuff_ptr) (n f r : Nat)
    (hext : sbuff.extend = some f) (hr : fr_sbuff_remaining sbuff < n)
    (hfn : fn f w (sbuff :: parent) n = (w1, { sbuff with end_ := sbuff.end_ + r } :: parent, r)) :
    (FR_SBUFF_EXTEND_OR_RETURN fn w (sbuff :: parent) n).val =
      if r < n then some (-(((sbuff.p + n : Nat) : Int) - ((sbuff.end_ + r : Nat) : Int)))
      else none := by
  simp only [FR_SBUFF_EXTEND_OR_RETURN, hr, if_true, hext, hfn]
  split_ifs <;> rfl

/-- C11, the code at the failing input: 3 bytes remain in `sbuff_10_12_15_ext`
and 5 are asked for.  The extension function is asked for 5 bytes and obtains
the 4 bytes its source has left, raising `end` by 4, so 7 bytes remain; the macro
still makes the enclosing function return, and the value returned is 2, which is
not negative.  When the source has 2 bytes left, exactly 5 bytes remain after the
extension and the macro returns 0. -/
theorem fr_sbuff_extend_or_return_partial_extension :
    fr_sbuff_remaining sbuff_10_12_15_ext = 3 ∧
    (FR_SBUFF_EXTEND_OR_RETURN (fun _ => extend_upto_available) 4 [sbuff_10_12_15_ext] 5).val
      = some 2 ∧
    (FR_SBUFF_EXTEND_OR_RETURN (fun _ => extend_upto_available) 4
      [sbuff_10_12_15_ext] 5).sbuff.map fr_sbuff_remaining = [7] ∧
    (FR_SBUFF_EXTEND_OR_RETURN (fun _ => extend_upto_available) 2 [sbuff_10_12_15_ext] 5).val
      = some 0 ∧
    (FR_SBUFF_EXTEND_OR_RETURN (fun _ => extend_upto_available) 2
      [sbuff_10_12_15_ext] 5).sbuff.map fr_sbuff_remaining = [5] := by
  decide

/-! ## Lemmas on markers -/

theorem fr_sbuff_deref_head (sbuff : fr_sbuff_t) (parent : fr_sbuff_ptr) :
    fr_sbuff_deref (sbuff :: parent) parent.length = some sbuff := by
  simp [fr_sbuff_deref]

theorem fr_sbuff_store_head (f : fr_sbuff_t → fr_sbuff_t) (sbuff : fr_sbuff_t)
    (parent : fr_sbuff_ptr) :
    fr_sbuff_store f (sbuff :: parent) parent.length = some (f sbuff :: parent) := by
  simp [fr_sbuff_store]

theorem fr_sbuff_addr_cons (sbuff : fr_sbuff_t) (parent : fr_sbuff_ptr) :
    fr_sbuff_addr (sbuff :: parent) = parent.length := by
  simp [fr_sbuff_addr]

theorem is_marker_list_update (mem : marker_mem) (m : Nat) (v : fr_sbuff_marker_t)
    (l : List Nat) (head : Option Nat) (h : m ∉ l) :
    is_marker_list (Function.update mem m v) head l = is_marker_list mem head l := by
  induction l generalizing head with
  | nil => rfl
  | cons a l ih =>
    have ha : a ≠ m := fun e => h (by simp [e])
    have hl : m ∉ l := fun e => h (by simp [e])
    simp only [is_marker_list, Function.update_noteq ha, ih _ hl]

theorem is_marker_list_suffix (mem : marker_mem) (l1 l2 : List Nat) (a : Nat)
    (head : Option Nat) (h : is_marker_list mem head (l1 ++ a :: l2) = true) :
    is_marker_list mem (mem a).next l2 = true := by
  induction l1 generalizing head with
  | nil =>
    simp only [List.nil_append, is_marker_list, Bool.and_eq_true] at h
    exact h.2
  | cons b l1 ih =>
    simp only [List.cons_append, is_marker_list, Bool.and_eq_true] at h
    exact ih _ h.2

theorem fr_sbuff_marker_release_owned (mem : marker_mem) (sbuff : fr_sbuff_t)
    (parent : fr_sbuff_ptr) (m : Nat) (h : (mem m).parent = some parent.length) :
    fr_sbuff_marker_release mem (sbuff :: parent) m =
      some ⟨(), Function.update mem m marker_zeroed,
        { sbuff with m := (mem m).next } :: parent⟩ := by
  simp only [fr_sbuff_marker_release, h, fr_sbuff_store_head]

theorem fr_sbuff_set_recurse_map_m (chain : fr_sbuff_ptr) (t : Nat) :
    (_fr_sbuff_set_recurse chain t).map fr_sbuff_t.m = chain.map fr_sbuff_t.m := by
  induction chain with
  | nil => rfl
  | cons b rest ih =>
    simp only [_fr_sbuff_set_recurse, List.map_cons]
    split_ifs
    · rw [ih]
    · rfl

theorem fr_sbuff_set_map_m (chain : fr_sbuff_ptr) (t : Nat) :
    (_fr_sbuff_set chain t).2.map fr_sbuff_t.m = chain.map fr_sbuff_t.m := by
  cases chain with
  | nil => rfl
  | cons b rest =>
    simp only [_fr_sbuff_set]
    split_ifs
    · rfl
    · rfl
    · rfl
    · exact fr_sbuff_set_recurse_map_m _ _

theorem position_call_map_m (c : position_call) (chain : fr_sbuff_ptr) :
    (c.run chain).map fr_sbuff_t.m = chain.map fr_sbuff_t.m := by
  cases chain with
  | nil => cases c <;> rfl
  | cons b rest =>
    cases c with
    | set t => exact fr_sbuff_set_map_m _ _
    | set_size n => exact fr_sbuff_set_map_m _ _
    | advance n => exact fr_sbuff_set_map_m _ _
    | set_to_start => exact fr_sbuff_set_recurse_map_m _ _
    | set_to_end => exact fr_sbuff_set_recurse_map_m _ _

theorem run_position_calls_map_m (calls : List position_call) (chain : fr_sbuff_ptr) :
    (run_position_calls calls chain).map fr_sbuff_t.m = chain.map fr_sbuff_t.m := by
  induction calls generalizing chain with
  | nil => rfl
  | cons c cs ih =>
    simp only [run_position_calls, List.foldl_cons] at ih ⊢
    rw [ih, position_call_map_m]

theorem cons_of_map_m_eq (chain : fr_sbuff_ptr) (sbuff : fr_sbuff_t) (parent : fr_sbuff_ptr)
    (h : chain.map fr_sbuff_t.m = (sbuff :: parent).map fr_sbuff_t.m) :
    ∃ s1 parent1, chain = s1 :: parent1 ∧ s1.m = sbuff.m ∧ parent1.length = parent.length := by
  cases chain with
  | nil => simp at h
  | cons s1 parent1 =>
    simp only [List.map_cons, List.cons.injEq] at h
    refine ⟨s1, parent1, rfl, h.1, ?_⟩
    have := congrArg List.length h.2
    simpa using this

theorem run_marker_calls_registered (calls : List marker_call) (mem : marker_mem)
    (sbuff : fr_sbuff_t) (parent : fr_sbuff_ptr) (l : List Nat)
    (hl : is_marker_list mem sbuff.m l = true) (hnd : (registered calls).Nodup)
    (hfresh : ∀ a ∈ registered calls, a ∉ l) :
    ∃ s1 parent1, (run_marker_calls calls (mem, sbuff :: parent)).2 = s1 :: parent1 ∧
      parent1.length = parent.length ∧
      is_marker_list (run_marker_calls calls (mem, sbuff :: parent)).1 s1.m
        ((registered calls).reverse ++ l) = true ∧
      (∀ a ∈ registered calls,
        ((run_marker_calls calls (mem, sbuff :: parent)).1 a).parent = some parent.length) ∧
      (∀ a, a ∉ registered calls →
        (run_marker_calls calls (mem, sbuff :: parent)).1 a = mem a) := by
  induction calls generalizing mem sbuff parent l with
  | nil => exact ⟨sbuff, parent, rfl, rfl, by simpa [registered] using hl, by simp [registered],
      fun _ _ => rfl⟩
  | cons c cs ih =>
    cases c with
    | register m =>
      simp only [registered, List.nodup_cons] at hnd
      have hm : m ∉ l := hfresh m (by simp [registered])
      have hl1 : is_marker_list
          (Function.update mem m
            { next := sbuff.m, p := sbuff.p, parent := some (fr_sbuff_addr (sbuff :: parent)) })
          (some m) (m :: l) = true := by
        simp only [is_marker_list, beq_self_eq_true, Function.update_same, Bool.true_and]
        rw [is_marker_list_update _ _ _ _ _ hm]
        exact hl
      obtain ⟨s1, parent1, e, hlen, hlist, hpar, hframe⟩ :=
        ih _ { sbuff with m := some m } parent (m :: l) hl1 hnd.2
          (by
            intro a ha hmem
            rcases List.mem_cons.1 hmem with h | h
            · exact hnd.1 (h ▸ ha)
            · exact hfresh a (by simp [registered, ha]) h)
      have hrun : run_marker_calls (marker_call.register m :: cs) (mem, sbuff :: parent) =
          run_marker_calls cs
            (Function.update mem m
              { next := sbuff.m, p := sbuff.p, parent := some (fr_sbuff_addr (sbuff :: parent)) },
              { sbuff with m := some m } :: parent) := rfl
      rw [hrun]
      refine ⟨s1, parent1, e, hlen, ?_, ?_, ?_⟩
      · simpa [registered, List.reverse_cons, List.append_assoc] using hlist
      · intro a ha
        simp only [registered, List.mem_cons] at ha
        rcases ha with h | h
        · subst h
          rw [hframe a hnd.1, Function.update_same, fr_sbuff_addr_cons]
        · exact hpar a h
      · intro a ha
        simp only [registered, List.mem_cons, not_or] at ha
        rw [hframe a ha.2, Function.update_noteq ha.1]
    | position c =>
      obtain ⟨s0, parent0, e0, hm0, hlen0⟩ :=
        cons_of_map_m_eq (c.run (sbuff :: parent)) sbuff parent (position_call_map_m c _)
      have hrun : run_marker_calls (marker_call.position c :: cs) (mem, sbuff :: parent) =
          run_marker_calls cs (mem, s0 :: parent0) := by
        simp only [run_marker_calls, List.foldl_cons, marker_call.run, e0]
      rw [hrun]
      obtain ⟨s1, parent1, e, hlen, hlist, hpar, hframe⟩ :=
        ih mem s0 parent0 l (by rw [hm0]; exact hl) (by simpa [registered] using hnd)
          (by intro a ha; exact hfresh a (by simpa [registered] using ha))
      refine ⟨s1, parent1, e, by rw [hlen, hlen0], by simpa [registered] using hlist, ?_, ?_⟩
      · intro a ha
        rw [← hlen0]
        exact hpar a (by simpa [registered] using ha)
      · intro a ha
        exact hframe a (by simpa [registered] using ha)

theorem release_markers_newest_first (rel : List Nat) (mem : marker_mem) (sbuff : fr_sbuff_t)
    (parent : fr_sbuff_ptr) (l : List Nat)
    (hl : is_marker_list mem sbuff.m (rel ++ l) = true) (hnd : rel.Nodup)
    (hfresh : ∀ a ∈ rel, a ∉ l)
    (hpar : ∀ a ∈ rel, (mem a).parent = some parent.length) :
    ∃ mem1 head1, release_markers mem (sbuff :: parent) rel =
        some (mem1, { sbuff with m := head1 } :: parent) ∧
      is_marker_list mem1 head1 l = true ∧ (∀ a, a ∉ rel → mem1 a = mem a) := by
  induction rel generalizing mem sbuff with
  | nil => exact ⟨mem, sbuff.m, rfl, by simpa using hl, fun _ _ => rfl⟩
  | cons a rel ih =>
    simp only [List.nodup_cons] at hnd
    have hrel := fr_sbuff_marker_release_owned mem sbuff parent a (hpar a (by simp))
    have hnot : a ∉ rel ++ l := by
      intro h
      rcases List.mem_append.1 h with h | h
      · exact hnd.1 h
      · exact hfresh a (by simp) h
    have hl1 : is_marker_list (Function.update mem a marker_zeroed) (mem a).next (rel ++ l)
        = true := by
      rw [is_marker_list_update _ _ _ _ _ hnot]
      exact is_marker_list_suffix mem [] (rel ++ l) a sbuff.m (by simpa using hl)
    obtain ⟨mem1, head1, e, hlist, hframe⟩ :=
      ih (Function.update mem a marker_zeroed) { sbuff with m := (mem a).next } hl1 hnd.2
        (fun b hb => hfresh b (by simp [hb]))
        (fun b hb => by
          have : b ≠ a := fun h => hnd.1 (h ▸ hb)
          rw [Function.update_noteq this]
          exact hpar b (by simp [hb]))
    refine ⟨mem1, head1, ?_, hlist, ?_⟩
    · simp only [release_markers, hrel]
      exact e
    · intro b hb
      simp only [List.mem_cons, not_or] at hb
      rw [hframe b hb.2, Function.update_noteq hb.1]

/-- C12: `fr_sbuff_marker(m, sbuff)` returns the current position of the buffer,
sets the position of `m` to it, sets the owner of `m` to `sbuff` and links `m` at
the head of the list of markers (`m.next` is the previous head, `sbuff.m` is
`m`, and the list becomes `m` followed by the previous list); no other field of
the buffer changes, its ancestors are as before, and no marker at another
address is modified. -/
theorem fr_sbuff_marker_links_at_head (mem : marker_mem) (m : Nat) (sbuff : fr_sbuff_t)
    (parent : fr_sbuff_ptr) :
    (fr_sbuff_marker mem m (sbuff :: parent)).val = sbuff.p ∧
    (fr_sbuff_marker mem m (sbuff :: parent)).markers m =
      { p := sbuff.p, next := sbuff.m, parent := some (fr_sbuff_addr (sbuff :: parent)) } ∧
    (fr_sbuff_marker mem m (sbuff :: parent)).sbuff = { sbuff with m := some m } :: parent ∧
    fr_sbuff_deref (fr_sbuff_marker mem m (sbuff :: parent)).sbuff
      (fr_sbuff_addr (sbuff :: parent)) = some { sbuff with m := some m } ∧
    (∀ a, a ≠ m → (fr_sbuff_marker mem m (sbuff :: parent)).markers a = mem a) ∧
    (∀ l, is_marker_list mem sbuff.m l = true → m ∉ l →
      is_marker_list (fr_sbuff_marker mem m (sbuff :: parent)).markers (some m) (m :: l)
        = true) := by
  refine ⟨rfl, ?_, rfl, ?_, ?_, ?_⟩
  · simp [fr_sbuff_marker]
  · rw [fr_sbuff_addr_cons]
    exact fr_sbuff_deref_head _ _
  · intro a ha
    simp [fr_sbuff_marker, Function.update_noteq ha]
  · intro l hl hm
    simp only [fr_sbuff_marker, is_marker_list, beq_self_eq_true, Function.update_same,
      Bool.true_and]
    rw [is_marker_list_update _ _ _ _ _ hm]
    exact hl

/-- Witness of C12: a second marker, at address 300, registered after the two of
`two_markers_registered`. -/
theorem fr_sbuff_marker_links_at_head_witness :
    is_marker_list two_markers_registered.1 (some 200) [200, 100] = true ∧
    300 ∉ [200, 100] ∧
    is_marker_list
      (fr_sbuff_marker two_markers_registered.1 300
        [{ sbuff_10_12_20 with m := some 200 }]).markers (some 300) [300, 200, 100] = true :=
  ⟨by decide, by decide,
    (fr_sbuff_marker_links_at_head two_markers_registered.1 300
      { sbuff_10_12_20 with m := some 200 } []).2.2.2.2.2 [200, 100] (by decide) (by decide)⟩

/-- C13: registering a marker with `fr_sbuff_marker` and releasing it at once
with `fr_sbuff_marker_release` leaves the buffer and its ancestors exactly as
before the registration (every field, the head of the marker list among them)
and leaves every marker at another address as before, so the list of markers,
which the new marker was not part of, is the same list. -/
theorem fr_sbuff_marker_then_release (mem : marker_mem) (m : Nat) (sbuff : fr_sbuff_t)
    (parent : fr_sbuff_ptr) :
    ∃ r, fr_sbuff_marker_release (fr_sbuff_marker mem m (sbuff :: parent)).markers
        (fr_sbuff_marker mem m (sbuff :: parent)).sbuff m = some r ∧
      r.sbuff = sbuff :: parent ∧
      (∀ a, a ≠ m → r.markers a = mem a) ∧
      (∀ l, is_marker_list mem sbuff.m l = true → m ∉ l →
        is_marker_list r.markers sbuff.m l = true) := by
  have hrel := fr_sbuff_marker_release_owned
    (Function.update mem m
      { next := sbuff.m, p := sbuff.p, parent := some (fr_sbuff_addr (sbuff :: parent)) })
    { sbuff with m := some m } parent m
    (by rw [Function.update_same, fr_sbuff_addr_cons])
  refine ⟨_, hrel, ?_, ?_, ?_⟩
  · simp only [Function.update_same]
  · intro a ha
    simp only [Function.update_noteq ha]
  · intro l hl hm
    simp only
    rw [is_marker_list_update _ _ _ _ _ hm, is_marker_list_update _ _ _ _ _ hm]
    exact hl

/-- Witness of C13: a marker at address 300 registered on the buffer of
`two_markers_registered` and released at once. -/
theorem fr_sbuff_marker_then_release_witness :
    is_marker_list two_markers_registered.1 (some 200) [200, 100] = true ∧ 300 ∉ [200, 100] ∧
    ∃ r, fr_sbuff_marker_release
        (fr_sbuff_marker two_markers_registered.1 300 two_markers_registered.2).markers
        (fr_sbuff_marker two_markers_registered.1 300 two_markers_registered.2).sbuff 300
          = some r ∧
      r.sbuff = two_markers_registered.2 ∧
      is_marker_list r.markers (some 200) [200, 100] = true := by
  obtain ⟨r, h1, h2, _, h4⟩ := fr_sbuff_marker_then_release two_markers_registered.1 300
    { sbuff_10_12_20 with m := some 200 } []
  exact ⟨by decide, by decide, r, h1, h2, h4 [200, 100] (by decide) (by decide)⟩

/-- C14: let the markers registered on a buffer, in the order of registration
and with position calls in between or not, be `older`, then `mi`, then `newer`
(all at different addresses, none released, the buffer's earlier markers being
`l`).  Then `fr_sbuff_marker_release(mi)` leaves the list of markers equal to the
markers of `older`, newest first, followed by `l`: `mi` and every newer marker
are off the list, every older marker is kept; the position of the buffer and of
its ancestors is not changed. -/
theorem fr_sbuff_marker_release_trims_list (calls : List marker_call) (mem : marker_mem)
    (sbuff : fr_sbuff_t) (parent : fr_sbuff_ptr) (l older newer : List Nat) (mi : Nat)
    (hl : is_marker_list mem sbuff.m l = true)
    (hreg : registered calls = older ++ mi :: newer)
    (hnd : (registered calls).Nodup) (hfresh : ∀ a ∈ registered calls, a ∉ l) :
    ∃ r s1 parent1,
      fr_sbuff_marker_release (run_marker_calls calls (mem, sbuff :: parent)).1
        (run_marker_calls calls (mem, sbuff :: parent)).2 mi = some r ∧
      r.sbuff = s1 :: parent1 ∧
      is_marker_list r.markers s1.m (older.reverse ++ l) = true ∧
      r.sbuff.map fr_sbuff_t.p =
        (run_marker_calls calls (mem, sbuff :: parent)).2.map fr_sbuff_t.p := by
  obtain ⟨s0, parent0, e, hlen, hlist, hpar, _⟩ :=
    run_marker_calls_registered calls mem sbuff parent l hl hnd hfresh
  have hmi : mi ∈ registered calls := by rw [hreg]; simp
  have hrel := fr_sbuff_marker_release_owned (run_marker_calls calls (mem, sbuff :: parent)).1
    s0 parent0 mi (by rw [hlen]; exact hpar mi hmi)
  rw [hreg] at hnd hlist
  have hnot : mi ∉ older.reverse ++ l := by
    intro h
    rcases List.mem_append.1 h with h | h
    · have := (List.nodup_append.1 hnd).2.2
      exact this (List.mem_reverse.1 h) (by simp)
    · exact hfresh mi hmi h
  have hsplit : (older ++ mi :: newer).reverse ++ l =
      newer.reverse ++ mi :: (older.reverse ++ l) := by
    simp [List.reverse_append, List.append_assoc]
  rw [hsplit] at hlist
  have hsuf := is_marker_list_suffix _ _ _ _ _ hlist
  rw [e]
  refine ⟨_, _, _, hrel, rfl, ?_, rfl⟩
  simp only
  rw [is_marker_list_update _ _ _ _ _ hnot]
  exact hsuf

/-- Witness of C14: markers registered at 100, at 200 and, after an advance by 3
bytes, at 300 on the buffer over 10 to 20; the one at 200 is released. -/
theorem fr_sbuff_marker_release_trims_list_witness :
    is_marker_list no_markers sbuff_10_12_20.m [] = true ∧
    registered [.register 100, .register 200, .position (.advance 3), .register 300]
      = [100] ++ 200 :: [300] ∧
    ∃ r s1 parent1,
      fr_sbuff_marker_release
        (run_marker_calls [.register 100, .register 200, .position (.advance 3), .register 300]
          (no_markers, [sbuff_10_12_20])).1
        (run_marker_calls [.register 100, .register 200, .position (.advance 3), .register 300]
          (no_markers, [sbuff_10_12_20])).2 200 = some r ∧
      r.sbuff = s1 :: parent1 ∧
      is_marker_list r.markers s1.m ([100].reverse ++ []) = true ∧
      r.sbuff.map fr_sbuff_t.p =
        (run_marker_calls [.register 100, .register 200, .position (.advance 3), .register 300]
          (no_markers, [sbuff_10_12_20])).2.map fr_sbuff_t.p :=
  ⟨by decide, by decide,
    fr_sbuff_marker_release_trims_list
      [.register 100, .register 200, .position (.advance 3), .register 300] no_markers
      sbuff_10_12_20 [] [] [100] [300] 200 (by decide) (by decide) (by decide) (by decide)⟩

/-- C15, counterexample: the marker at 100 was registered before the marker at
200 (`two_markers_registered`, list 200, 100).  Releasing first 100 and then 200,
each once, leaves the list empty after the first release and, after the last
release, leaves the head of the list pointing to the marker at 100, which was
released (and zeroed) before: the list is not empty and holds a released marker. -/
theorem fr_sbuff_marker_release_oldest_first_relinks :
    two_markers_registered.2.map fr_sbuff_t.m = [some 200] ∧
    is_marker_list two_markers_registered.1 (some 200) [200, 100] = true ∧
    (release_markers two_markers_registered.1 two_markers_registered.2 [100]).map
      (fun r => r.2.map fr_sbuff_t.m) = some [none] ∧
    (release_markers two_markers_registered.1 two_markers_registered.2 [100, 200]).map
      (fun r => r.2.map fr_sbuff_t.m) = some [some 100] ∧
    (release_markers two_markers_registered.1 two_markers_registered.2 [100, 200]).map
      (fun r => r.1 100) = some marker_zeroed ∧
    (release_markers two_markers_registered.1 two_markers_registered.2 [100, 200]).map
      (fun r => is_marker_list r.1 (some 100) [100]) = some true := by
  decide

/-- C15, amended: markers must be released in the inverse order of registration.
Let the markers registered on a buffer (at different addresses, the buffer's
earlier markers being `l`) be `kept` followed by `rel`, in the order of
registration.  Releasing the markers of `rel`, newest first, each once,
succeeds and leaves the list of markers equal to the markers of `kept`, newest
first, followed by `l`, none of which has been released; after the last release
(`kept` empty) the list is `l` again, empty when the buffer had no marker. -/
theorem fr_sbuff_marker_release_newest_first (calls : List marker_call) (mem : marker_mem)
    (sbuff : fr_sbuff_t) (parent : fr_sbuff_ptr) (l kept rel : List Nat)
    (hl : is_marker_list mem sbuff.m l = true)
    (hreg : registered calls = kept ++ rel)
    (hnd : (registered calls).Nodup) (hfresh : ∀ a ∈ registered calls, a ∉ l) :
    ∃ mem1 s1 parent1,
      release_markers (run_marker_calls calls (mem, sbuff :: parent)).1
        (run_marker_calls calls (mem, sbuff :: parent)).2 rel.reverse
          = some (mem1, s1 :: parent1) ∧
      is_marker_list mem1 s1.m (kept.reverse ++ l) = true ∧
      (∀ a ∈ rel, a ∉ kept.reverse ++ l) := by
  obtain ⟨s0, parent0, e, hlen, hlist, hpar, _⟩ :=
    run_marker_calls_registered calls mem sbuff parent l hl hnd hfresh
  have hdisj : ∀ a ∈ rel, a ∉ kept.reverse ++ l := by
    intro a ha h
    rcases List.mem_append.1 h with h | h
    · rw [hreg] at hnd
      exact (List.nodup_append.1 hnd).2.2 (List.mem_reverse.1 h) ha
    · exact hfresh a (by rw [hreg]; simp [ha]) h
  have hsplit : (registered calls).reverse ++ l = rel.reverse ++ (kept.reverse ++ l) := by
    rw [hreg]
    simp [List.reverse_append, List.append_assoc]
  rw [hsplit] at hlist
  obtain ⟨mem1, head1, hr, hlist1, _⟩ :=
    release_markers_newest_first rel.reverse
      (run_marker_calls calls (mem, sbuff :: parent)).1 s0 parent0 (kept.reverse ++ l) hlist
      (by
        rw [hreg] at hnd
        exact List.nodup_reverse.2 (List.nodup_append.1 hnd).2.1)
      (fun a ha => hdisj a (List.mem_reverse.1 ha))
      (fun a ha => by
        rw [hlen]
        exact hpar a (by rw [hreg]; simp [List.mem_reverse.1 ha]))
  rw [e]
  exact ⟨mem1, _, parent0, hr, hlist1, hdisj⟩

/-- Witness of C15, amended: the two markers of `two_markers_registered` released
newest first, 200 and then 100. -/
theorem fr_sbuff_marker_release_newest_first_witness :
    is_marker_list no_markers sbuff_10_12_20.m [] = true ∧
    registered [.register 100, .register 200] = [] ++ [100, 200] ∧
    ∃ mem1 s1 parent1,
      release_markers two_markers_registered.1 two_markers_registered.2 [100, 200].reverse
        = some (mem1, s1 :: parent1) ∧
      is_marker_list mem1 s1.m ([].reverse ++ []) = true ∧
      (∀ a ∈ [100, 200], a ∉ ([] : List Nat).reverse ++ []) :=
  ⟨by decide, by decide,
    fr_sbuff_marker_release_newest_first [.register 100, .register 200] no_markers
      sbuff_10_12_20 [] [] [] [100, 200] (by decide) (by decide) (by decide) (by decide)⟩

theorem fr_sbuff_store_of_deref (f : fr_sbuff_t → fr_sbuff_t) (chain : fr_sbuff_ptr) (a : Nat)
    (b : fr_sbuff_t) (h : fr_sbuff_deref chain a = some b) :
    ∃ chain1, fr_sbuff_store f chain a = some chain1 := by
  induction chain with
  | nil => simp [fr_sbuff_deref] at h
  | cons s parent ih =>
    simp only [fr_sbuff_deref] at h
    simp only [fr_sbuff_store]
    split_ifs with e
    · exact ⟨_, rfl⟩
    · rw [if_neg e] at h
      obtain ⟨c1, hc⟩ := ih h
      exact ⟨s :: c1, by rw [hc]; rfl⟩

/-- C16: for a marker `m` whose owner is the buffer `b`, `fr_sbuff_behind(m)` is
`max(0, b.p - m.p)` and `fr_sbuff_ahead(m)` is `max(0, m.p - b.p)`; neither is
negative, at most one of them is not zero, and
`fr_sbuff_ahead(m) - fr_sbuff_behind(m) = fr_sbuff_diff(m, b)`. -/
theorem fr_sbuff_behind_ahead_clamped (mem : marker_mem) (chain : fr_sbuff_ptr) (m a : Nat)
    (b : fr_sbuff_t) (hpar : (mem m).parent = some a) (hb : fr_sbuff_deref chain a = some b) :
    ∃ behind ahead, fr_sbuff_behind mem chain m = some behind ∧
      fr_sbuff_ahead mem chain m = some ahead ∧
      behind = max 0 ((b.p : Int) - ((mem m).p : Int)) ∧
      ahead = max 0 (((mem m).p : Int) - (b.p : Int)) ∧
      0 ≤ behind ∧ 0 ≤ ahead ∧ (behind = 0 ∨ ahead = 0) ∧
      ahead - behind = fr_sbuff_diff (mem m).p b.p := by
  refine ⟨if (mem m).p > b.p then 0 else (b.p : Int) - ((mem m).p : Int),
    if b.p > (mem m).p then 0 else ((mem m).p : Int) - (b.p : Int),
    by simp only [fr_sbuff_behind, hpar, hb], by simp only [fr_sbuff_ahead, hpar, hb],
    ?_, ?_, ?_, ?_, ?_, ?_⟩
  · split_ifs <;> omega
  · split_ifs <;> omega
  · split_ifs <;> omega
  · split_ifs <;> omega
  · split_ifs <;> omega
  · simp only [fr_sbuff_diff]
    split_ifs <;> omega

/-- Witness of C16: the marker of `marker_behind_buffer`, 3 bytes behind. -/
theorem fr_sbuff_behind_ahead_clamped_witness :
    (marker_behind_buffer.1 100).parent = some 0 ∧
    fr_sbuff_deref marker_behind_buffer.2 0 = some { sbuff_10_12_20 with p := 15, m := some 100 } ∧
    fr_sbuff_behind marker_behind_buffer.1 marker_behind_buffer.2 100 = some 3 ∧
    fr_sbuff_ahead marker_behind_buffer.1 marker_behind_buffer.2 100 = some 0 := by
  obtain ⟨behind, ahead, h1, h2, h3, h4, _⟩ :=
    fr_sbuff_behind_ahead_clamped marker_behind_buffer.1 marker_behind_buffer.2 100 0
      { sbuff_10_12_20 with p := 15, m := some 100 } (by decide) (by decide)
  refine ⟨by decide, by decide, ?_, ?_⟩
  · rw [h1, h3]; decide
  · rw [h2, h4]; decide

/-- C17, consumed since marker: a marker `m` is registered with `fr_sbuff_marker`
on a buffer whose markers are `l` (`m` not among them), and position calls then
leave the buffer `n` bytes past the position it had at the registration.  Then
`fr_sbuff_behind(m)` is `n`, and `fr_sbuff_marker_release_behind(m)` returns `n`,
leaves the list of markers equal to `l`, so without `m`, and does not move the
buffer. -/
theorem fr_sbuff_marker_release_behind_consumed (mem : marker_mem) (m : Nat)
    (sbuff : fr_sbuff_t) (parent : fr_sbuff_ptr) (calls : List position_call) (n : Nat)
    (l : List Nat) (hl : is_marker_list mem sbuff.m l = true) (hm : m ∉ l)
    (hpos : (run_position_calls calls (fr_sbuff_marker mem m (sbuff :: parent)).sbuff).head?.map
      fr_sbuff_t.p = some (sbuff.p + n)) :
    fr_sbuff_behind (fr_sbuff_marker mem m (sbuff :: parent)).markers
      (run_position_calls calls (fr_sbuff_marker mem m (sbuff :: parent)).sbuff) m
        = some (n : Int) ∧
    ∃ r s1 parent1,
      fr_sbuff_marker_release_behind (fr_sbuff_marker mem m (sbuff :: parent)).markers
        (run_position_calls calls (fr_sbuff_marker mem m (sbuff :: parent)).sbuff) m = some r ∧
      r.val = n ∧ r.sbuff = s1 :: parent1 ∧ s1.p = sbuff.p + n ∧
      is_marker_list r.markers s1.m l = true := by
  obtain ⟨s2, parent2, e, hm2, hlen⟩ :=
    cons_of_map_m_eq _ { sbuff with m := some m } parent
      (run_position_calls_map_m calls (fr_sbuff_marker mem m (sbuff :: parent)).sbuff)
  rw [e] at hpos ⊢
  simp only [List.head?_cons, Option.map_some', Option.some.injEq] at hpos
  have hmark : (fr_sbuff_marker mem m (sbuff :: parent)).markers m =
      { p := sbuff.p, next := sbuff.m, parent := some parent2.length } := by
    simp [fr_sbuff_marker, fr_sbuff_addr, hlen]
  have hbehind : fr_sbuff_behind (fr_sbuff_marker mem m (sbuff :: parent)).markers
      (s2 :: parent2) m = some (n : Int) := by
    simp only [fr_sbuff_behind, hmark, fr_sbuff_deref_head, hpos]
    congr 1
    split_ifs <;> omega
  refine ⟨hbehind, ?_⟩
  have hrel := fr_sbuff_marker_release_owned (fr_sbuff_marker mem m (sbuff :: parent)).markers
    s2 parent2 m (by rw [hmark])
  refine ⟨⟨n, Function.update (fr_sbuff_marker mem m (sbuff :: parent)).markers m marker_zeroed,
    { s2 with m := sbuff.m } :: parent2⟩, { s2 with m := sbuff.m }, parent2, ?_, rfl, rfl,
    hpos, ?_⟩
  · simp only [fr_sbuff_marker_release_behind, hbehind, hrel, hmark, Int.toNat_ofNat]
  · simp only [fr_sbuff_marker]
    rw [is_marker_list_update _ _ _ _ _ hm, is_marker_list_update _ _ _ _ _ hm]
    exact hl

/-- Witness of C17: a marker at 300 registered after the two of
`two_markers_registered`, the buffer then advanced by 3 and by 2 bytes. -/
theorem fr_sbuff_marker_release_behind_consumed_witness :
    is_marker_list two_markers_registered.1 (some 200) [200, 100] = true ∧ 300 ∉ [200, 100] ∧
    fr_sbuff_behind
      (fr_sbuff_marker two_markers_registered.1 300 two_markers_registered.2).markers
      (run_position_calls [.advance 3, .advance 2]
        (fr_sbuff_marker two_markers_registered.1 300 two_markers_registered.2).sbuff) 300
        = some 5 :=
  ⟨by decide, by decide,
    (fr_sbuff_marker_release_behind_consumed two_markers_registered.1 300
      { sbuff_10_12_20 with m := some 200 } [] [.advance 3, .advance 2] 5 [200, 100]
      (by decide) (by decide) (by decide)).1⟩

/-- C18, counterexample: the marker of `marker_ahead_of_buffer` is at 15, 3 bytes
ahead of the buffer at 12, and `fr_sbuff_marker_release_ahead` returns 3, not 0;
the marker of `marker_behind_buffer` is at 12, 3 bytes behind the buffer at 15,
and `fr_sbuff_marker_release_ahead` returns 0, not 3. -/
theorem fr_sbuff_marker_release_ahead_returns_ahead :
    ((marker_ahead_of_buffer.1 100).p = 15 ∧
      marker_ahead_of_buffer.2.map fr_sbuff_t.p = [12] ∧
      (fr_sbuff_marker_release_ahead marker_ahead_of_buffer.1 marker_ahead_of_buffer.2 100).map
        (fun r => r.val) = some 3) ∧
    ((marker_behind_buffer.1 100).p = 12 ∧
      marker_behind_buffer.2.map fr_sbuff_t.p = [15] ∧
      (fr_sbuff_marker_release_ahead marker_behind_buffer.1 marker_behind_buffer.2 100).map
        (fun r => r.val) = some 0) := by
  decide

/-- C18, amended: for a marker `m` whose owner is the buffer `b`,
`fr_sbuff_marker_release_ahead(m)` returns 0 when the marker is behind the
position `p` of the buffer, and otherwise returns the number of bytes the marker
is ahead of `p`. -/
theorem fr_sbuff_marker_release_ahead_value (mem : marker_mem) (chain : fr_sbuff_ptr)
    (m a : Nat) (b : fr_sbuff_t) (hpar : (mem m).parent = some a)
    (hb : fr_sbuff_deref chain a = some b) :
    ∃ r, fr_sbuff_marker_release_ahead mem chain m = some r ∧
      r.val = if (mem m).p < b.p then 0 else (mem m).p - b.p := by
  obtain ⟨chain1, hstore⟩ :=
    fr_sbuff_store_of_deref (fun parent => { parent with m := (mem m).next }) chain a b hb
  refine ⟨⟨(if b.p > (mem m).p then 0 else ((mem m).p : Int) - (b.p : Int)).toNat,
    Function.update mem m marker_zeroed, chain1⟩,
    by simp only [fr_sbuff_marker_release_ahead, fr_sbuff_ahead,
      fr_sbuff_marker_release, hpar, hb, hstore], ?_⟩
  simp only [gt_iff_lt]
  split_ifs <;> omega

/-- Witness of C18, amended: the marker of `marker_ahead_of_buffer`. -/
theorem fr_sbuff_marker_release_ahead_value_witness :
    (marker_ahead_of_buffer.1 100).parent = some 0 ∧
    fr_sbuff_deref marker_ahead_of_buffer.2 0 = some { sbuff_10_12_20 with m := some 100 } ∧
    ∃ r, fr_sbuff_marker_release_ahead marker_ahead_of_buffer.1 marker_ahead_of_buffer.2 100
        = some r ∧
      r.val = if (marker_ahead_of_buffer.1 100).p < 12 then 0
        else (marker_ahead_of_buffer.1 100).p - 12 :=
  ⟨by decide, by decide,
    fr_sbuff_marker_release_ahead_value marker_ahead_of_buffer.1 marker_ahead_of_buffer.2 100 0
      { sbuff_10_12_20 with m := some 100 } (by decide) (by decide)⟩

/-! ## Lemmas on the lookahead conditions -/

theorem sbuff_char_condition_no_extend {σ : Type} (fn : Nat → fr_sbuff_extend_t σ)
    (load : σ → Nat → Nat) (w : σ) (sbuff : fr_sbuff_t) (parent : fr_sbuff_ptr)
    (test : Nat → Bool) (hext : sbuff.extend = none) :
    sbuff_char_condition fn load w (sbuff :: parent) test =
      ⟨decide (1 ≤ fr_sbuff_remaining sbuff) && test (load w sbuff.p), w, sbuff :: parent⟩ := by
  by_cases hr : fr_sbuff_remaining sbuff < 1
  · have h0 : ¬ 1 ≤ fr_sbuff_remaining sbuff := by omega
    simp [sbuff_char_condition, FR_SBUFF_CANT_EXTEND, FR_SBUFF_CANT_EXTEND_LOWAT, hr, hext, h0]
  · have h1 : 1 ≤ fr_sbuff_remaining sbuff := by omega
    simp [sbuff_char_condition, FR_SBUFF_CANT_EXTEND, FR_SBUFF_CANT_EXTEND_LOWAT, hr, h1]

theorem hex_class_eq (c : Nat) :
    (isdigit c || (decide (tolower c ≥ 97) && decide (tolower c ≤ 102))) =
      (decide (48 ≤ c ∧ c ≤ 57) || decide (97 ≤ c ∧ c ≤ 102) || decide (65 ≤ c ∧ c ≤ 70)) := by
  rw [Bool.eq_iff_iff]
  simp only [isdigit, tolower, isupper, Bool.or_eq_true, Bool.and_eq_true, decide_eq_true_eq]
  split_ifs with h <;> omega

/-- C19: on a buffer with no extension function each condition on one char
(`fr_sbuff_is_digit`, `is_alpha`, `is_upper`, `is_lower`, `is_space`, `is_hex`,
`is_char`, `is_in_charset`) returns true exactly when at least one byte remains
before `end` and the byte at the current position is in the class tested (for
`is_hex` the class `0-9`, `a-f`, `A-F`); it returns false when no byte remains,
and the buffer, its position included, and the outside state are unchanged. -/
theorem fr_sbuff_is_conditions_without_extend {σ : Type} (fn : Nat → fr_sbuff_extend_t σ)
    (load : σ → Nat → Nat) (w : σ) (sbuff : fr_sbuff_t) (parent : fr_sbuff_ptr)
    (chars : Nat → Bool) (c : Nat) (hext : sbuff.extend = none) :
    fr_sbuff_is_digit fn load w (sbuff :: parent) =
      ⟨decide (1 ≤ fr_sbuff_remaining sbuff) && isdigit (load w sbuff.p), w, sbuff :: parent⟩ ∧
    fr_sbuff_is_alpha fn load w (sbuff :: parent) =
      ⟨decide (1 ≤ fr_sbuff_remaining sbuff) && isalpha (load w sbuff.p), w, sbuff :: parent⟩ ∧
    fr_sbuff_is_upper fn load w (sbuff :: parent) =
      ⟨decide (1 ≤ fr_sbuff_remaining sbuff) && isupper (load w sbuff.p), w, sbuff :: parent⟩ ∧
    fr_sbuff_is_lower fn load w (sbuff :: parent) =
      ⟨decide (1 ≤ fr_sbuff_remaining sbuff) && islower (load w sbuff.p), w, sbuff :: parent⟩ ∧
    fr_sbuff_is_space fn load w (sbuff :: parent) =
      ⟨decide (1 ≤ fr_sbuff_remaining sbuff) && isspace (load w sbuff.p), w, sbuff :: parent⟩ ∧
    fr_sbuff_is_hex fn load w (sbuff :: parent) =
      ⟨decide (1 ≤ fr_sbuff_remaining sbuff) &&
        (decide (48 ≤ load w sbuff.p ∧ load w sbuff.p ≤ 57) ||
          decide (97 ≤ load w sbuff.p ∧ load w sbuff.p ≤ 102) ||
          decide (65 ≤ load w sbuff.p ∧ load w sbuff.p ≤ 70)), w, sbuff :: parent⟩ ∧
    fr_sbuff_is_char fn load w (sbuff :: parent) c =
      ⟨decide (1 ≤ fr_sbuff_remaining sbuff) && (load w sbuff.p == c), w, sbuff :: parent⟩ ∧
    fr_sbuff_is_in_charset fn load w (sbuff :: parent) chars =
      ⟨decide (1 ≤ fr_sbuff_remaining sbuff) && chars (load w sbuff.p % 256), w,
        sbuff :: parent⟩ ∧
    (fr_sbuff_remaining sbuff = 0 →
      (fr_sbuff_is_digit fn load w (sbuff :: parent)).val = false ∧
      (fr_sbuff_is_alpha fn load w (sbuff :: parent)).val = false ∧
      (fr_sbuff_is_upper fn load w (sbuff :: parent)).val = false ∧
      (fr_sbuff_is_lower fn load w (sbuff :: parent)).val = false ∧
      (fr_sbuff_is_space fn load w (sbuff :: parent)).val = false ∧
      (fr_sbuff_is_hex fn load w (sbuff :: parent)).val = false ∧
      (fr_sbuff_is_char fn load w (sbuff :: parent) c).val = false ∧
      (fr_sbuff_is_in_charset fn load w (sbuff :: parent) chars).val = false) := by
  have h := fun test => sbuff_char_condition_no_extend fn load w sbuff parent test hext
  refine ⟨h _, h _, h _, h _, h _, ?_, h _, h _, ?_⟩
  · rw [← hex_class_eq]
    exact h _
  · intro h0
    simp only [fr_sbuff_is_digit, fr_sbuff_is_alpha, fr_sbuff_is_upper, fr_sbuff_is_lower,
      fr_sbuff_is_space, fr_sbuff_is_hex, fr_sbuff_is_char, fr_sbuff_is_in_charset, h, h0]
    simp

/-- Witness of C19: the buffer over 10 to 20 at position 12 reads the byte `c` of
`storage_abcd`, which is a lower case letter, a hex digit and not a digit. -/
theorem fr_sbuff_is_conditions_without_extend_witness :
    sbuff_10_12_20.extend = none ∧
    (fr_sbuff_is_lower (fun _ => extend_upto_available) storage_abcd 0 [sbuff_10_12_20]).val
      = true ∧
    (fr_sbuff_is_hex (fun _ => extend_upto_available) storage_abcd 0 [sbuff_10_12_20]).val
      = true ∧
    (fr_sbuff_is_digit (fun _ => extend_upto_available) storage_abcd 0 [sbuff_10_12_20]).val
      = false := by
  have h := fr_sbuff_is_conditions_without_extend (fun _ => extend_upto_available) storage_abcd 0
    sbuff_10_12_20 [] (fun _ => false) 0 (by decide)
  refine ⟨by decide, ?_, ?_, ?_⟩
  · rw [h.2.2.2.1]; decide
  · rw [h.2.2.2.2.2.1]; decide
  · rw [h.1]; decide

/-- C20, the code at the failing input: one byte remains in `sbuff_10_10_11_ext`
and the needle `abcd` has 4 bytes.  The extension function is asked for the 3
missing bytes and obtains the one byte its source has left, so 2 bytes lie
between the position and `end` (now 12); `fr_sbuff_is_str` still compares 4 bytes
and returns true, the bytes at the addresses 12 and 13, at and beyond `end`,
being `c` and `d` in the storage; with another byte at address 13 it returns
false. -/
theorem fr_sbuff_is_str_reads_past_end :
    (fr_sbuff_is_str (fun _ => extend_upto_available) storage_abcd 1 [sbuff_10_10_11_ext]
      [97, 98, 99, 100] 4).val = true ∧
    (fr_sbuff_is_str (fun _ => extend_upto_available) storage_abcd 1 [sbuff_10_10_11_ext]
      [97, 98, 99, 100] 4).sbuff.map fr_sbuff_t.end_ = [12] ∧
    (fr_sbuff_is_str (fun _ => extend_upto_available) storage_abcd 1 [sbuff_10_10_11_ext]
      [97, 98, 99, 100] 4).sbuff.map fr_sbuff_remaining = [2] ∧
    (fr_sbuff_is_str (fun _ => extend_upto_available)
      (fun w a => if a = 13 then 120 else storage_abcd w a) 1 [sbuff_10_10_11_ext]
      [97, 98, 99, 100] 4).val = false := by
  decide

/-! ## Lemmas on single buffers without extension function -/

theorem fr_sbuff_next_no_extend {σ : Type} (fn : Nat → fr_sbuff_extend_t σ)
    (load : σ → Nat → Nat) (w : σ) (sbuff : fr_sbuff_t) (parent : fr_sbuff_ptr)
    (hext : sbuff.extend = none) :
    fr_sbuff_next fn load w (sbuff :: parent) =
      if 1 ≤ fr_sbuff_remaining sbuff then
        ⟨load w sbuff.p, w, { sbuff with p := sbuff.p + 1 } :: parent⟩
      else ⟨0, w, sbuff :: parent⟩ := by
  by_cases hr : fr_sbuff_remaining sbuff < 1
  · have h0 : ¬ 1 ≤ fr_sbuff_remaining sbuff := by omega
    simp [fr_sbuff_next, FR_SBUFF_CANT_EXTEND, FR_SBUFF_CANT_EXTEND_LOWAT, hr, hext, h0]
  · have h1 : 1 ≤ fr_sbuff_remaining sbuff := by omega
    simp [fr_sbuff_next, FR_SBUFF_CANT_EXTEND, FR_SBUFF_CANT_EXTEND_LOWAT, hr, h1]

theorem root_moved_set (s0 : fr_sbuff_t) (chain : fr_sbuff_ptr) (t : Nat)
    (h : root_moved_in_window s0 chain) : root_moved_in_window s0 (_fr_sbuff_set chain t).2 := by
  obtain ⟨q, rfl, h1, h2⟩ := h
  simp only [_fr_sbuff_set]
  split_ifs with a b c
  · exact ⟨q, rfl, h1, h2⟩
  · exact ⟨q, rfl, h1, h2⟩
  · exact ⟨q, rfl, h1, h2⟩
  · exact ⟨t, by simp [_fr_sbuff_set_recurse], by omega, by omega⟩

theorem root_moved_position_call (s0 : fr_sbuff_t) (c : position_call) (chain : fr_sbuff_ptr)
    (h : root_moved_in_window s0 chain) : root_moved_in_window s0 (c.run chain) := by
  cases c with
  | set t => exact root_moved_set s0 chain t h
  | set_size n =>
    obtain ⟨q, rfl, _⟩ := id h
    exact root_moved_set s0 _ _ h
  | advance n =>
    obtain ⟨q, rfl, _⟩ := id h
    exact root_moved_set s0 _ _ h
  | set_to_start =>
    obtain ⟨q, rfl, h1, h2⟩ := h
    exact ⟨s0.start, by simp [position_call.run, fr_sbuff_set_to_start, _fr_sbuff_set_recurse],
      le_refl _, by omega⟩
  | set_to_end =>
    obtain ⟨q, rfl, h1, h2⟩ := h
    exact ⟨s0.end_, by simp [position_call.run, fr_sbuff_set_to_end, _fr_sbuff_set_recurse],
      by omega, le_refl _⟩

theorem root_moved_next {σ : Type} (fn : Nat → fr_sbuff_extend_t σ) (load : σ → Nat → Nat)
    (w : σ) (s0 : fr_sbuff_t) (chain : fr_sbuff_ptr) (hext : s0.extend = none)
    (h : root_moved_in_window s0 chain) :
    root_moved_in_window s0 (fr_sbuff_next fn load w chain).sbuff := by
  obtain ⟨q, rfl, h1, h2⟩ := h
  rw [fr_sbuff_next_no_extend fn load w { s0 with p := q } [] hext]
  split_ifs with hr
  · refine ⟨q + 1, rfl, by omega, ?_⟩
    simp only [fr_sbuff_remaining, fr_sbuff_end, fr_sbuff_current] at hr
    split_ifs at hr <;> omega
  · exact ⟨q, rfl, h1, h2⟩

theorem root_moved_cursor_calls {σ : Type} (fn : Nat → fr_sbuff_extend_t σ)
    (load : σ → Nat → Nat) (s0 : fr_sbuff_t) (hext : s0.extend = none)
    (calls : List cursor_call) (st : σ × fr_sbuff_ptr) (h : root_moved_in_window s0 st.2) :
    root_moved_in_window s0 (run_cursor_calls fn load calls st).2 := by
  induction calls generalizing st with
  | nil => exact h
  | cons c cs ih =>
    simp only [run_cursor_calls, List.foldl_cons]
    apply ih
    obtain ⟨w, sbuff⟩ := st
    cases c with
    | position c => exact root_moved_position_call s0 c sbuff h
    | next => exact root_moved_next fn load w s0 sbuff hext h

/-- C21: on a buffer with no extension function, if at least one byte remains
`fr_sbuff_next` returns the byte at the current position and advances the
position by exactly one, every other field (`start`, `end`, the markers) and the
ancestors being unchanged; if no byte remains it returns 0 and leaves the buffer
unchanged.  The outside state is unchanged in both cases. -/
theorem fr_sbuff_next_without_extend {σ : Type} (fn : Nat → fr_sbuff_extend_t σ)
    (load : σ → Nat → Nat) (w : σ) (sbuff : fr_sbuff_t) (parent : fr_sbuff_ptr)
    (hext : sbuff.extend = none) :
    (1 ≤ fr_sbuff_remaining sbuff →
      fr_sbuff_next fn load w (sbuff :: parent) =
        ⟨load w sbuff.p, w, { sbuff with p := sbuff.p + 1 } :: parent⟩) ∧
    (fr_sbuff_remaining sbuff = 0 →
      fr_sbuff_next fn load w (sbuff :: parent) = ⟨0, w, sbuff :: parent⟩) := by
  rw [fr_sbuff_next_no_extend fn load w sbuff parent hext]
  constructor
  · intro h
    rw [if_pos h]
  · intro h
    rw [if_neg (by omega)]

/-- Witness of C21: the buffer over 10 to 20 at position 12 reads the byte `c`
(99) of `storage_abcd` and moves to 13. -/
theorem fr_sbuff_next_without_extend_witness :
    sbuff_10_12_20.extend = none ∧ 1 ≤ fr_sbuff_remaining sbuff_10_12_20 ∧
    (fr_sbuff_next (fun _ => extend_upto_available) storage_abcd 0 [sbuff_10_12_20]).val = 99 ∧
    (fr_sbuff_next (fun _ => extend_upto_available) storage_abcd 0 [sbuff_10_12_20]).sbuff =
      [{ sbuff_10_12_20 with p := 13 }] := by
  have h := (fr_sbuff_next_without_extend (fun _ => extend_upto_available) storage_abcd 0
    sbuff_10_12_20 [] (by decide)).1 (by decide)
  exact ⟨by decide, by decide, by rw [h]; decide, by rw [h]; rfl⟩

/-- C22, the code at the failing input: the child made by `FR_SBUFF_COPY` of the
buffer over 10 to 20 at position 12 has `adv_parent` set.  `fr_sbuff_next` on the
child returns the byte at 12 and leaves the child at 13 and the parent at 12,
whereas `fr_sbuff_advance(child, 1)` leaves both at 13. -/
theorem fr_sbuff_next_does_not_advance_parent :
    (FR_SBUFF_COPY [sbuff_10_12_20]).map fr_sbuff_t.adv_parent = [true, false] ∧
    (FR_SBUFF_COPY [sbuff_10_12_20]).map fr_sbuff_t.p = [12, 12] ∧
    (fr_sbuff_next (fun _ => extend_upto_available) storage_abcd 0
      (FR_SBUFF_COPY [sbuff_10_12_20])).val = 99 ∧
    (fr_sbuff_next (fun _ => extend_upto_available) storage_abcd 0
      (FR_SBUFF_COPY [sbuff_10_12_20])).sbuff.map fr_sbuff_t.p = [13, 12] ∧
    (fr_sbuff_advance (FR_SBUFF_COPY [sbuff_10_12_20]) 1).2.map fr_sbuff_t.p = [13, 13] := by
  decide

/-- C23: a buffer initialised by `fr_sbuff_init` or `FR_SBUFF_OUT` over a storage
of `len >= 1` bytes at `start` has `end = start + len - 1`; after any sequence of
`fr_sbuff_set`, `fr_sbuff_advance`, `fr_sbuff_set_to_start`,
`fr_sbuff_set_to_end` and `fr_sbuff_next` calls its position is at an offset of
at most `len - 1` from `start`, and `fr_sbuff_terminate` writes its terminator at
that position, inside the `len` bytes of storage. -/
theorem fr_sbuff_out_terminate_inside_storage {σ : Type} (fn : Nat → fr_sbuff_extend_t σ)
    (load : σ → Nat → Nat) (store : σ → Nat → Nat → σ) (w : σ) (start len : Nat)
    (is_const : Bool) (calls : List cursor_call) (init : fr_sbuff_ptr) (hlen : 1 ≤ len)
    (hinit : init = fr_sbuff_init start len ∨ init = FR_SBUFF_OUT start len is_const) :
    init.map fr_sbuff_t.end_ = [start + len - 1] ∧
    ∃ s, (run_cursor_calls fn load calls (w, init)).2 = [s] ∧
      s.buff = start ∧ s.end_ = start + len - 1 ∧
      start ≤ s.p ∧ s.p - start ≤ len - 1 ∧ s.p < start + len ∧
      fr_sbuff_terminate store (run_cursor_calls fn load calls (w, init)).1
        (run_cursor_calls fn load calls (w, init)).2 =
        store (run_cursor_calls fn load calls (w, init)).1 s.p 0 := by
  have hend : ¬ start + len - 1 < start := by omega
  have key : ∃ b, init = [(⟨start, start, start + len - 1, start, b, false, 0, none, none,
      none⟩ : fr_sbuff_t)] := by
    rcases hinit with h | h
    · exact ⟨true, by rw [h]; simp [fr_sbuff_init, _fr_sbuff_init, hend]⟩
    · exact ⟨is_const, by rw [h]; rfl⟩
  obtain ⟨b, rfl⟩ := key
  refine ⟨rfl, ?_⟩
  obtain ⟨q, hq, h1, h2⟩ := root_moved_cursor_calls fn load
    (⟨start, start, start + len - 1, start, b, false, 0, none, none, none⟩ : fr_sbuff_t)
    rfl calls (w, _) ⟨start, rfl, le_refl _, by simp only; omega⟩
  simp only at h1 h2
  rw [hq]
  exact ⟨_, rfl, rfl, rfl, h1, by simp only; omega, by simp only; omega, rfl⟩

/-- Witness of C23: `FR_SBUFF_OUT` over 4 bytes at address 10, advanced by 2,
one byte read, then set to the end. -/
theorem fr_sbuff_out_terminate_inside_storage_witness :
    1 ≤ 4 ∧
    ∃ s, (run_cursor_calls (fun _ => extend_upto_available) storage_abcd
        [.position (.advance 2), .next, .position .set_to_end]
        (0, FR_SBUFF_OUT 10 4 false)).2 = [s] ∧ s.p < 10 + 4 := by
  obtain ⟨_, s, h1, _, _, _, _, h6, _⟩ :=
    fr_sbuff_out_terminate_inside_storage (fun _ => extend_upto_available) storage_abcd
      (fun w _ _ => w) 0 10 4 false [.position (.advance 2), .next, .position .set_to_end]
      (FR_SBUFF_OUT 10 4 false) (by decide) (Or.inr rfl)
  exact ⟨by decide, s, h1, h6⟩

/-- C24, counterexample: `FR_SBUFF_IN` over a storage of 4 bytes at address 10
sets `end` to 14, 4 bytes past the start and not at most 3: the byte at `end` is
the one after the storage.  `fr_sbuff_init` over a storage of 0 bytes sets `end`
to the start, where no byte of the storage lies. -/
theorem fr_sbuff_in_end_is_past_storage :
    (FR_SBUFF_IN 10 4 false).map (fun s => s.end_ - s.start) = [4] ∧ ¬ (4 ≤ 4 - 1) ∧
    (FR_SBUFF_IN 10 4 false).map (fun s => decide (s.end_ < s.start + 4)) = [false] ∧
    (fr_sbuff_init 10 0).map (fun s => decide (s.end_ < s.start + 0)) = [false] := by
  decide

/-- C24, amended: for a storage of `len >= 1` bytes at `start`, `fr_sbuff_init`
and `FR_SBUFF_OUT` set `end` to `start + len - 1`, and `fr_sbuff_init_talloc`,
which allocates `init + 1` bytes at `buff`, sets `end` to `buff + init`: `end` is
`capacity - 1` bytes past the start and the byte at `end` lies inside the
storage.  `FR_SBUFF_IN` sets `end` to `start + len`, one past the last byte of the
storage: it reserves no byte. -/
theorem fr_sbuff_constructors_end (start len : Nat) (is_const : Bool)
    (talloc_zero_array : Nat → Nat → Option Nat) (extend_talloc ctx tctx init max buff : Nat)
    (hlen : 1 ≤ len) (halloc : talloc_zero_array ctx (init + 1) = some buff) :
    (fr_sbuff_init start len).map (fun s => (s.start, s.end_)) = [(start, start + len - 1)] ∧
    (FR_SBUFF_OUT start len is_const).map (fun s => (s.start, s.end_))
      = [(start, start + len - 1)] ∧
    (start + len - 1) - start = len - 1 ∧ start + len - 1 < start + len ∧
    ((fr_sbuff_init_talloc talloc_zero_array extend_talloc ctx tctx init max).2.map
      (fun chain => chain.map (fun s => (s.start, s.end_)))) = some [(buff, buff + init)] ∧
    (buff + init) - buff = (init + 1) - 1 ∧ buff + init < buff + (init + 1) ∧
    (FR_SBUFF_IN start len is_const).map (fun s => (s.start, s.end_)) = [(start, start + len)] := by
  have hend : ¬ start + len - 1 < start := by omega
  refine ⟨by simp [fr_sbuff_init, _fr_sbuff_init, hend], rfl, by omega, by omega, ?_, by omega,
    by omega, rfl⟩
  simp [fr_sbuff_init_talloc, halloc]

/-- Witness of C24, amended: a storage of 4 bytes at address 10 and an allocator
that returns address 100. -/
theorem fr_sbuff_constructors_end_witness :
    1 ≤ 4 ∧ (fun (_ : Nat) (_ : Nat) => some 100) 0 (8 + 1) = some 100 ∧
    (fr_sbuff_init 10 4).map (fun s => (s.start, s.end_)) = [(10, 10 + 4 - 1)] :=
  ⟨by decide, rfl,
    (fr_sbuff_constructors_end 10 4 false (fun _ _ => some 100) 1 0 50 8 64 100 (by decide)
      rfl).1⟩

/-- C25, counterexample: on the buffer with window 10 to 20 and position 12,
`_fr_sbuff_set` with the target 11 returns -1 although the target does not lie
past `end`, and the position is changed to 11. -/
theorem fr_sbuff_set_backward_returns_negative :
    (_fr_sbuff_set [sbuff_10_12_20] 11).1 = -1 ∧ (_fr_sbuff_set [sbuff_10_12_20] 11).1 < 0 ∧
    ¬ (11 > sbuff_10_12_20.end_) ∧
    (_fr_sbuff_set [sbuff_10_12_20] 11).2.map fr_sbuff_t.p = [11] ∧
    [11] ≠ [sbuff_10_12_20].map fr_sbuff_t.p := by
  decide

/-- C25, amended: for every buffer and target `t`, `_fr_sbuff_set` returns a
negative value exactly when `t` lies past `end` or `t` lies in the window before
the current position.  In the first case the value is `-(t - end)`, the number of
bytes required, and nothing changes; in the second the value is `t - p`, the
position is moved back to `t`.  It returns a positive value exactly when `t` lies
in the window after the current position, and that value is the number of bytes
advanced; it returns 0 otherwise, and then the position is not changed. -/
theorem fr_sbuff_set_return_sign (sbuff : fr_sbuff_t) (parent : fr_sbuff_ptr) (t : Nat) :
    ((_fr_sbuff_set (sbuff :: parent) t).1 < 0 ↔
      (t > sbuff.end_ ∨ (sbuff.start ≤ t ∧ t < sbuff.p))) ∧
    (t > sbuff.end_ →
      _fr_sbuff_set (sbuff :: parent) t = (-((t : Int) - (sbuff.end_ : Int)), sbuff :: parent)) ∧
    (t ≤ sbuff.end_ → sbuff.start ≤ t → t ≠ sbuff.p →
      (_fr_sbuff_set (sbuff :: parent) t).1 = (t : Int) - (sbuff.p : Int) ∧
      (_fr_sbuff_set (sbuff :: parent) t).2.head?.map fr_sbuff_t.p = some t) ∧
    (0 < (_fr_sbuff_set (sbuff :: parent) t).1 ↔
      (t ≤ sbuff.end_ ∧ sbuff.start ≤ t ∧ sbuff.p < t)) ∧
    ((_fr_sbuff_set (sbuff :: parent) t).1 = 0 →
      (_fr_sbuff_set (sbuff :: parent) t).2 = sbuff :: parent) := by
  simp only [_fr_sbuff_set]
  refine ⟨?_, ?_, ?_, ?_, ?_⟩
  · split_ifs <;> constructor <;> intro h <;> omega
  · intro h
    rw [if_pos h]
  · intro h1 h2 h3
    rw [if_neg (by omega), if_neg (by omega), if_neg h3]
    exact ⟨rfl, by simp [_fr_sbuff_set_recurse]⟩
  · split_ifs <;> constructor <;> intro h <;> omega
  · split_ifs with a b c
    · intro _; rfl
    · intro _; rfl
    · intro _; rfl
    · intro h
      simp only at h
      omega

/-- Witness of C25, amended: the backward move from 12 to 11. -/
theorem fr_sbuff_set_return_sign_witness :
    (11 ≤ sbuff_10_12_20.end_ ∧ sbuff_10_12_20.start ≤ 11 ∧ 11 ≠ sbuff_10_12_20.p) ∧
    (_fr_sbuff_set [sbuff_10_12_20] 11).1 = (11 : Int) - (sbuff_10_12_20.p : Int) :=
  ⟨by decide,
    ((fr_sbuff_set_return_sign sbuff_10_12_20 [] 11).2.2.1 (by decide) (by decide)
      (by decide)).1⟩


/-! ## Lemmas on the dictionary printer -/

theorem oid_text_cons (a : fr_dict_attr_t) (attrs : List fr_dict_attr_t) :
    oid_text (a :: attrs) = print_u a.attr ++ oid_tail_text attrs := by
  induction attrs generalizing a with
  | nil => simp [oid_text, oid_tail_text, List.intercalate, List.intersperse]
  | cons b attrs ih =>
    have h := ih b
    simp only [oid_text, List.intercalate, List.map_cons, List.intersperse, List.flatten_cons,
      oid_tail_text] at h ⊢
    rw [h]
    simp

theorem fr_dict_print_attr_oid_loop_fits (on_truncated : Nat → Nat → Nat → Nat × Nat)
    (da_stack : List fr_dict_attr_t) (outlen : Nat) (attrs : List fr_dict_attr_t) (i : Nat)
    (written : List Char) (hdrop : da_stack.drop i = attrs)
    (hfit : (written ++ oid_tail_text attrs).length < outlen) :
    fr_dict_print_attr_oid_loop on_truncated da_stack outlen attrs.length i written =
      some ⟨none, (written ++ oid_tail_text attrs).length,
        some (written ++ oid_tail_text attrs)⟩ := by
  induction attrs generalizing i written with
  | nil => simp [fr_dict_print_attr_oid_loop, oid_tail_text]
  | cons a attrs ih =>
    have hi : i < da_stack.length := by
      by_contra h
      rw [List.drop_eq_nil_of_le (by omega)] at hdrop
      cases hdrop
    have hget : da_stack[i]? = some a := by
      rw [List.getElem?_eq_getElem hi]
      have := List.drop_eq_getElem_cons hi
      rw [hdrop] at this
      simp only [List.cons.injEq] at this
      rw [this.1]
    have hdrop1 : da_stack.drop (i + 1) = attrs := by
      have := List.drop_eq_getElem_cons hi
      rw [hdrop] at this
      simp only [List.cons.injEq] at this
      exact this.2.symm
    have hlen : ¬ ((print_u a.attr).length + 1 ≥ outlen - written.length) := by
      simp only [oid_tail_text, List.length_append, List.length_cons] at hfit ⊢
      omega
    simp only [List.length_cons, fr_dict_print_attr_oid_loop, hget]
    rw [if_neg hlen, ih (i + 1) (written ++ '.' :: print_u a.attr) hdrop1
      (by simpa [oid_tail_text] using hfit)]
    simp [oid_tail_text]

theorem fr_dict_print_attr_oid_from_fits (on_truncated : Nat → Nat → Nat → Nat × Nat)
    (da_stack : List fr_dict_attr_t) (outlen : Nat) (da : fr_dict_attr_t) (j : Nat)
    (hstack : da_stack.length = da.depth) (hj : j < da.depth)
    (hfit : (oid_text (da_stack.drop j)).length < outlen) :
    fr_dict_print_attr_oid_from on_truncated da_stack outlen da j =
      some ⟨none, (oid_text (da_stack.drop j)).length, some (oid_text (da_stack.drop j))⟩ := by
  have hi : j < da_stack.length := by omega
  have hdrop := List.drop_eq_getElem_cons hi
  rw [hdrop, oid_text_cons] at hfit ⊢
  have hlen : ¬ ((print_u da_stack[j].attr).length ≥ outlen) := by
    simp only [List.length_append] at hfit
    omega
  have hcount : da.depth - (j + 1) = (da_stack.drop (j + 1)).length := by
    simp only [List.length_drop]
    omega
  simp only [fr_dict_print_attr_oid_from, List.getElem?_eq_getElem hi]
  rw [if_neg hlen, hcount]
  exact fr_dict_print_attr_oid_loop_fits on_truncated da_stack outlen _ (j + 1) _ rfl hfit

/-- C26: let `da` have depth `d >= 1` and let the stack built by
`fr_proto_da_stack_build` be `a0, ..., a(d-1) = da`; let the macros of `print.h`
let the function go on when the text fits, and let the output buffer be larger
than the text.  With `ancestor` `NULL`, `fr_dict_print_attr_oid` writes the
decimal attribute numbers of `a0, ..., a(d-1)` joined by `.`; with `ancestor`
`a(j-1)` of depth `j`, `1 <= j < d`, it writes those of `aj, ..., a(d-1)` joined by
`.`; with `ancestor = da` it writes the empty string; in each case it returns the
number of chars written. -/
theorem fr_dict_print_attr_oid_writes_path (no_space_init : Nat → Nat → Option (Nat × Nat))
    (on_truncated : Nat → Nat → Nat → Nat × Nat) (da_stack : List fr_dict_attr_t)
    (outlen : Nat) (da : fr_dict_attr_t) (hd : 1 ≤ da.depth)
    (hstack : da_stack.length = da.depth) (_hlast : da_stack[da.depth - 1]? = some da)
    (hinit : no_space_init 1 outlen = none) :
    ((oid_text da_stack).length < outlen →
      fr_dict_print_attr_oid no_space_init on_truncated da_stack outlen none da =
        some ⟨none, (oid_text da_stack).length, some (oid_text da_stack)⟩) ∧
    (∀ j anc, 1 ≤ j → j < da.depth → da_stack[j - 1]? = some anc → anc.depth = j →
      (oid_text (da_stack.drop j)).length < outlen →
      fr_dict_print_attr_oid no_space_init on_truncated da_stack outlen (some anc) da =
        some ⟨none, (oid_text (da_stack.drop j)).length, some (oid_text (da_stack.drop j))⟩) ∧
    fr_dict_print_attr_oid no_space_init on_truncated da_stack outlen (some da) da =
      some ⟨none, 0, some []⟩ := by
  refine ⟨?_, ?_, ?_⟩
  · intro hfit
    have h := fr_dict_print_attr_oid_from_fits on_truncated da_stack outlen da 0 hstack
      (by omega) (by simpa using hfit)
    simp only [List.drop_zero] at h
    simp only [fr_dict_print_attr_oid, hinit, reduceCtorEq, if_false, h]
  · intro j anc hj1 hj2 hanc hdepth hfit
    have hne : anc ≠ da := by
      intro e
      rw [e] at hdepth
      omega
    have hne2 : ¬ (some anc = some da) := by simpa using hne
    have hd0 : ¬ j = 0 := by omega
    simp only [fr_dict_print_attr_oid, hinit, hne2, if_false, hd0, hdepth, hanc, ne_eq,
      not_true_eq_false]
    exact fr_dict_print_attr_oid_from_fits on_truncated da_stack outlen da j hstack hj2 hfit
  · simp only [fr_dict_print_attr_oid, hinit, if_true]

/-- Witness of C26: the attribute 26.9.1 printed into 16 bytes from its ancestor
26 on. -/
theorem fr_dict_print_attr_oid_writes_path_witness :
    1 ≤ attr_26_9_1.depth ∧
    [attr_26, attr_26_9, attr_26_9_1].length = attr_26_9_1.depth ∧
    no_space_when_larger 1 16 = none ∧
    fr_dict_print_attr_oid no_space_when_larger truncated_returns_written
      [attr_26, attr_26_9, attr_26_9_1] 16 (some attr_26) attr_26_9_1 =
      some ⟨none, 3, some ['9', '.', '1']⟩ := by
  have h := (fr_dict_print_attr_oid_writes_path no_space_when_larger truncated_returns_written
    [attr_26, attr_26_9, attr_26_9_1] 16 attr_26_9_1 (by decide) (by decide) (by decide)
    (by decide)).2.1 1 attr_26 (by decide) (by decide) (by decide) (by decide) (by decide)
  exact ⟨by decide, by decide, by decide, by rw [h]; decide⟩

/-- C27, the code at the failing input: `attr_5` is not an ancestor of the
attribute 26.9.1 and `outlen` is 16; `fr_dict_print_attr_oid` writes nothing and
returns `-1` converted to `size_t`, a value larger than `outlen`. -/
theorem fr_dict_print_attr_oid_not_descendent :
    fr_dict_print_attr_oid no_space_when_larger truncated_returns_written
      [attr_26, attr_26_9, attr_26_9_1] 16 (some attr_5) attr_26_9_1 =
      some ⟨none, SIZE_MAX, none⟩ ∧
    SIZE_MAX = 18446744073709551615 ∧ ¬ (SIZE_MAX ≤ 16) := by
  decide

/-- C28: in the model of `fr_sbuff_out_int32` made from the specification, the
number of bytes consumed does not depend on `no_trailing`, so it is reported also
when the error is `TRAILING`; on the input `123abc`, without `no_trailing` the
decoder yields the value 123, the error `FR_SBUFF_PARSE_OK` and 3 bytes consumed
(the position is on the `a`), and with `no_trailing` it yields
`FR_SBUFF_PARSE_ERROR_TRAILING` and again 3 bytes consumed. -/
theorem fr_sbuff_out_int32_consumes_digits {σ : Type} (load : σ → Nat → Nat) (w : σ)
    (sbuff : fr_sbuff_ptr) :
    (fr_sbuff_out_int32 load w sbuff true).ret = (fr_sbuff_out_int32 load w sbuff false).ret ∧
    fr_sbuff_out_int32 storage_123abc () (FR_SBUFF_IN 10 6 true) false =
      ⟨.FR_SBUFF_PARSE_OK, some 123, 3,
        [{ buff := 10, start := 10, end_ := 16, p := 13, is_const := true,
           adv_parent := false, shifted := 0, extend := none, uctx := none, m := none }]⟩ ∧
    (fr_sbuff_out_int32 storage_123abc () (FR_SBUFF_IN 10 6 true) true).err =
      fr_sbuff_parse_error_t.FR_SBUFF_PARSE_ERROR_TRAILING ∧
    (fr_sbuff_out_int32 storage_123abc () (FR_SBUFF_IN 10 6 true) true).ret = 3 ∧
    (fr_sbuff_out_int32 storage_123abc () (FR_SBUFF_IN 10 6 true) true).sbuff.map fr_sbuff_t.p
      = [13] := by
  refine ⟨?_, by decide, by decide, by decide, by decide⟩
  cases sbuff with
  | nil => rfl
  | cons s parent =>
    simp only [fr_sbuff_out_int32]
    split_ifs <;> simp

/-! ## Lemmas on the modelled copy-out -/

theorem starts_with_append (t y : List Nat) : starts_with t (t ++ y) = true := by
  induction t with
  | nil => rfl
  | cons a t ih => simp [starts_with, ih]

theorem terminal_at_of_mem (tt : List (List Nat)) (t y : List Nat) (h : t ∈ tt) :
    terminal_at tt (t ++ y) = true := by
  simp only [terminal_at, List.any_eq_true]
  exact ⟨t, h, starts_with_append t y⟩

theorem bstrncpy_until_scan_nil (tt : List (List Nat)) (escape_chr len : Nat) :
    bstrncpy_until_scan tt escape_chr len [] = [] := by
  match len with
  | 0 => simp [bstrncpy_until_scan]
  | 1 => simp [bstrncpy_until_scan]
  | _ + 2 => simp [bstrncpy_until_scan]

theorem bstrncpy_until_scan_terminal (tt : List (List Nat)) (escape_chr len : Nat)
    (input : List Nat) (h : terminal_at tt input = true) :
    bstrncpy_until_scan tt escape_chr len input = [] := by
  match len, input with
  | 0, _ => simp [bstrncpy_until_scan]
  | _ + 1, [] => exact bstrncpy_until_scan_nil tt escape_chr _
  | 1, c :: rest => simp [bstrncpy_until_scan, h]
  | _ + 2, [c] => simp [bstrncpy_until_scan, h]
  | len + 2, c :: d :: rest => simp [bstrncpy_until_scan, h]

theorem bstrncpy_until_scan_copy (tt : List (List Nat)) (escape_chr len c : Nat)
    (rest : List Nat) (h : terminal_at tt (c :: rest) = false) (hc : c ≠ escape_chr) :
    bstrncpy_until_scan tt escape_chr (len + 1) (c :: rest) =
      c :: bstrncpy_until_scan tt escape_chr len rest := by
  match len, rest with
  | 0, rest => simp [bstrncpy_until_scan, h]
  | _ + 1, [] => simp [bstrncpy_until_scan, h]
  | len + 1, d :: rest => simp [bstrncpy_until_scan, h, hc]

theorem bstrncpy_until_scan_stops (tt : List (List Nat)) (escape_chr : Nat) (x rest : List Nat)
    (len : Nat) (hterm : ∀ i, i < x.length → terminal_at tt ((x ++ rest).drop i) = false)
    (hesc : escape_chr ∉ x) (hlen : x.length ≤ len)
    (hrest : terminal_at tt rest = true) :
    bstrncpy_until_scan tt escape_chr len (x ++ rest) = x := by
  induction x generalizing len with
  | nil => exact bstrncpy_until_scan_terminal tt escape_chr len rest hrest
  | cons c x ih =>
    obtain ⟨l, rfl⟩ : ∃ l, len = l + 1 := ⟨len - 1, by simp at hlen; omega⟩
    have h0 := hterm 0 (by simp)
    simp only [List.drop_zero, List.cons_append] at h0
    have hc : c ≠ escape_chr := fun e => hesc (by simp [e])
    rw [List.cons_append, bstrncpy_until_scan_copy tt escape_chr l c _ h0 hc,
      ih l (fun i hi => by simpa using hterm (i + 1) (by simpa using hi))
        (fun h => hesc (by simp [h])) (by simpa using hlen)]

/-- C29, counterexample (in the model made from the specification): the input is
`ab`, the terminal set is `ab`, `b`, the escape char is the backslash and `len`
is 2.  The input is `x ++ t ++ y` with `x = a`, `t = b` in the terminal set and
`y` empty; no terminal is contained in `x`, `x` has no escape char and
`|x| <= len`.  The first terminal of the input is `ab`, at its first byte, so
nothing is copied, 0 is returned and the input stays at the first byte of `x`. -/
theorem fr_sbuff_out_bstrncpy_until_terminal_across :
    sbuff_bytes storage_abcd () ⟨10, 10, 12, 10, true, false, 0, none, none, none⟩
      = [97] ++ [98] ++ [] ∧
    [98] ∈ [[97, 98], [98]] ∧
    (∀ t ∈ [[97, 98], [98]], ∀ before after, [97] ≠ before ++ t ++ after) ∧
    92 ∉ [97] ∧ [97].length ≤ 2 ∧
    fr_sbuff_out_bstrncpy_until storage_abcd () (FR_SBUFF_IN 10 2 true) 2 [[97, 98], [98]] 92
      = ⟨0, [], FR_SBUFF_IN 10 2 true⟩ ∧
    (FR_SBUFF_IN 10 2 true).map fr_sbuff_t.p = [10] := by
  refine ⟨by decide, by decide, ?_, by decide, by decide, by decide, by decide⟩
  intro t ht before after h
  have hlen := congrArg List.length h
  simp only [List.length_append, List.length_cons, List.length_nil] at hlen
  simp only [List.mem_cons, List.mem_singleton, List.not_mem_nil, or_false] at ht
  rcases ht with rfl | rfl <;>
    simp only [List.length_cons, List.length_nil] at hlen
  · omega
  · have hb : before = [] := List.length_eq_zero.1 (by omega)
    subst hb
    simp at h

/-- C29, amended (in the model made from the specification): let the bytes
available in the input be `x ++ t ++ y` with `t` a member of the terminal set, no
terminal occurring at a position inside `x` (also none that begins in `x` and ends
after it), no escape char in `x` and `|x| <= len`, the input satisfying
`start <= p <= end`.  Then `fr_sbuff_out_bstrncpy_until` copies exactly `x`,
returns `|x|` and leaves the input at the first byte of `t`. -/
theorem fr_sbuff_out_bstrncpy_until_stops_at_terminal {σ : Type} (load : σ → Nat → Nat) (w : σ)
    (sbuff : fr_sbuff_t) (parent : fr_sbuff_ptr) (len : Nat) (tt : List (List Nat))
    (escape_chr : Nat) (x t y : List Nat)
    (hp : sbuff.start ≤ sbuff.p ∧ sbuff.p ≤ sbuff.end_)
    (hbytes : sbuff_bytes load w sbuff = x ++ t ++ y) (ht : t ∈ tt)
    (hterm : ∀ i, i < x.length → terminal_at tt ((x ++ t ++ y).drop i) = false)
    (hesc : escape_chr ∉ x) (hlen : x.length ≤ len) :
    (fr_sbuff_out_bstrncpy_until load w (sbuff :: parent) len tt escape_chr).copied = x ∧
    (fr_sbuff_out_bstrncpy_until load w (sbuff :: parent) len tt escape_chr).ret = x.length ∧
    (fr_sbuff_out_bstrncpy_until load w (sbuff :: parent) len tt escape_chr).input.head?.map
      fr_sbuff_t.p = some (sbuff.p + x.length) := by
  have hscan : bstrncpy_until_scan tt escape_chr len (sbuff_bytes load w sbuff) = x := by
    rw [hbytes, List.append_assoc]
    exact bstrncpy_until_scan_stops tt escape_chr x (t ++ y) len
      (by simpa [List.append_assoc] using hterm) hesc hlen (terminal_at_of_mem tt t y ht)
  have hrem : x.length ≤ fr_sbuff_remaining sbuff := by
    have := congrArg List.length hbytes
    simp only [sbuff_bytes, List.length_map, List.length_range, List.length_append] at this
    omega
  rw [fr_sbuff_remaining_eq sbuff hp.2] at hrem
  simp only [fr_sbuff_out_bstrncpy_until, hscan, true_and]
  by_cases h0 : x.length = 0
  · rw [h0]
    simp only [fr_sbuff_set, _fr_sbuff_set, Nat.add_zero]
    split_ifs <;> rfl
  · rw [fr_sbuff_set_moved sbuff parent x.length (by omega) (by omega) (by omega)]
    simp [_fr_sbuff_set_recurse]

/-- Witness of C29, amended: the input `abc,def`, the terminal set made of the
comma, `len = 7`: `abc` is copied and the input is left on the comma. -/
theorem fr_sbuff_out_bstrncpy_until_stops_at_terminal_witness :
    sbuff_bytes storage_abc_def () ⟨10, 10, 17, 10, true, false, 0, none, none, none⟩
      = [97, 98, 99] ++ [44] ++ [100, 101, 102] ∧
    [44] ∈ [[44]] ∧ 92 ∉ [97, 98, 99] ∧ [97, 98, 99].length ≤ 7 ∧
    (fr_sbuff_out_bstrncpy_until storage_abc_def () (FR_SBUFF_IN 10 7 true) 7 [[44]] 92).copied
      = [97, 98, 99] ∧
    (fr_sbuff_out_bstrncpy_until storage_abc_def () (FR_SBUFF_IN 10 7 true) 7 [[44]] 92).ret
      = [97, 98, 99].length ∧
    (fr_sbuff_out_bstrncpy_until storage_abc_def () (FR_SBUFF_IN 10 7 true) 7
      [[44]] 92).input.head?.map fr_sbuff_t.p = some (10 + [97, 98, 99].length) := by
  have h := fr_sbuff_out_bstrncpy_until_stops_at_terminal storage_abc_def ()
    ⟨10, 10, 17, 10, true, false, 0, none, none, none⟩ [] 7 [[44]] 92 [97, 98, 99] [44]
    [100, 101, 102] (by decide) (by decide) (by decide) (by decide) (by decide) (by decide)
  exact ⟨by decide, by decide, by decide, by decide, h.1, h.2.1, h.2.2⟩

/-! ## Lemmas on storage that shifts or moves -/

theorem markers_from_of_is_marker_list (mem : marker_mem) (l : List Nat) :
    ∀ (fuel : Nat) (head : Option Nat), is_marker_list mem head l = true → l.length ≤ fuel →
      markers_from mem fuel head = l := by
  induction l with
  | nil =>
    intro fuel head h _
    have hh : head = none := by simpa [is_marker_list] using h
    subst hh
    cases fuel <;> rfl
  | cons a l ih =>
    intro fuel head h hf
    simp only [is_marker_list, Bool.and_eq_true, beq_iff_eq] at h
    obtain ⟨hh, hl⟩ := h
    subst hh
    cases fuel with
    | zero => simp at hf
    | succ fuel =>
      simp only [markers_from]
      rw [ih fuel _ hl (by simpa using hf)]

theorem is_marker_list_rewrite (f : Nat → Nat) (mem : marker_mem) (l1 l : List Nat) :
    ∀ head : Option Nat,
      is_marker_list (rewrite_markers f mem l1) head l = is_marker_list mem head l := by
  induction l with
  | nil => intro head; rfl
  | cons a l ih =>
    intro head
    have hn : (rewrite_markers f mem l1 a).next = (mem a).next := by
      simp only [rewrite_markers]
      split_ifs <;> rfl
    simp only [is_marker_list, hn, ih]

theorem foldl_min_le (g : Nat → Nat) (l : List Nat) :
    ∀ k0 : Nat, l.foldl (fun k a => min k (g a)) k0 ≤ k0 ∧
      ∀ a ∈ l, l.foldl (fun k a => min k (g a)) k0 ≤ g a := by
  induction l with
  | nil => intro k0; simp
  | cons b l ih =>
    intro k0
    simp only [List.foldl_cons, List.mem_cons]
    refine ⟨le_trans (ih _).1 (Nat.min_le_left _ _), ?_⟩
    rintro a (rfl | ha)
    · exact le_trans (ih _).1 (Nat.min_le_right _ _)
    · exact (ih _).2 a ha

/-- C30 (in the model made from the specification): let `l` be the list of
markers of a buffer with `buff <= start <= p <= end`, each marker of `l` owned by
the buffer and positioned in `start .. end`, and let the walk of the list have
fuel for `|l|` steps.  After `fr_sbuff_shift` the counter `shifted` has grown by
the number of bytes discarded, which is the value returned and at most `shift`;
after `fr_sbuff_update` to storage of `new_len >= end - buff` bytes it is
unchanged.  After either call the list of markers is still `l` and, for every
marker of `l`, the logical offset `fr_sbuff_used_total`, the position relative to
the start plus `shifted`, is the same as before, and `start <= position <= end`
holds in the buffer afterwards; after `fr_sbuff_shift` the position plus `shifted`
is the same as before as well. -/
theorem fr_sbuff_shift_update_keep_marker_offsets (fuel : Nat) (mem : marker_mem)
    (sbuff : fr_sbuff_t) (parent : fr_sbuff_ptr) (l : List Nat) (shift new_buff new_len : Nat)
    (hl : is_marker_list mem sbuff.m l = true) (hfuel : l.length ≤ fuel)
    (hwin : sbuff.buff ≤ sbuff.start ∧ sbuff.start ≤ sbuff.p ∧ sbuff.p ≤ sbuff.end_)
    (hown : ∀ a ∈ l, (mem a).parent = some (fr_sbuff_addr (sbuff :: parent)) ∧
      sbuff.start ≤ (mem a).p ∧ (mem a).p ≤ sbuff.end_)
    (hgrow : sbuff.end_ - sbuff.buff ≤ new_len) :
    (∃ s1, (fr_sbuff_shift fuel mem (sbuff :: parent) shift).sbuff = s1 :: parent ∧
      s1.shifted = sbuff.shifted + (fr_sbuff_shift fuel mem (sbuff :: parent) shift).val ∧
      (fr_sbuff_shift fuel mem (sbuff :: parent) shift).val ≤ shift ∧
      is_marker_list (fr_sbuff_shift fuel mem (sbuff :: parent) shift).markers s1.m l = true ∧
      ∀ a ∈ l,
        ((fr_sbuff_shift fuel mem (sbuff :: parent) shift).markers a).p + s1.shifted
          = (mem a).p + sbuff.shifted ∧
        (∃ off, fr_sbuff_used_total_marker mem (sbuff :: parent) a = some off ∧
          fr_sbuff_used_total_marker (fr_sbuff_shift fuel mem (sbuff :: parent) shift).markers
            (fr_sbuff_shift fuel mem (sbuff :: parent) shift).sbuff a = some off) ∧
        s1.start ≤ ((fr_sbuff_shift fuel mem (sbuff :: parent) shift).markers a).p ∧
        ((fr_sbuff_shift fuel mem (sbuff :: parent) shift).markers a).p ≤ s1.end_) ∧
    (∃ s2, (fr_sbuff_update fuel mem (sbuff :: parent) new_buff new_len).sbuff = s2 :: parent ∧
      s2.shifted = sbuff.shifted ∧
      is_marker_list (fr_sbuff_update fuel mem (sbuff :: parent) new_buff new_len).markers
        s2.m l = true ∧
      ∀ a ∈ l,
        (∃ off, fr_sbuff_used_total_marker mem (sbuff :: parent) a = some off ∧
          fr_sbuff_used_total_marker
            (fr_sbuff_update fuel mem (sbuff :: parent) new_buff new_len).markers
            (fr_sbuff_update fuel mem (sbuff :: parent) new_buff new_len).sbuff a = some off) ∧
        s2.start ≤ ((fr_sbuff_update fuel mem (sbuff :: parent) new_buff new_len).markers a).p ∧
        ((fr_sbuff_update fuel mem (sbuff :: parent) new_buff new_len).markers a).p
          ≤ s2.end_) := by
  have hwalk := markers_from_of_is_marker_list mem l fuel sbuff.m hl hfuel
  have haddr : fr_sbuff_addr (sbuff :: parent) = parent.length := by
    simp [fr_sbuff_addr]
  constructor
  · obtain ⟨hk0, hk⟩ := foldl_min_le (fun a => (mem a).p - sbuff.start) l
      (min shift (sbuff.p - sbuff.start))
    refine ⟨_, rfl, rfl, ?_, ?_, ?_⟩
    · simp only [fr_sbuff_shift, hwalk]
      exact le_trans hk0 (Nat.min_le_left _ _)
    · simp only [fr_sbuff_shift, hwalk]
      rw [is_marker_list_rewrite]
      exact hl
    · intro a ha
      obtain ⟨hpar, h1, h2⟩ := hown a ha
      have hka := hk a ha
      simp only [fr_sbuff_shift, hwalk, rewrite_markers, if_pos ha,
        fr_sbuff_used_total_marker, hpar, haddr, fr_sbuff_deref, if_true]
      refine ⟨by omega, ⟨_, rfl, ?_⟩, by omega, by omega⟩
      congr 1
      omega
  · refine ⟨_, rfl, rfl, ?_, ?_⟩
    · simp only [fr_sbuff_update, hwalk]
      rw [is_marker_list_rewrite]
      exact hl
    · intro a ha
      obtain ⟨hpar, h1, h2⟩ := hown a ha
      simp only [fr_sbuff_update, hwalk, rewrite_markers, if_pos ha,
        fr_sbuff_used_total_marker, hpar, haddr, fr_sbuff_deref, if_true]
      refine ⟨⟨_, rfl, ?_⟩, by omega, by omega⟩
      congr 1
      omega

/-- Witness of C30: the buffer over 10 to 20 at position 15 with a marker at 14
and a marker at 12, shifted by at most 5 bytes, and moved to storage of 16 bytes at
address 40. -/
theorem fr_sbuff_shift_update_keep_marker_offsets_witness :
    two_markers_behind_buffer.2 = [{ sbuff_10_12_20 with p := 15, m := some 200 }] ∧
    is_marker_list two_markers_behind_buffer.1 (some 200) [200, 100] = true ∧
    [200, 100].length ≤ 2 ∧
    (∃ s1, (fr_sbuff_shift 2 two_markers_behind_buffer.1
          [{ sbuff_10_12_20 with p := 15, m := some 200 }] 5).sbuff = s1 :: [] ∧
      s1.shifted = 0 + (fr_sbuff_shift 2 two_markers_behind_buffer.1
          [{ sbuff_10_12_20 with p := 15, m := some 200 }] 5).val ∧
      (fr_sbuff_shift 2 two_markers_behind_buffer.1
          [{ sbuff_10_12_20 with p := 15, m := some 200 }] 5).val ≤ 5 ∧
      is_marker_list (fr_sbuff_shift 2 two_markers_behind_buffer.1
          [{ sbuff_10_12_20 with p := 15, m := some 200 }] 5).markers s1.m [200, 100] = true ∧
      ∀ a ∈ [200, 100],
        ((fr_sbuff_shift 2 two_markers_behind_buffer.1
          [{ sbuff_10_12_20 with p := 15, m := some 200 }] 5).markers a).p + s1.shifted = (two_markers_behind_buffer.1 a).p + 0 ∧
        (∃ off, fr_sbuff_used_total_marker two_markers_behind_buffer.1
            [{ sbuff_10_12_20 with p := 15, m := some 200 }] a = some off ∧
          fr_sbuff_used_total_marker (fr_sbuff_shift 2 two_markers_behind_buffer.1
          [{ sbuff_10_12_20 with p := 15, m := some 200 }] 5).markers
            (fr_sbuff_shift 2 two_markers_behind_buffer.1
          [{ sbuff_10_12_20 with p := 15, m := some 200 }] 5).sbuff a = some off) ∧
        s1.start ≤ ((fr_sbuff_shift 2 two_markers_behind_buffer.1
          [{ sbuff_10_12_20 with p := 15, m := some 200 }] 5).markers a).p ∧
        ((fr_sbuff_shift 2 two_markers_behind_buffer.1
          [{ sbuff_10_12_20 with p := 15, m := some 200 }] 5).markers a).p ≤ s1.end_) ∧
    (∃ s2, (fr_sbuff_update 2 two_markers_behind_buffer.1
          [{ sbuff_10_12_20 with p := 15, m := some 200 }] 40 16).sbuff = s2 :: [] ∧
      s2.shifted = 0 ∧
      is_marker_list (fr_sbuff_update 2 two_markers_behind_buffer.1
          [{ sbuff_10_12_20 with p := 15, m := some 200 }] 40 16).markers s2.m [200, 100] = true ∧
      ∀ a ∈ [200, 100],
        (∃ off, fr_sbuff_used_total_marker two_markers_behind_buffer.1
            [{ sbuff_10_12_20 with p := 15, m := some 200 }] a = some off ∧
          fr_sbuff_used_total_marker (fr_sbuff_update 2 two_markers_behind_buffer.1
          [{ sbuff_10_12_20 with p := 15, m := some 200 }] 40 16).markers
            (fr_sbuff_update 2 two_markers_behind_buffer.1
          [{ sbuff_10_12_20 with p := 15, m := some 200 }] 40 16).sbuff a = some off) ∧
        s2.start ≤ ((fr_sbuff_update 2 two_markers_behind_buffer.1
          [{ sbuff_10_12_20 with p := 15, m := some 200 }] 40 16).markers a).p ∧
        ((fr_sbuff_update 2 two_markers_behind_buffer.1
          [{ sbuff_10_12_20 with p := 15, m := some 200 }] 40 16).markers a).p ≤ s2.end_) ∧
    (fr_sbuff_shift 2 two_markers_behind_buffer.1
          [{ sbuff_10_12_20 with p := 15, m := some 200 }] 5).val = 2 ∧
    ((fr_sbuff_shift 2 two_markers_behind_buffer.1
          [{ sbuff_10_12_20 with p := 15, m := some 200 }] 5).markers 200).p = 12 ∧
    ((fr_sbuff_update 2 two_markers_behind_buffer.1
          [{ sbuff_10_12_20 with p := 15, m := some 200 }] 40 16).markers 200).p = 44 :=
  have h := fr_sbuff_shift_update_keep_marker_offsets 2 two_markers_behind_buffer.1
    { sbuff_10_12_20 with p := 15, m := some 200 } [] [200, 100] 5 40 16
    (by decide) (by decide) (by decide) (by decide) (by decide)
  ⟨by decide, by decide, by decide, h.1, h.2, by decide, by decide, by decide⟩

/-! ## Lemmas on the window of a buffer and of its copy -/

theorem head_moved_position_call (c : position_call) (sbuff : fr_sbuff_t) (parent : fr_sbuff_ptr)
    (h1 : sbuff.start ≤ sbuff.p) (h2 : sbuff.p ≤ sbuff.end_) :
    ∃ q parent1, c.run (sbuff :: parent) = { sbuff with p := q } :: parent1 ∧
      sbuff.start ≤ q ∧ q ≤ sbuff.end_ := by
  have hset : ∀ t, ∃ q parent1, (_fr_sbuff_set (sbuff :: parent) t).2 =
      { sbuff with p := q } :: parent1 ∧ sbuff.start ≤ q ∧ q ≤ sbuff.end_ := by
    intro t
    simp only [_fr_sbuff_set]
    split_ifs with a b c
    · exact ⟨sbuff.p, parent, rfl, h1, h2⟩
    · exact ⟨sbuff.p, parent, rfl, h1, h2⟩
    · exact ⟨sbuff.p, parent, rfl, h1, h2⟩
    · exact ⟨t, _, by simp only [_fr_sbuff_set_recurse]; rfl, by omega, by omega⟩
  cases c with
  | set t => exact hset t
  | set_size n => exact hset _
  | advance n => exact hset _
  | set_to_start =>
    exact ⟨sbuff.start, _,
      by simp only [position_call.run, fr_sbuff_set_to_start, _fr_sbuff_set_recurse]; rfl,
      le_refl _, by omega⟩
  | set_to_end =>
    exact ⟨sbuff.end_, _,
      by simp only [position_call.run, fr_sbuff_set_to_end, _fr_sbuff_set_recurse]; rfl,
      by omega, le_refl _⟩

theorem head_moved_position_calls (calls : List position_call) (sbuff : fr_sbuff_t) :
    ∀ (q : Nat) (parent : fr_sbuff_ptr), sbuff.start ≤ q → q ≤ sbuff.end_ →
      ∃ q1 parent1, run_position_calls calls ({ sbuff with p := q } :: parent) =
        { sbuff with p := q1 } :: parent1 ∧ sbuff.start ≤ q1 ∧ q1 ≤ sbuff.end_ := by
  induction calls with
  | nil => intro q parent h1 h2; exact ⟨q, parent, rfl, h1, h2⟩
  | cons c cs ih =>
    intro q parent h1 h2
    obtain ⟨q1, parent1, e, a, b⟩ := head_moved_position_call c { sbuff with p := q } parent h1 h2
    obtain ⟨q2, parent2, e2, a2, b2⟩ := ih q1 parent1 a b
    refine ⟨q2, parent2, ?_, a2, b2⟩
    simp only [run_position_calls, List.foldl_cons] at e2 ⊢
    rw [e]
    exact e2

theorem used_plus_remaining_eq (sbuff : fr_sbuff_t) (h1 : sbuff.start ≤ sbuff.p)
    (h2 : sbuff.p ≤ sbuff.end_) :
    fr_sbuff_used sbuff + fr_sbuff_remaining sbuff = sbuff.end_ - sbuff.start := by
  simp only [fr_sbuff_used, fr_sbuff_remaining, fr_sbuff_start, fr_sbuff_current, fr_sbuff_end]
  split_ifs <;> omega

/-- C31: a buffer with `start <= p <= end` has
`fr_sbuff_used + fr_sbuff_remaining = end - start`; after any sequence of
`fr_sbuff_set`, `fr_sbuff_advance`, `fr_sbuff_set_to_start` and
`fr_sbuff_set_to_end` calls the buffer has the same `start` and `end` and the sum
is the same.  On any buffer `fr_sbuff_remaining` is 0 when `end < p` and
`fr_sbuff_used` is 0 when `start > p`. -/
theorem fr_sbuff_used_plus_remaining (sbuff : fr_sbuff_t) (parent : fr_sbuff_ptr)
    (calls : List position_call) (h : sbuff.start ≤ sbuff.p ∧ sbuff.p ≤ sbuff.end_) :
    fr_sbuff_used sbuff + fr_sbuff_remaining sbuff = sbuff.end_ - sbuff.start ∧
    (∃ s1 parent1, run_position_calls calls (sbuff :: parent) = s1 :: parent1 ∧
      s1.start = sbuff.start ∧ s1.end_ = sbuff.end_ ∧
      fr_sbuff_used s1 + fr_sbuff_remaining s1
        = fr_sbuff_used sbuff + fr_sbuff_remaining sbuff) ∧
    (∀ b : fr_sbuff_t, (b.end_ < b.p → fr_sbuff_remaining b = 0) ∧
      (b.start > b.p → fr_sbuff_used b = 0)) := by
  refine ⟨used_plus_remaining_eq sbuff h.1 h.2, ?_, ?_⟩
  · obtain ⟨q1, parent1, e, a, b⟩ := head_moved_position_calls calls sbuff sbuff.p parent h.1 h.2
    refine ⟨_, parent1, e, rfl, rfl, ?_⟩
    rw [used_plus_remaining_eq sbuff h.1 h.2]
    exact used_plus_remaining_eq { sbuff with p := q1 } a b
  · intro b
    simp only [fr_sbuff_used, fr_sbuff_remaining, fr_sbuff_start, fr_sbuff_current,
      fr_sbuff_end]
    constructor <;> intro hb <;> simp [hb]

/-- Witness of C31: the buffer over 10 to 20 at position 12, advanced by 3 bytes,
set to its end and then to 11: 10 bytes in all before and afterwards. -/
theorem fr_sbuff_used_plus_remaining_witness :
    (sbuff_10_12_20.start ≤ sbuff_10_12_20.p ∧ sbuff_10_12_20.p ≤ sbuff_10_12_20.end_) ∧
    fr_sbuff_used sbuff_10_12_20 + fr_sbuff_remaining sbuff_10_12_20 = 20 - 10 ∧
    ∃ s1 parent1,
      run_position_calls [.advance 3, .set_to_end, .set 11] [sbuff_10_12_20] = s1 :: parent1 ∧
      fr_sbuff_used s1 + fr_sbuff_remaining s1
        = fr_sbuff_used sbuff_10_12_20 + fr_sbuff_remaining sbuff_10_12_20 := by
  have h := fr_sbuff_used_plus_remaining sbuff_10_12_20 []
    [.advance 3, .set_to_end, .set 11] (by decide)
  obtain ⟨h1, ⟨s1, parent1, e, _, _, hs⟩, _⟩ := h
  exact ⟨by decide, h1, s1, parent1, e, hs⟩

theorem copy_synced_position_call (c : position_call) (C P : fr_sbuff_t) (grand : fr_sbuff_ptr)
    (q : Nat) (hadv : C.adv_parent = true) (h1 : C.start ≤ q) (h2 : q ≤ C.end_) :
    ∃ q1 grand1, c.run ({ C with p := q } :: { P with p := q } :: grand) =
        { C with p := q1 } :: { P with p := q1 } :: grand1 ∧ C.start ≤ q1 ∧ q1 ≤ C.end_ := by
  have hrec : ∀ t, _fr_sbuff_set_recurse ({ C with p := q } :: { P with p := q } :: grand) t =
      { C with p := t } :: { P with p := t } ::
        (if P.adv_parent = true ∧ grand ≠ [] then _fr_sbuff_set_recurse grand t else grand) := by
    intro t
    simp [_fr_sbuff_set_recurse, hadv]
  have hset : ∀ t, ∃ q1 grand1,
      (_fr_sbuff_set ({ C with p := q } :: { P with p := q } :: grand) t).2 =
        { C with p := q1 } :: { P with p := q1 } :: grand1 ∧ C.start ≤ q1 ∧ q1 ≤ C.end_ := by
    intro t
    simp only [_fr_sbuff_set]
    split_ifs with a b c
    · exact ⟨q, grand, rfl, h1, h2⟩
    · exact ⟨q, grand, rfl, h1, h2⟩
    · exact ⟨q, grand, rfl, h1, h2⟩
    · exact ⟨t, _, hrec t, by omega, by omega⟩
  cases c with
  | set t => exact hset t
  | set_size n => exact hset _
  | advance n => exact hset _
  | set_to_start => exact ⟨C.start, _, hrec _, le_refl _, by omega⟩
  | set_to_end => exact ⟨C.end_, _, hrec _, by omega, le_refl _⟩

theorem copy_synced_position_calls (calls : List position_call) (C P : fr_sbuff_t)
    (hadv : C.adv_parent = true) :
    ∀ (q : Nat) (grand : fr_sbuff_ptr), C.start ≤ q → q ≤ C.end_ →
      ∃ q1 grand1, run_position_calls calls ({ C with p := q } :: { P with p := q } :: grand) =
        { C with p := q1 } :: { P with p := q1 } :: grand1 ∧ C.start ≤ q1 ∧ q1 ≤ C.end_ := by
  induction calls with
  | nil => intro q grand h1 h2; exact ⟨q, grand, rfl, h1, h2⟩
  | cons c cs ih =>
    intro q grand h1 h2
    obtain ⟨q1, grand1, e, a, b⟩ := copy_synced_position_call c C P grand q hadv h1 h2
    obtain ⟨q2, grand2, e2, a2, b2⟩ := ih q1 grand1 a b
    refine ⟨q2, grand2, ?_, a2, b2⟩
    simp only [run_position_calls, List.foldl_cons] at e2 ⊢
    rw [e]
    exact e2

/-- C32: let `P` be a buffer with `start <= p <= end` and `C` the child made by
`FR_SBUFF_COPY(P)`.  After any sequence of `fr_sbuff_set`, `fr_sbuff_advance`,
`fr_sbuff_set_to_start` and `fr_sbuff_set_to_end` calls on `C` (whether or not a
call moves `C`), the parent is `P` with its position replaced by the position of
the child, that position lies in `P.start .. P.end`, and it is not below the
position `P` had when `C` was made. -/
theorem fr_sbuff_copy_child_keeps_parent_forward (P : fr_sbuff_t) (grand : fr_sbuff_ptr)
    (calls : List position_call) (h : P.start ≤ P.p ∧ P.p ≤ P.end_) :
    ∃ c1 p1 grand1,
      run_position_calls calls (FR_SBUFF_COPY (P :: grand)) = c1 :: p1 :: grand1 ∧
      p1 = { P with p := c1.p } ∧ p1.p = c1.p ∧
      P.start ≤ p1.p ∧ p1.p ≤ P.end_ ∧ P.p ≤ p1.p := by
  obtain ⟨q1, grand1, e, a, b⟩ := copy_synced_position_calls calls
    { buff := P.buff, start := P.p, end_ := P.end_, p := P.p, is_const := P.is_const,
      adv_parent := true, shifted := 0, extend := P.extend, uctx := P.uctx, m := none }
    P rfl P.p grand (le_refl _) h.2
  refine ⟨_, _, grand1, e, rfl, rfl, ?_, b, a⟩
  simp only at a ⊢
  omega

/-- Witness of C32: the buffer over 10 to 20 at position 12 and its copy, which
is advanced by 5 bytes, set to its start and advanced by 1 byte: the parent ends
at 13 with the child. -/
theorem fr_sbuff_copy_child_keeps_parent_forward_witness :
    (sbuff_10_12_20.start ≤ sbuff_10_12_20.p ∧ sbuff_10_12_20.p ≤ sbuff_10_12_20.end_) ∧
    (run_position_calls [.advance 5, .set_to_start, .advance 1]
      (FR_SBUFF_COPY [sbuff_10_12_20])).map fr_sbuff_t.p = [13, 13] ∧
    ∃ c1 p1 grand1,
      run_position_calls [.advance 5, .set_to_start, .advance 1]
        (FR_SBUFF_COPY [sbuff_10_12_20]) = c1 :: p1 :: grand1 ∧
      p1.p = c1.p ∧ sbuff_10_12_20.p ≤ p1.p := by
  obtain ⟨c1, p1, grand1, e, _, h2, _, _, h5⟩ :=
    fr_sbuff_copy_child_keeps_parent_forward sbuff_10_12_20 []
      [.advance 5, .set_to_start, .advance 1] (by decide)
  exact ⟨by decide, by decide, c1, p1, grand1, e, h2, h5⟩

/-- C33, the code at the failing input: mutable storage of 4 bytes at address 10,
the length given as a `size_t`.  `fr_sbuff_init` passes `true` for `is_const`,
`FR_SBUFF_OUT` sets `is_const` to false for a `char *` start: the two buffers are
not identical.  Every other field is the same in both (`buff = start = p = 10`,
`end = 13`, `shifted = 0`, no extension function, no markers, no parent);
`fr_sbuff_init` gives the state `FR_SBUFF_OUT` gives for a `char const *` start. -/
theorem fr_sbuff_init_marks_storage_const :
    (fr_sbuff_init 10 4).map fr_sbuff_t.is_const = [true] ∧
    (FR_SBUFF_OUT 10 4 false).map fr_sbuff_t.is_const = [false] ∧
    fr_sbuff_init 10 4 ≠ FR_SBUFF_OUT 10 4 false ∧
    fr_sbuff_init 10 4 = FR_SBUFF_OUT 10 4 true ∧
    (fr_sbuff_init 10 4).map (fun s => { s with is_const := false }) = FR_SBUFF_OUT 10 4 false ∧
    FR_SBUFF_OUT 10 4 false = [⟨10, 10, 13, 10, false, false, 0, none, none, none⟩] := by
  decide

/-- C34, the code at the failing input: the flags of a root attribute (`is_root`
set, nothing else), a dictionary, a type that is not a date, and the 256 bytes
`fr_dict_print` passes.  `fr_dict_snprint_flags` takes the length 8 of `is_root,`,
trims the comma and returns 8, while the string left in `out` is `is_root`, of
length 7.  The same holds with more flags set.  When no comma is trimmed (a date,
whose precision is written last) the value returned is the length of the string
left. -/
theorem fr_dict_snprint_flags_returns_untrimmed_length :
    fr_dict_snprint_flags dict_print_consts_sample 256 (some subtype_table_sample) 3
      { flags_none with is_root := true } = (8, "is_root".toList) ∧
    "is_root".toList.length = 7 ∧
    (fr_dict_snprint_flags dict_print_consts_sample 256 (some subtype_table_sample) 3
      { flags_none with is_root := true }).1 ≠
      ((fr_dict_snprint_flags dict_print_consts_sample 256 (some subtype_table_sample) 3
        { flags_none with is_root := true }).2.length : Int) ∧
    fr_dict_snprint_flags dict_print_consts_sample 256 (some subtype_table_sample) 3
      { flags_none with is_root := true, internal := true, length := 12 }
      = (27, "is_root,internal,length=12".toList) ∧
    "is_root,internal,length=12".toList.length = 26 ∧
    fr_dict_snprint_flags dict_print_consts_sample 256 (some subtype_table_sample) 10
      { flags_none with is_root := true } = (15, "is_root,seconds".toList) ∧
    "is_root,seconds".toList.length = 15 := by
  decide
